import Mathlib

/-!
The LogQL pattern-expression compiler of the engine's HLP module.

A shallow embedding of `src/engine/source/hlp/src/LogQLParser.cpp`: the lexer
(`getToken`, `peekToken`, `peekChar`), the capture resolver
(`splitSlashSeparatedField`, `parseCaptureString`), the capture grammar parser
(`parseCapture`) and the expression driver (`parseLogQlExpr`).

Conventions of the embedding.

* A character buffer (`const char *`, `std::string`, `std::string_view`) is a
  `List Char`.  The buffer `expr.c_str()` that the driver lexes is the bytes of
  the expression followed by the terminating NUL byte, and the tokenizer cursor
  `tk.stream` is the list of the bytes from the cursor to the end of the buffer,
  that terminator included.  The empty list is therefore a cursor behind the
  terminator, outside the buffer: `getToken` moves the cursor there when it
  reads the terminator.  A NUL byte of the expression itself is treated by the
  code as the end of the expression, and the bytes after it are still inside the
  buffer.
* A read outside the buffer is undefined behaviour and is a `Fault` of the run.
  The lexer functions themselves are total (on the empty list they see NUL); the
  driver tests for the empty list before the one read that the code makes
  behind the terminator, the peek after a failed capture.  Every token other
  than `EndOfExpr` and every successful `parseCapture` leave the cursor inside
  the buffer, and so do the reads inside `parseCapture` (`getToken_terminated`,
  `parseCapture_terminated`, `parseCapture_reads_inside`), so no other read of
  a run is made on the empty list.
* `std::vector<Parser>` is a `List Parser`.  The one place where the storage of
  the vector matters is the reference `prevCapture` of `parseCapture`, taken
  before an `emplace_back`: the growth behaviour of the vector is a parameter
  `grows`, telling for each size whether an `emplace_back` at that size moves
  the elements to new storage.
* The loop of the driver runs on fuel; `parseLogQlExpr` supplies one unit per
  byte of the buffer plus one.
-/

namespace LogQL

/-- The NUL byte that ends a C string. -/
def NUL : Char := Char.ofNat 0

/-- The backslash character. -/
def backslash : Char := Char.ofNat 92

/-- Modelled from the spec: the enumeration `ParserType` of `LogQLParser.hpp`, which is not
among the sources; these are the tags the code and the spec name. -/
inductive ParserType where
  | Any
  | Literal
  | IP
  | URL
  | JSON
  | Map
deriving DecidableEq, Repr

/-- Modelled from the spec: the enumeration `CombType` of `LogQLParser.hpp`, which is not among
the sources.  `Null` is the spec's `Single`, `Or` is the spec's `OrStart`. -/
inductive CombType where
  | Null
  | Optional
  | Or
  | OrEnd
deriving DecidableEq, Repr

/-- Modelled from the spec: the record `Parser` of `LogQLParser.hpp`, which is not among the
sources.  The spec lists a separate `literalText`; the code builds a literal directive from
the five-member aggregate `{ {}, {text, text + len}, Literal, Null, 0 }` and names five
members, so the record has these five, in the order of the aggregate: the text of a literal
directive is carried by the second member, `name`. -/
structure Parser where
  captureOpts : List (List Char)
  name : List Char
  parserType : ParserType
  combType : CombType
  endToken : Char
deriving DecidableEq, Repr

/-- The list of directives, `std::vector<Parser>`. -/
abbrev ParserList := List Parser

/-- The static table `ECSParserMapper`. -/
def ECSParserMapper : List (List Char × ParserType) :=
  [ ("source.ip".toList, ParserType.IP),
    ("server.ip".toList, ParserType.IP),
    ("source.nat.ip".toList, ParserType.IP),
    ("timestamp".toList, ParserType.Any),
    ("JSON".toList, ParserType.JSON),
    ("MAP".toList, ParserType.Map),
    ("url".toList, ParserType.URL),
    ("http.request.method".toList, ParserType.Any) ]

/-- The lookup `ECSParserMapper.find(key)`: the value stored under exactly `key`, if any. -/
def mapperFind (key : List Char) : Option ParserType :=
  List.lookup key ECSParserMapper

/-- The cursor of the lexer. -/
structure Tokenizer where
  stream : List Char
deriving DecidableEq, Repr

/-- The kinds of token; `_EndOfAscii = 256` of the source only numbers them and is left
out. -/
inductive TokenType where
  | OpenAngle
  | CloseAngle
  | QuestionMark
  | Literal
  | EndOfExpr
  | Unknown
  | Error
deriving DecidableEq, Repr

/-- A token: `text` is the view `text[0 .. len)`, so `len` is its length; the null view of an
`EndOfExpr` token is the empty list. -/
structure Token where
  text : List Char
  type : TokenType
deriving DecidableEq, Repr

/-- The byte under a cursor, `p[0]`: the head of the list.  On the empty list, a cursor
outside the buffer, the read is undefined in the code; the embedding sees NUL there and the
driver does not let a run get to such a read (`Fault.readPastEnd`). -/
def headByte : List Char → Char
  | [] => NUL
  | c :: _ => c

/-- The `while` loop of `getToken`: the number of bytes by which the cursor advances from the
given position, `escaped` being the flag on entry. -/
def literalRun : Bool → List Char → Nat
  | _, [] => 0
  | escaped, c :: cs =>
    if c != NUL && (escaped || (c != '<' && c != '>')) then
      literalRun (headByte cs == backslash) cs + 1
    else 0

/-- The lexer: the token under the cursor and the advanced cursor (`tk.stream++` comes first,
so the cursor moves on an `EndOfExpr` too: behind a NUL of the expression, or, when the NUL
is the terminator, behind the buffer, which is the empty list). -/
def getToken (tk : Tokenizer) : Token × Tokenizer :=
  let c := headByte tk.stream
  let stream := tk.stream.tail
  if c = '<' then (⟨['<'], TokenType.OpenAngle⟩, ⟨stream⟩)
  else if c = '>' then (⟨['>'], TokenType.CloseAngle⟩, ⟨stream⟩)
  else if c = '?' then (⟨['?'], TokenType.QuestionMark⟩, ⟨stream⟩)
  else if c = NUL then (⟨[], TokenType.EndOfExpr⟩, ⟨stream⟩)
  else
    let n := literalRun false stream
    (⟨c :: stream.take n, TokenType.Literal⟩, ⟨stream.drop n⟩)

/-- The next token, lexed from a copy of the cursor. -/
def peekToken (tk : Tokenizer) : Token :=
  (getToken ⟨tk.stream⟩).1

/-- The byte under the cursor. -/
def peekChar (tk : Tokenizer) : Char :=
  headByte tk.stream

/-- The position of the first `/` (`str.find`), `none` standing for `npos`. -/
def findSlash : List Char → Option Nat
  | [] => none
  | c :: cs => if c = '/' then some 0 else (findSlash cs).map (· + 1)

/-- The loop of `splitSlashSeparatedField` followed by the final `if`, on fuel: every turn
that finds a `/` drops at least that byte, so the length of the text is fuel enough. -/
def splitLoop : Nat → List Char → List (List Char) → List (List Char)
  | 0, str, ret => if str.isEmpty then ret else ret ++ [str]
  | n + 1, str, ret =>
    match findSlash str with
    | none => if str.isEmpty then ret else ret ++ [str]
    | some pos => splitLoop n (str.drop (pos + 1)) (ret ++ [str.take pos])

/-- The split of a capture text at its `/` bytes. -/
def splitSlashSeparatedField (str : List Char) : List (List Char) :=
  splitLoop str.length str []

/-- What stops a run of the compiler short of a result. -/
inductive Fault where
  /-- `parseCaptureString` read `captureParams[0]` of an empty vector (and `text[0]` of a
  null view): undefined behaviour. -/
  | emptyCapture
  /-- The fuel of the driver loop ran out. -/
  | outOfFuel
  /-- The peek of the driver behind a call of `parseCapture` (line 207) read `tk.stream[0]`
  with the cursor behind the terminator: a read outside the buffer, undefined behaviour. -/
  | readPastEnd
  /-- The scan `while (*end++ != '>')` of the diagnostic (line 210) met no `>` up to the end
  of the buffer and went on behind it: reads outside the buffer, undefined behaviour. -/
  | scanOverrun
deriving DecidableEq, Repr

/-- The capture resolver.  The type of the token is not looked at; on a token without text
`captureParams[0]` does not exist. -/
def parseCaptureString (token : Token) : Except Fault Parser :=
  match splitSlashSeparatedField token.text with
  | [] => Except.error Fault.emptyCapture
  | name :: opts =>
    let parser : Parser :=
      { captureOpts := opts, name := name, parserType := ParserType.Any,
        combType := CombType.Null, endToken := NUL }
    if headByte token.text != '_' then
      match mapperFind token.text with
      | some t => Except.ok { parser with parserType := t }
      | none => Except.ok parser
    else
      match opts with
      | [] => Except.ok parser
      | opt :: _ =>
        match mapperFind opt with
        | some t => Except.ok { parser with parserType := t }
        | none => Except.ok parser

/-- An assignment through `parsers.back()`. -/
def setBack (f : Parser → Parser) : ParserList → ParserList
  | [] => []
  | [p] => [f p]
  | p :: q :: ps => p :: setBack f (q :: ps)

/-- An assignment to the element at index `i`. -/
def setAt (f : Parser → Parser) : Nat → ParserList → ParserList
  | _, [] => []
  | 0, p :: ps => f p :: ps
  | i + 1, p :: ps => p :: setAt f i ps

/-- The capacity of a `std::vector` of libstdc++ after `n` insertions at the back into a
fresh one: 0, 1, 2, 4, 4, 8, ... (a full vector doubles, an empty one takes one slot). -/
def vectorCapacity : Nat → Nat
  | 0 => 0
  | n + 1 => if vectorCapacity n < n + 1 then max 1 (2 * vectorCapacity n) else vectorCapacity n

/-- Whether `emplace_back` on a vector of the given size moves its elements to new storage,
for a vector that has only ever grown at the back (libstdc++): the vector is full. -/
def vectorGrows (size : Nat) : Bool :=
  vectorCapacity size == size

/-- The end of the alternation branch of `parseCapture` (lines 167 to 174): the
`requireToken(CloseAngle)` after the second capture and the two stores of the terminator.
`prevIndex` is the position of the element `prevCapture` refers to, `prevDangles` tells
whether the `emplace_back` of line 163 moved the elements to new storage: the reference
`prevCapture` was taken before it (line 160), so in that case the store
`prevCapture.endToken = endToken` goes to the released storage and does not reach the list
(formally it is undefined behaviour). -/
def captureOrClose (prevDangles : Bool) (prevIndex : Nat) (tk : Tokenizer)
    (parsers : ParserList) : Except Fault (Bool × Tokenizer × ParserList) :=
  let close2 := getToken tk
  if close2.1.type != TokenType.CloseAngle then Except.ok (false, close2.2, parsers)
  else
    let endToken := peekChar close2.2
    let parsers := setBack (fun p => { p with endToken := endToken }) parsers
    let parsers :=
      if prevDangles then parsers
      else setAt (fun p => { p with endToken := endToken }) prevIndex parsers
    Except.ok (true, close2.2, parsers)

/-- The alternation branch of `parseCapture` (lines 151 to 166), entered when the peeked
token is `?`: the `?` is discarded, `<` is required, the previous capture becomes `Or`, and
the next token, whatever its type, is resolved into the second capture, `OrEnd`.
`grows size` tells whether `emplace_back` on a list of `size` elements reallocates. -/
def captureOr (grows : Nat → Bool) (tk : Tokenizer) (parsers : ParserList) :
    Except Fault (Bool × Tokenizer × ParserList) :=
  let open2 := getToken (getToken tk).2
  if open2.1.type != TokenType.OpenAngle then Except.ok (false, open2.2, parsers)
  else
    let prevIndex := parsers.length - 1
    let parsers := setBack (fun p => { p with combType := CombType.Or }) parsers
    let second := getToken open2.2
    match parseCaptureString second.1 with
    | Except.error e => Except.error e
    | Except.ok parser2 =>
      captureOrClose (grows parsers.length) prevIndex second.2
        (setBack (fun p => { p with combType := CombType.OrEnd }) (parsers ++ [parser2]))

/-- The body of `if (token.type == TokenType::Literal)` in `parseCapture` (lines 138 to
179). -/
def captureBody (grows : Nat → Bool) (optional : Bool) (token : Token) (tk : Tokenizer)
    (parsers : ParserList) : Except Fault (Bool × Tokenizer × ParserList) :=
  match parseCaptureString token with
  | Except.error e => Except.error e
  | Except.ok parser =>
    let close := getToken tk
    if close.1.type != TokenType.CloseAngle then Except.ok (false, close.2, parsers ++ [parser])
    else
      let parsers :=
        if optional then
          setBack (fun p => { p with combType := CombType.Optional }) (parsers ++ [parser])
        else parsers ++ [parser]
      if (peekToken close.2).type == TokenType.QuestionMark then captureOr grows close.2 parsers
      else
        Except.ok (true, close.2,
          setBack (fun p => { p with endToken := peekChar close.2 }) parsers)

/-- The capture grammar parser (lines 128 to 187); its nested blocks are `captureBody`,
`captureOr` and `captureOrClose`.  The result is the returned flag, the cursor and the
list. -/
def parseCapture (grows : Nat → Bool) (tk : Tokenizer) (parsers : ParserList) :
    Except Fault (Bool × Tokenizer × ParserList) :=
  let first := getToken tk
  let optional := first.1.type == TokenType.QuestionMark
  let cur := if optional then getToken first.2 else first
  if cur.1.type == TokenType.Literal then captureBody grows optional cur.1 cur.2 parsers
  else Except.ok (false, cur.2, parsers)

/-- How the driver loop ended: at the end of the expression, or on an error branch (one of the
two places that clear the list). -/
inductive DriverState where
  | Done
  | Failed
deriving DecidableEq, Repr

/-- The scan `while (*end++ != '>')` of the diagnostic: the number of bytes by which `end`
advances, `none` when the buffer holds no `>` from the cursor on (the loop has no test for the
end of the buffer, so the scan leaves it). -/
def scanClose : List Char → Option Nat
  | [] => none
  | c :: cs => if c = '>' then some 1 else (scanClose cs).map (· + 1)

/-- What the driver writes to `stderr`. -/
inductive Diagnostic where
  /-- No message. -/
  | silent
  /-- The back-to-back message, with the text printed for the span. -/
  | backToBack (span : List Char)
deriving DecidableEq, Repr

/-- The text `%.*s` prints: at most `width` bytes of `prev`, stopping at a NUL. -/
def printedSpan (prev : List Char) (width : Nat) : List Char :=
  (prev.take width).takeWhile (· != NUL)

/-- The diagnostic of the back-to-back branch (lines 209 to 215): `prev` is the buffer from
the `<` that opened the capture, `cur` the buffer from the cursor.  When the scan for `>`
leaves the buffer the run stops there, before the message and before `parsers.clear()`. -/
def backToBackDiagnostic (prev cur : List Char) : Except Fault Diagnostic :=
  match scanClose cur with
  | none => Except.error Fault.scanOverrun
  | some k =>
    Except.ok (Diagnostic.backToBack (printedSpan prev (prev.length - cur.length + k)))

/-- The outcome of a run of the driver: the returned list, how the loop ended, and the
diagnostic. -/
structure DriverResult where
  parsers : ParserList
  state : DriverState
  diagnostic : Diagnostic
deriving DecidableEq, Repr

/-- The loop `while (!done)` of `parseLogQlExpr`, on fuel.  The peek of line 207 comes behind
every call of `parseCapture`, also one that returned false; when that call has read the
terminator the cursor is behind it (the empty list) and the peek reads outside the buffer. -/
def driverLoop (grows : Nat → Bool) : Nat → Tokenizer → ParserList → Except Fault DriverResult
  | 0, _, _ => Except.error Fault.outOfFuel
  | fuel + 1, tokenizer, parsers =>
    let next := getToken tokenizer
    match next.1.type with
    | TokenType.OpenAngle =>
      match parseCapture grows next.2 parsers with
      | Except.error e => Except.error e
      | Except.ok (captured, tk, parsers) =>
        let parsers := if captured then parsers else []
        if tk.stream.isEmpty then Except.error Fault.readPastEnd
        else if (peekToken tk).type == TokenType.OpenAngle then
          match backToBackDiagnostic tokenizer.stream tk.stream with
          | Except.error e => Except.error e
          | Except.ok diagnostic => Except.ok ⟨[], DriverState.Failed, diagnostic⟩
        else if captured then driverLoop grows fuel tk parsers
        else Except.ok ⟨parsers, DriverState.Failed, Diagnostic.silent⟩
    | TokenType.Literal =>
      driverLoop grows fuel next.2
        (parsers ++ [⟨[], next.1.text, ParserType.Literal, CombType.Null, NUL⟩])
    | TokenType.EndOfExpr => Except.ok ⟨parsers, DriverState.Done, Diagnostic.silent⟩
    | _ => driverLoop grows fuel next.2 parsers

/-- A run of the driver on an expression, from the empty list of directives: the cursor
starts at the first byte of `expr.c_str()`, the bytes of the expression followed by the
terminator. -/
def runLogQlExpr (grows : Nat → Bool) (expr : List Char) : Except Fault DriverResult :=
  driverLoop grows (expr.length + 2) ⟨expr ++ [NUL]⟩ []

/-- The entry point: the list the driver returns. -/
def parseLogQlExpr (grows : Nat → Bool) (expr : List Char) : Except Fault ParserList :=
  (runLogQlExpr grows expr).map DriverResult.parsers

/-- The outcome of a capture parse that, when it succeeds, leaves the cursor right before a
`<` followed by `s`. -/
def StopsBeforeOpen (s : List Char) (res : Except Fault (Bool × Tokenizer × ParserList)) :
    Prop :=
  ∃ b tk ps, res = Except.ok (b, tk, ps) ∧ (b = true → tk.stream = '<' :: s)

/-- The outcome of a capture parse on a buffer that ends in `M`: when it succeeds, the cursor
is still before `M`, at most `bound` NUL-free bytes away from it, or it is right before a `<`
followed by `s`. -/
def StopsAtMarker (M s : List Char) (bound : Nat)
    (res : Except Fault (Bool × Tokenizer × ParserList)) : Prop :=
  ∃ b tk ps, res = Except.ok (b, tk, ps) ∧
    (b = true →
      (∃ q, tk.stream = q ++ M ∧ q.length ≤ bound ∧ NUL ∉ q) ∨ tk.stream = '<' :: s)

/-- The directives one call of `parseCapture` leaves behind the ones it found: one capture,
`Null` or `Optional`, or the two halves of an alternation, `Or` and `OrEnd`, which have the
same terminator when `sameEnd` is set. -/
def CaptureShape (sameEnd : Bool) (extra : ParserList) : Prop :=
  (∃ d, extra = [d] ∧ (d.combType = CombType.Null ∨ d.combType = CombType.Optional)) ∨
  (∃ d e, extra = [d, e] ∧ d.combType = CombType.Or ∧ e.combType = CombType.OrEnd ∧
    (sameEnd = true → d.endToken = e.endToken))

/-- The reference split of C11, after the words of the claim: the maximal `/`-free segments
of the text separated by `/`, in order (`List.splitOn`, which keeps empty segments), the
final segment dropped exactly when it is empty. -/
def referenceSplit (s : List Char) : List (List Char) :=
  if (s.splitOn '/').getLast? = some [] then (s.splitOn '/').dropLast else s.splitOn '/'

/-- The tokens that repeated calls of `getToken` return, each with the offset of its first
byte, up to the end of the expression (the `EndOfExpr` token is left out); on fuel, one unit
per token; `pos` is the offset of the cursor. -/
def tokenStream : Nat → Nat → Tokenizer → List (Nat × Token)
  | 0, _, _ => []
  | fuel + 1, pos, tk =>
    if (getToken tk).1.type = TokenType.EndOfExpr then []
    else (pos, (getToken tk).1) ::
      tokenStream fuel (pos + (getToken tk).1.text.length) (getToken tk).2

/-- The token stream of the buffer of an expression, its bytes followed by the terminator. -/
def lexAll (s : List Char) : List (Nat × Token) :=
  tokenStream (s.length + 2) 0 ⟨s ++ [NUL]⟩

/-- The relation of C13 between two neighbours of the list: the first is `Or` exactly when
the second is `OrEnd`, and, when `sameEnd` is set, an `Or` has the terminator of its
neighbour. -/
def PairRel (sameEnd : Bool) (x y : Parser) : Prop :=
  (x.combType = CombType.Or ↔ y.combType = CombType.OrEnd) ∧
  (sameEnd = true → x.combType = CombType.Or → x.endToken = y.endToken)

/-- The invariant of the driver loop behind C13: neighbours are related by `PairRel`, and the
last directive is not an `Or`. -/
def PairInvariant (sameEnd : Bool) (ps : ParserList) : Prop :=
  List.Chain' (PairRel sameEnd) ps ∧ ∀ x ∈ ps.getLast?, x.combType ≠ CombType.Or

/-- The invariant behind C25: every directive of type `Literal` in the list has a text that
is not empty, holds none of `<`, `>` and NUL, and is a run of consecutive bytes of the buffer
`buf`. -/
def LiteralsWithin (buf : List Char) (ps : ParserList) : Prop :=
  ∀ d ∈ ps, d.parserType = ParserType.Literal →
    d.name ≠ [] ∧ '<' ∉ d.name ∧ '>' ∉ d.name ∧ NUL ∉ d.name ∧ d.name <:+: buf

/-- A cursor inside the buffer: the bytes from the cursor to the end of the buffer are not
empty and end in the terminator. -/
def Terminated (stream : List Char) : Prop :=
  stream.getLast? = some NUL

/-! ## The lexer -/

theorem literalRun_plain (t rest : List Char) (b : Bool)
    (hb : b = false ∨ t ≠ [])
    (h1 : '<' ∉ t) (h2 : '>' ∉ t) (h0 : NUL ∉ t)
    (hrest : headByte rest = '<' ∨ headByte rest = '>' ∨ headByte rest = NUL) :
    literalRun b (t ++ rest) = t.length := by
  induction t generalizing b with
  | nil =>
    have hb0 : b = false := by simpa using hb
    subst hb0
    cases rest with
    | nil => simp [literalRun]
    | cons c r =>
      simp only [headByte] at hrest
      rcases hrest with h | h | h <;> subst h <;> simp [literalRun, NUL]
  | cons c t ih =>
    simp only [List.mem_cons, not_or] at h1 h2 h0
    have hflag : t = [] → (headByte (t ++ rest) == backslash) = false := by
      intro ht
      subst ht
      rw [List.nil_append]
      rcases hrest with h | h | h <;> rw [h] <;> decide
    have hih := ih (headByte (t ++ rest) == backslash)
      (by by_cases ht : t = []
          · exact Or.inl (hflag ht)
          · exact Or.inr ht) h1.2 h2.2 h0.2
    have hc1 : c ≠ '<' := fun h => h1.1 h.symm
    have hc2 : c ≠ '>' := fun h => h2.1 h.symm
    have hc0 : c ≠ NUL := fun h => h0.1 h.symm
    have hcond : (c != NUL && (b || (c != '<' && c != '>'))) = true := by
      simp [hc1, hc2, hc0]
    rw [List.cons_append, literalRun, if_pos hcond, hih, List.length_cons]

theorem getToken_open (r : List Char) :
    getToken ⟨'<' :: r⟩ = (⟨['<'], TokenType.OpenAngle⟩, ⟨r⟩) := rfl

theorem getToken_close (r : List Char) :
    getToken ⟨'>' :: r⟩ = (⟨['>'], TokenType.CloseAngle⟩, ⟨r⟩) := rfl

theorem getToken_question (r : List Char) :
    getToken ⟨'?' :: r⟩ = (⟨['?'], TokenType.QuestionMark⟩, ⟨r⟩) := rfl

theorem getToken_nil : getToken ⟨[]⟩ = (⟨[], TokenType.EndOfExpr⟩, ⟨[]⟩) := rfl

theorem getToken_nul (r : List Char) :
    getToken ⟨NUL :: r⟩ = (⟨[], TokenType.EndOfExpr⟩, ⟨r⟩) := rfl

/-- A byte that is none of `<`, `>`, `?`, NUL starts a literal run, which takes the plain
text after it up to the next `<`, `>` or NUL. -/
theorem getToken_literal (c : Char) (t rest : List Char)
    (hc1 : c ≠ '<') (hc2 : c ≠ '>') (hc3 : c ≠ '?') (hc0 : c ≠ NUL)
    (h1 : '<' ∉ t) (h2 : '>' ∉ t) (h0 : NUL ∉ t)
    (hrest : headByte rest = '<' ∨ headByte rest = '>' ∨ headByte rest = NUL) :
    getToken ⟨c :: (t ++ rest)⟩ = (⟨c :: t, TokenType.Literal⟩, ⟨rest⟩) := by
  have hrun := literalRun_plain t rest false (Or.inl rfl) h1 h2 h0 hrest
  simp only [getToken, headByte, List.tail_cons, if_neg hc1, if_neg hc2, if_neg hc3,
    if_neg hc0, hrun, List.take_left, List.drop_left]

theorem getToken_type (s : List Char) :
    (getToken ⟨s⟩).1.type =
      if headByte s = '<' then TokenType.OpenAngle
      else if headByte s = '>' then TokenType.CloseAngle
      else if headByte s = '?' then TokenType.QuestionMark
      else if headByte s = NUL then TokenType.EndOfExpr
      else TokenType.Literal := by
  simp only [getToken]
  split_ifs <;> rfl

theorem peekToken_type (tk : Tokenizer) :
    (peekToken tk).type =
      if headByte tk.stream = '<' then TokenType.OpenAngle
      else if headByte tk.stream = '>' then TokenType.CloseAngle
      else if headByte tk.stream = '?' then TokenType.QuestionMark
      else if headByte tk.stream = NUL then TokenType.EndOfExpr
      else TokenType.Literal :=
  getToken_type tk.stream

theorem peekToken_question (tk : Tokenizer) :
    ((peekToken tk).type == TokenType.QuestionMark) = decide (headByte tk.stream = '?') := by
  rw [peekToken_type]
  by_cases h : headByte tk.stream = '?'
  · rw [h]; rfl
  · rw [decide_eq_false h]
    split_ifs <;> rfl

theorem peekToken_open (tk : Tokenizer) :
    ((peekToken tk).type == TokenType.OpenAngle) = decide (headByte tk.stream = '<') := by
  rw [peekToken_type]
  by_cases h : headByte tk.stream = '<'
  · rw [h]; rfl
  · rw [decide_eq_false h]
    split_ifs <;> rfl

theorem setBack_append (f : Parser → Parser) (ps : ParserList) (d : Parser) :
    setBack f (ps ++ [d]) = ps ++ [f d] := by
  induction ps with
  | nil => rfl
  | cons p ps ih =>
    cases ps with
    | nil => rfl
    | cons q qs =>
      simp only [List.cons_append] at ih ⊢
      rw [setBack, ih]

/-! ## The capture resolver -/

theorem splitLoop_length (n : Nat) :
    ∀ (str : List Char) (ret : List (List Char)),
      ret.length ≤ (splitLoop n str ret).length ∧
      (str ≠ [] → ret.length < (splitLoop n str ret).length) := by
  induction n with
  | zero =>
    intro str ret
    cases str <;> simp [splitLoop]
  | succ n ih =>
    intro str ret
    rw [splitLoop]
    split
    · cases str <;> simp
    · rename_i pos _
      have h := (ih (str.drop (pos + 1)) (ret ++ [str.take pos])).1
      simp only [List.length_append, List.length_singleton] at h
      exact ⟨by omega, fun _ => by omega⟩

theorem splitSlashSeparatedField_ne_nil (t : List Char) (ht : t ≠ []) :
    splitSlashSeparatedField t ≠ [] := by
  intro h
  have := (splitLoop_length t.length t []).2 ht
  rw [splitSlashSeparatedField] at h
  rw [h] at this
  simp at this

/-- The directive `parseCaptureString` builds, in one expression. -/
theorem parseCaptureString_eq (token : Token) :
    parseCaptureString token =
      match splitSlashSeparatedField token.text with
      | [] => Except.error Fault.emptyCapture
      | name :: opts =>
        Except.ok ⟨opts, name,
          ((if headByte token.text != '_' then mapperFind token.text
            else opts.head?.bind mapperFind).getD ParserType.Any),
          CombType.Null, NUL⟩ := by
  rw [parseCaptureString]
  split
  · rfl
  · rename_i name opts _
    by_cases h : (headByte token.text != '_') = true
    · simp only [h, if_true]
      cases mapperFind token.text <;> rfl
    · simp only [h]
      cases opts with
      | nil => rfl
      | cons opt rest =>
        simp only [List.head?_cons, Option.some_bind]
        cases mapperFind opt <;> rfl

theorem parseCaptureString_ok (token : Token) (ht : token.text ≠ []) :
    ∃ d, parseCaptureString token = Except.ok d := by
  rw [parseCaptureString_eq]
  have h := splitSlashSeparatedField_ne_nil token.text ht
  cases hs : splitSlashSeparatedField token.text with
  | nil => exact absurd hs h
  | cons name opts => exact ⟨_, rfl⟩

theorem mapperFind_some_mem (key : List Char) (v : ParserType)
    (h : mapperFind key = some v) : (key, v) ∈ ECSParserMapper := by
  simp only [mapperFind, ECSParserMapper, List.lookup] at h
  repeat' split at h
  all_goals simp_all [ECSParserMapper]

theorem mapperFind_of_mem (key : List Char) (v : ParserType)
    (h : (key, v) ∈ ECSParserMapper) : mapperFind key = some v := by
  simp only [ECSParserMapper, List.mem_cons, Prod.mk.injEq, List.mem_singleton,
    List.not_mem_nil, or_false] at h
  rcases h with h | h | h | h | h | h | h | h
  all_goals
    obtain ⟨hk, hv⟩ := h
    subst hk hv
    rfl

/-- C8: a capture text that starts with `_` takes its type from its first option: the table
value stored under exactly that option when there is an option and it is a key of the table,
and `Any` in every other case (no option, or an option that is not a key). -/
theorem C8_anonymous_capture_type (t : List Char) (ty : TokenType)
    (hstart : t.head? = some '_') :
    ∃ d, parseCaptureString ⟨t, ty⟩ = Except.ok d ∧
      d.captureOpts = (splitSlashSeparatedField t).tail ∧
      d.parserType = (d.captureOpts.head?.bind mapperFind).getD ParserType.Any ∧
      (∀ opt rest v, d.captureOpts = opt :: rest → (opt, v) ∈ ECSParserMapper →
        d.parserType = v) ∧
      (∀ opt rest, d.captureOpts = opt :: rest → (∀ v, (opt, v) ∉ ECSParserMapper) →
        d.parserType = ParserType.Any) ∧
      (d.captureOpts = [] → d.parserType = ParserType.Any) := by
  cases t with
  | nil => simp at hstart
  | cons c t =>
    simp only [List.head?_cons, Option.some.injEq] at hstart
    subst hstart
    have hne := splitSlashSeparatedField_ne_nil ('_' :: t) (by simp)
    rw [parseCaptureString_eq]
    cases hs : splitSlashSeparatedField ('_' :: t) with
    | nil => exact absurd hs hne
    | cons name opts =>
      refine ⟨_, rfl, rfl, ?_, ?_, ?_, ?_⟩
      · simp [headByte]
      · intro opt rest v hopts hmem
        simp only at hopts
        simp [headByte, hopts, mapperFind_of_mem opt v hmem]
      · intro opt rest hopts hno
        simp only at hopts
        cases hf : mapperFind opt with
        | none => simp [headByte, hopts, hf]
        | some v => exact absurd (mapperFind_some_mem opt v hf) (hno v)
      · intro hopts
        simp only at hopts
        simp [headByte, hopts]

/-- The examples of C8: `_ip/IP` resolves to `Any` (`IP` is no key of the table), `_x/JSON`
to `JSON`, and `_x/json` to `Any` (the keys are case-sensitive). -/
theorem C8_anonymous_capture_type_witness :
    (parseCaptureString ⟨"_ip/IP".toList, TokenType.Literal⟩).map Parser.parserType
        = Except.ok ParserType.Any ∧
    (parseCaptureString ⟨"_x/JSON".toList, TokenType.Literal⟩).map Parser.parserType
        = Except.ok ParserType.JSON ∧
    (parseCaptureString ⟨"_x/json".toList, TokenType.Literal⟩).map Parser.parserType
        = Except.ok ParserType.Any := by
  refine ⟨?_, ?_, ?_⟩
  · obtain ⟨d, hd, hopts, -, -, hmiss, -⟩ :=
      C8_anonymous_capture_type "_ip/IP".toList TokenType.Literal rfl
    rw [hd]
    exact congrArg Except.ok (hmiss "IP".toList [] hopts (fun v => by cases v <;> decide))
  · obtain ⟨d, hd, hopts, -, hhit, -, -⟩ :=
      C8_anonymous_capture_type "_x/JSON".toList TokenType.Literal rfl
    rw [hd]
    exact congrArg Except.ok (hhit "JSON".toList [] ParserType.JSON hopts (by decide))
  · obtain ⟨d, hd, hopts, -, -, hmiss, -⟩ :=
      C8_anonymous_capture_type "_x/json".toList TokenType.Literal rfl
    rw [hd]
    exact congrArg Except.ok (hmiss "json".toList [] hopts (fun v => by cases v <;> decide))

/-- C9: a capture text that contains `/` and does not start with `_` resolves to `Any`: the
whole text is looked up, and no key of the table contains a `/`. -/
theorem C9_qualified_name_is_any (t : List Char) (ty : TokenType)
    (hslash : '/' ∈ t) (hstart : t.head? ≠ some '_') :
    ∃ d, parseCaptureString ⟨t, ty⟩ = Except.ok d ∧ d.parserType = ParserType.Any := by
  have ht : t ≠ [] := by
    intro h
    simp [h] at hslash
  have hne := splitSlashSeparatedField_ne_nil t ht
  have hmiss : mapperFind t = none := by
    cases hf : mapperFind t with
    | none => rfl
    | some v =>
      exfalso
      have hmem := mapperFind_some_mem t v hf
      simp only [ECSParserMapper, List.mem_cons, Prod.mk.injEq, List.mem_singleton,
        List.not_mem_nil, or_false] at hmem
      rcases hmem with h | h | h | h | h | h | h | h
      all_goals
        rw [h.1] at hslash
        revert hslash
        decide
  have hhead : (headByte t != '_') = true := by
    cases t with
    | nil => exact absurd rfl ht
    | cons c r =>
      simp only [List.head?_cons, ne_eq, Option.some.injEq] at hstart
      simpa using hstart
  rw [parseCaptureString_eq]
  cases hs : splitSlashSeparatedField t with
  | nil => exact absurd hs hne
  | cons name opts =>
    refine ⟨_, rfl, ?_⟩
    simp only [hhead, if_true, hmiss]
    rfl

/-- The example of C9: `source.ip` is a key mapped to `IP`, and `source.ip/x` resolves to
`Any`. -/
theorem C9_qualified_name_is_any_witness :
    mapperFind "source.ip".toList = some ParserType.IP ∧
    (parseCaptureString ⟨"source.ip/x".toList, TokenType.Literal⟩).map Parser.parserType
      = Except.ok ParserType.Any := by
  refine ⟨rfl, ?_⟩
  obtain ⟨d, hd, hty⟩ :=
    C9_qualified_name_is_any "source.ip/x".toList TokenType.Literal (by decide) (by decide)
  rw [hd]
  exact congrArg Except.ok hty

/-- C10: for a non-empty capture text the directive has the first element of the split as
its name and the remaining elements, in order, as its options; the combinator is `Null`, the
terminator 0, and the type is `Any` unless the lookup made for the text hits (the whole text
when it does not start with `_`, the first option otherwise). -/
theorem C10_name_and_options (t : List Char) (ty : TokenType) (ht : t ≠ []) :
    ∃ d, parseCaptureString ⟨t, ty⟩ = Except.ok d ∧
      splitSlashSeparatedField t = d.name :: d.captureOpts ∧
      d.combType = CombType.Null ∧ d.endToken = NUL ∧
      d.parserType =
        ((if headByte t != '_' then mapperFind t
          else d.captureOpts.head?.bind mapperFind).getD ParserType.Any) := by
  have hne := splitSlashSeparatedField_ne_nil t ht
  rw [parseCaptureString_eq]
  cases hs : splitSlashSeparatedField t with
  | nil => exact absurd hs hne
  | cons name opts => exact ⟨_, rfl, rfl, rfl, rfl, rfl⟩

/-- The example of C10: `_name/type/type2` has the name `_name` and the options `type`,
`type2`. -/
theorem C10_name_and_options_witness :
    parseCaptureString ⟨"_name/type/type2".toList, TokenType.Literal⟩ =
      Except.ok ⟨["type".toList, "type2".toList], "_name".toList, ParserType.Any,
        CombType.Null, NUL⟩ := by
  obtain ⟨d, hd, hsplit, hcomb, hend, hty⟩ :=
    C10_name_and_options "_name/type/type2".toList TokenType.Literal (by decide)
  rw [hd]
  have hs : splitSlashSeparatedField "_name/type/type2".toList =
      ["_name".toList, "type".toList, "type2".toList] := by decide
  rw [hs] at hsplit
  obtain ⟨opts, name, pty, comb, e⟩ := d
  simp only [List.cons.injEq] at hsplit
  obtain ⟨hname, hopts⟩ := hsplit
  simp only at hcomb hend hty
  subst hname hopts hcomb hend
  rw [hty]
  rfl

/-! ## The capture grammar parser -/

theorem parseCapture_eq (grows : Nat → Bool) (tk : Tokenizer) (parsers : ParserList) :
    parseCapture grows tk parsers =
      if ((getToken tk).1.type == TokenType.QuestionMark) = true then
        if ((getToken (getToken tk).2).1.type == TokenType.Literal) = true then
          captureBody grows true (getToken (getToken tk).2).1 (getToken (getToken tk).2).2 parsers
        else Except.ok (false, (getToken (getToken tk).2).2, parsers)
      else
        if ((getToken tk).1.type == TokenType.Literal) = true then
          captureBody grows false (getToken tk).1 (getToken tk).2 parsers
        else Except.ok (false, (getToken tk).2, parsers) := by
  by_cases h : ((getToken tk).1.type == TokenType.QuestionMark) = true
  · simp only [parseCapture, h, if_true]
  · simp only [parseCapture, h, if_false]
    rfl

/-- A single capture `name>` not followed by `?`: one directive is appended, with the byte
after the `>` as its terminator, and the cursor stays on that byte. -/
theorem parseCapture_single (grows : Nat → Bool) (c : Char) (t rest : List Char)
    (ps : ParserList)
    (hc1 : c ≠ '<') (hc2 : c ≠ '>') (hc3 : c ≠ '?') (hc0 : c ≠ NUL)
    (h1 : '<' ∉ t) (h2 : '>' ∉ t) (h0 : NUL ∉ t)
    (hrest : headByte rest ≠ '?') :
    parseCapture grows ⟨c :: (t ++ '>' :: rest)⟩ ps =
      match parseCaptureString ⟨c :: t, TokenType.Literal⟩ with
      | Except.error e => Except.error e
      | Except.ok d =>
        Except.ok (true, ⟨rest⟩, ps ++ [{ d with endToken := headByte rest }]) := by
  have hlit := getToken_literal c t ('>' :: rest) hc1 hc2 hc3 hc0 h1 h2 h0 (Or.inr (Or.inl rfl))
  have hpeek : ((peekToken ⟨rest⟩).type == TokenType.QuestionMark) = false := by
    rw [peekToken_question]
    simpa using hrest
  rw [parseCapture_eq]
  simp only [hlit, captureBody, getToken_close, hpeek]
  cases parseCaptureString ⟨c :: t, TokenType.Literal⟩ with
  | error e => rfl
  | ok d => simp [setBack_append, peekChar]

/-! ## The driver -/

theorem driverLoop_literal (grows : Nat → Bool) (n : Nat) (tk tk2 : Tokenizer)
    (text : List Char) (ps : ParserList)
    (h : getToken tk = (⟨text, TokenType.Literal⟩, tk2)) :
    driverLoop grows (n + 1) tk ps =
      driverLoop grows n tk2 (ps ++ [⟨[], text, ParserType.Literal, CombType.Null, NUL⟩]) := by
  rw [driverLoop]
  simp only [h]

theorem driverLoop_end (grows : Nat → Bool) (n : Nat) (tk : Tokenizer) (ps : ParserList)
    (h : (getToken tk).1.type = TokenType.EndOfExpr) :
    driverLoop grows (n + 1) tk ps = Except.ok ⟨ps, DriverState.Done, Diagnostic.silent⟩ := by
  rw [driverLoop]
  simp only [h]

theorem driverLoop_close (grows : Nat → Bool) (n : Nat) (tk : Tokenizer) (ps : ParserList)
    (h : (getToken tk).1.type = TokenType.CloseAngle) :
    driverLoop grows (n + 1) tk ps = driverLoop grows n (getToken tk).2 ps := by
  rw [driverLoop]
  simp only [h]

theorem driverLoop_question (grows : Nat → Bool) (n : Nat) (tk : Tokenizer) (ps : ParserList)
    (h : (getToken tk).1.type = TokenType.QuestionMark) :
    driverLoop grows (n + 1) tk ps = driverLoop grows n (getToken tk).2 ps := by
  rw [driverLoop]
  simp only [h]

theorem isEmpty_of_ne_nil (s : List Char) (h : s ≠ []) : s.isEmpty = false := by
  cases s with
  | nil => exact absurd rfl h
  | cons c t => rfl

/-- The turn of the driver loop at a `<`, the call of `parseCapture` having returned: a read
outside the buffer when the cursor is behind the terminator, the back-to-back branch when the
next token is `<`, the next turn after a capture, the silent failure otherwise. -/
theorem driverLoop_after_capture (grows : Nat → Bool) (m : Nat) (tk0 : Tokenizer)
    (ps0 : ParserList) (b : Bool) (tk2 : Tokenizer) (ps2 : ParserList)
    (hty : (getToken tk0).1.type = TokenType.OpenAngle)
    (hpc : parseCapture grows (getToken tk0).2 ps0 = Except.ok (b, tk2, ps2)) :
    driverLoop grows (m + 1) tk0 ps0 =
      if tk2.stream = [] then Except.error Fault.readPastEnd
      else if (peekToken tk2).type = TokenType.OpenAngle then
        match backToBackDiagnostic tk0.stream tk2.stream with
        | Except.error e => Except.error e
        | Except.ok d => Except.ok ⟨[], DriverState.Failed, d⟩
      else if b = true then driverLoop grows m tk2 ps2
      else Except.ok ⟨[], DriverState.Failed, Diagnostic.silent⟩ := by
  conv_lhs => rw [driverLoop]
  simp only [hty, hpc]
  by_cases he : tk2.stream = []
  · simp [he]
  · rw [if_neg he]
    simp only [isEmpty_of_ne_nil _ he, Bool.false_eq_true, if_false]
    by_cases hp : (peekToken tk2).type = TokenType.OpenAngle
    · simp [hp]
    · cases b <;> simp [hp]

/-- The driver on a `<` whose capture parses and leaves the cursor inside the buffer: the
loop takes the back-to-back branch when the next byte is `<` and goes on otherwise. -/
theorem driverLoop_capture (grows : Nat → Bool) (n : Nat) (r : List Char) (ps ps2 : ParserList)
    (tk2 : Tokenizer)
    (h : parseCapture grows ⟨r⟩ ps = Except.ok (true, tk2, ps2)) (hne : tk2.stream ≠ []) :
    driverLoop grows (n + 1) ⟨'<' :: r⟩ ps =
      if headByte tk2.stream = '<' then
        match backToBackDiagnostic ('<' :: r) tk2.stream with
        | Except.error e => Except.error e
        | Except.ok d => Except.ok ⟨[], DriverState.Failed, d⟩
      else driverLoop grows n tk2 ps2 := by
  rw [driverLoop_after_capture grows n ⟨'<' :: r⟩ ps true tk2 ps2 rfl h, if_neg hne]
  by_cases hh : headByte tk2.stream = '<'
  · rw [if_pos hh, if_pos (by rw [peekToken_type, if_pos hh])]
  · rw [if_neg hh, if_neg (by rw [peekToken_type, if_neg hh]; split_ifs <;> decide),
      if_pos rfl]

/-- The driver on a `<` whose capture does not parse, the cursor being left inside the buffer
and not before a `<`: the loop fails with the empty list and no diagnostic. -/
theorem driverLoop_capture_failed (grows : Nat → Bool) (n : Nat) (r : List Char)
    (ps ps2 : ParserList) (tk2 : Tokenizer)
    (h : parseCapture grows ⟨r⟩ ps = Except.ok (false, tk2, ps2)) (hne : tk2.stream ≠ [])
    (hh : headByte tk2.stream ≠ '<') :
    driverLoop grows (n + 1) ⟨'<' :: r⟩ ps =
      Except.ok ⟨[], DriverState.Failed, Diagnostic.silent⟩ := by
  rw [driverLoop_after_capture grows n ⟨'<' :: r⟩ ps false tk2 ps2 rfl h, if_neg hne,
    if_neg (by rw [peekToken_type, if_neg hh]; split_ifs <;> decide), if_neg (by decide)]

theorem parseCaptureString_fields (token : Token) (d : Parser)
    (h : parseCaptureString token = Except.ok d) :
    d.combType = CombType.Null ∧ d.endToken = NUL := by
  rw [parseCaptureString_eq] at h
  split at h
  · cases h
  · cases h
    exact ⟨rfl, rfl⟩

theorem getToken_no_close (s : List Char) (h : '>' ∉ s) :
    (getToken ⟨s⟩).1.type ≠ TokenType.CloseAngle ∧ '>' ∉ (getToken ⟨s⟩).2.stream := by
  cases s with
  | nil => rw [getToken_nil]; simp
  | cons c r =>
    simp only [List.mem_cons, not_or] at h
    have hc : c ≠ '>' := fun e => h.1 e.symm
    simp only [getToken, headByte, List.tail_cons]
    split_ifs
    · exact ⟨by simp, h.2⟩
    · exact ⟨by simp, h.2⟩
    · exact ⟨by simp, h.2⟩
    · exact ⟨by simp, fun hm => h.2 (List.mem_of_mem_drop hm)⟩

theorem getToken_literal_text (tk : Tokenizer)
    (h : (getToken tk).1.type = TokenType.Literal) : (getToken tk).1.text ≠ [] := by
  revert h
  simp only [getToken]
  split_ifs <;> simp

/-- On a buffer without `>` the capture parser returns false: it never sees the token that
closes a capture. -/
theorem parseCapture_no_close (grows : Nat → Bool) (s : List Char) (ps : ParserList)
    (h : '>' ∉ s) : ∃ tk2 ps2, parseCapture grows ⟨s⟩ ps = Except.ok (false, tk2, ps2) := by
  have body : ∀ (opt : Bool) (tk : Tokenizer), '>' ∉ tk.stream →
      (getToken tk).1.type = TokenType.Literal →
      ∃ tk2 ps2, captureBody grows opt (getToken tk).1 (getToken tk).2 ps
        = Except.ok (false, tk2, ps2) := by
    intro opt tk hs hl
    obtain ⟨d, hd⟩ := parseCaptureString_ok _ (getToken_literal_text tk hl)
    have hc := getToken_no_close _ (getToken_no_close tk.stream hs).2
    simp only [captureBody, hd]
    rw [if_pos (by simpa using hc.1)]
    exact ⟨_, _, rfl⟩
  rw [parseCapture_eq]
  by_cases hq : ((getToken ⟨s⟩).1.type == TokenType.QuestionMark) = true
  · rw [if_pos hq]
    by_cases hl : ((getToken (getToken ⟨s⟩).2).1.type == TokenType.Literal) = true
    · rw [if_pos hl]
      exact body true _ (getToken_no_close s h).2 (by simpa using hl)
    · rw [if_neg hl]
      exact ⟨_, _, rfl⟩
  · rw [if_neg hq]
    by_cases hl : ((getToken ⟨s⟩).1.type == TokenType.Literal) = true
    · rw [if_pos hl]
      exact body false ⟨s⟩ h (by simpa using hl)
    · rw [if_neg hl]
      exact ⟨_, _, rfl⟩

/-- The driver on plain text (no `<`, `>`, NUL) that ends before a `<`, a `>`, a NUL or the
end of the buffer: the text is consumed in at most as many turns as it has bytes. -/
theorem driverLoop_plain (grows : Nat → Bool) (rest : List Char)
    (hrest : headByte rest = '<' ∨ headByte rest = '>' ∨ headByte rest = NUL) :
    ∀ (p : List Char) (n : Nat) (ps : ParserList), '<' ∉ p → '>' ∉ p → NUL ∉ p →
      ∃ ps2 m, n ≤ m + p.length ∧
        driverLoop grows n ⟨p ++ rest⟩ ps = driverLoop grows m ⟨rest⟩ ps2 := by
  intro p
  induction p with
  | nil => intro n ps _ _ _; exact ⟨ps, n, by simp, rfl⟩
  | cons c p ih =>
    intro n ps h1 h2 h0
    simp only [List.mem_cons, not_or] at h1 h2 h0
    cases n with
    | zero => exact ⟨ps, 0, by simp, rfl⟩
    | succ k =>
      by_cases hq : c = '?'
      · subst hq
        obtain ⟨ps2, m, hm, heq⟩ := ih k ps h1.2 h2.2 h0.2
        refine ⟨ps2, m, by simp only [List.length_cons]; omega, ?_⟩
        rw [List.cons_append, driverLoop_question _ _ _ _ (by rw [getToken_question]),
          getToken_question]
        exact heq
      · have hlit := getToken_literal c p rest (fun e => h1.1 e.symm) (fun e => h2.1 e.symm) hq
          (fun e => h0.1 e.symm) h1.2 h2.2 h0.2 hrest
        refine ⟨ps ++ [⟨[], c :: p, ParserType.Literal, CombType.Null, NUL⟩], k,
          by simp only [List.length_cons]; omega, ?_⟩
        rw [List.cons_append, driverLoop_literal grows k _ _ _ ps hlit]

theorem headByte_ne_of_not_mem (s : List Char) (c : Char) (hs : s ≠ []) (h : c ∉ s) :
    headByte s ≠ c := by
  cases s with
  | nil => exact absurd rfl hs
  | cons a r =>
    simp only [List.mem_cons, not_or] at h
    exact fun e => h.1 e.symm

theorem headByte_ne_of_head (s : List Char) (c : Char) (hs : s ≠ []) (h : s.head? ≠ some c) :
    headByte s ≠ c := by
  cases s with
  | nil => exact absurd rfl hs
  | cons a r => simpa using h

theorem headByte_append (s r : List Char) (hs : s ≠ []) : headByte (s ++ r) = headByte s := by
  cases s with
  | nil => exact absurd rfl hs
  | cons c t => rfl

theorem headByte_append_nul (s : List Char) : headByte (s ++ [NUL]) = headByte s := by
  cases s <;> rfl

/-- The driver on a literal run that ends the expression: one literal directive, then the
terminator. -/
theorem driverLoop_last_literal (grows : Nat → Bool) (n : Nat) (s : List Char) (ps : ParserList)
    (hs : s ≠ []) (h1 : '<' ∉ s) (h2 : '>' ∉ s) (h0 : NUL ∉ s) (hq : s.head? ≠ some '?') :
    driverLoop grows (n + 2) ⟨s ++ [NUL]⟩ ps =
      Except.ok ⟨ps ++ [⟨[], s, ParserType.Literal, CombType.Null, NUL⟩],
        DriverState.Done, Diagnostic.silent⟩ := by
  cases s with
  | nil => exact absurd rfl hs
  | cons c t =>
    simp only [List.mem_cons, not_or] at h1 h2 h0
    have hlit := getToken_literal c t [NUL] (fun e => h1.1 e.symm) (fun e => h2.1 e.symm)
      (by simpa using hq) (fun e => h0.1 e.symm) h1.2 h2.2 h0.2 (Or.inr (Or.inr rfl))
    rw [List.cons_append, driverLoop_literal grows (n + 1) _ _ _ ps hlit,
      driverLoop_end grows n _ _ (by rw [getToken_nul])]

/-- C5: order and terminator of a single capture.  For non-empty `L1`, `c`, `L2` without `<`,
`>` and NUL that do not start with `?`, the expression `L1<c>L2` yields three directives in
source order: the literal `L1`, the capture resolved from `c` with combinator `Null` and the
first byte of `L2` as terminator, and the literal holding the whole of `L2`. -/
theorem C5_single_capture_order (grows : Nat → Bool) (L1 c L2 : List Char)
    (hL1 : L1 ≠ []) (hL1o : '<' ∉ L1) (hL1c : '>' ∉ L1) (hL1q : L1.head? ≠ some '?')
    (hL1z : NUL ∉ L1)
    (hc : c ≠ []) (hco : '<' ∉ c) (hcc : '>' ∉ c) (hcq : c.head? ≠ some '?') (hcz : NUL ∉ c)
    (hL2 : L2 ≠ []) (hL2o : '<' ∉ L2) (hL2c : '>' ∉ L2) (hL2q : L2.head? ≠ some '?')
    (hL2z : NUL ∉ L2) :
    ∃ d, parseCaptureString ⟨c, TokenType.Literal⟩ = Except.ok d ∧
      d.combType = CombType.Null ∧
      parseLogQlExpr grows (L1 ++ '<' :: (c ++ '>' :: L2)) =
        Except.ok [⟨[], L1, ParserType.Literal, CombType.Null, NUL⟩,
          { d with endToken := headByte L2 },
          ⟨[], L2, ParserType.Literal, CombType.Null, NUL⟩] := by
  obtain ⟨d, hd⟩ := parseCaptureString_ok ⟨c, TokenType.Literal⟩ hc
  refine ⟨d, hd, (parseCaptureString_fields _ d hd).1, ?_⟩
  obtain ⟨a, L1t, rfl⟩ := List.exists_cons_of_ne_nil hL1
  obtain ⟨b, ct, rfl⟩ := List.exists_cons_of_ne_nil hc
  simp only [List.mem_cons, not_or] at hL1o hL1c hL1z hco hcc hcz
  have hhead := headByte_append L2 [NUL] hL2
  have hcap := parseCapture_single grows b ct (L2 ++ [NUL])
    [⟨[], a :: L1t, ParserType.Literal, CombType.Null, NUL⟩]
    (fun e => hco.1 e.symm) (fun e => hcc.1 e.symm) (by simpa using hcq)
    (fun e => hcz.1 e.symm) hco.2 hcc.2 hcz.2
    (by rw [hhead]; exact headByte_ne_of_head L2 _ hL2 hL2q)
  rw [hd, hhead] at hcap
  simp only at hcap
  obtain ⟨n, hn⟩ : ∃ n, (a :: L1t ++ '<' :: (b :: ct ++ '>' :: L2)).length + 2 = n + 2 + 1 + 1 := by
    obtain ⟨e, L2t, rfl⟩ := List.exists_cons_of_ne_nil hL2
    refine ⟨L1t.length + ct.length + L2t.length + 3, ?_⟩
    simp only [List.length_append, List.length_cons]
    omega
  have hbuf : (a :: L1t ++ '<' :: (b :: ct ++ '>' :: L2)) ++ [NUL] =
      a :: (L1t ++ '<' :: b :: (ct ++ '>' :: (L2 ++ [NUL]))) := by simp
  have hlit1 := getToken_literal a L1t ('<' :: b :: (ct ++ '>' :: (L2 ++ [NUL])))
    (fun e => hL1o.1 e.symm) (fun e => hL1c.1 e.symm) (by simpa using hL1q)
    (fun e => hL1z.1 e.symm) hL1o.2 hL1c.2 hL1z.2 (Or.inl rfl)
  rw [parseLogQlExpr, runLogQlExpr, hn, hbuf]
  rw [driverLoop_literal grows _ _ _ _ [] hlit1, List.nil_append,
    driverLoop_capture grows _ _ _ _ _ hcap (by simp),
    if_neg (by rw [hhead]; exact headByte_ne_of_not_mem L2 _ hL2 hL2o),
    driverLoop_last_literal grows n L2 _ hL2 hL2o hL2c hL2z hL2q]
  rfl

/-- The example of C5: `a<_>b` yields the literal `a`, the capture `_` with terminator `b`,
and the literal `b`. -/
theorem C5_single_capture_order_witness :
    parseLogQlExpr vectorGrows "a<_>b".toList =
      Except.ok [⟨[], "a".toList, ParserType.Literal, CombType.Null, NUL⟩,
        ⟨[], "_".toList, ParserType.Any, CombType.Null, 'b'⟩,
        ⟨[], "b".toList, ParserType.Literal, CombType.Null, NUL⟩] := by
  have hq : ∀ c : Char, c ≠ '?' → [c].head? ≠ some '?' := fun c hc => by simpa using hc
  have hn : ∀ c x : Char, x ≠ c → x ∉ [c] := fun c x hx => by simpa using hx
  obtain ⟨d, hd, -, h⟩ := C5_single_capture_order vectorGrows "a".toList "_".toList "b".toList
    (List.cons_ne_nil _ _) (hn _ _ (by decide)) (hn _ _ (by decide)) (hq _ (by decide))
    (hn _ _ (by decide))
    (List.cons_ne_nil _ _) (hn _ _ (by decide)) (hn _ _ (by decide)) (hq _ (by decide))
    (hn _ _ (by decide))
    (List.cons_ne_nil _ _) (hn _ _ (by decide)) (hn _ _ (by decide)) (hq _ (by decide))
    (hn _ _ (by decide))
  have hd2 : parseCaptureString ⟨"_".toList, TokenType.Literal⟩ =
      Except.ok ⟨[], "_".toList, ParserType.Any, CombType.Null, NUL⟩ := rfl
  rw [hd2] at hd
  cases hd
  exact h

/-- The counterexample of C6: the inputs `?a` and the empty expression contain neither `<`
nor `>`; the first yields a literal holding `a`, not the entire input, and the second yields no
directive at all. -/
theorem C6_plain_input_counterexample :
    ('<' ∉ "?a".toList ∧ '>' ∉ "?a".toList ∧
      parseLogQlExpr vectorGrows "?a".toList =
        Except.ok [⟨[], "a".toList, ParserType.Literal, CombType.Null, NUL⟩] ∧
      parseLogQlExpr vectorGrows "?a".toList ≠
        Except.ok [⟨[], "?a".toList, ParserType.Literal, CombType.Null, NUL⟩]) ∧
    ('<' ∉ "".toList ∧ '>' ∉ "".toList ∧ parseLogQlExpr vectorGrows "".toList = Except.ok []) := by
  refine ⟨⟨by decide, by decide, rfl, ?_⟩, by decide, by decide, rfl⟩
  intro h
  have h2 : parseLogQlExpr vectorGrows "?a".toList =
      Except.ok [⟨[], "a".toList, ParserType.Literal, CombType.Null, NUL⟩] := rfl
  rw [h2] at h
  exact absurd (Except.ok.inj h) (by decide)

/-- C6, amended: a non-empty input without `<`, `>` and NUL that does not start with `?`
yields exactly one directive, of type `Literal` and combinator `Null`, whose text is the
entire input. -/
theorem C6_plain_input_single_literal (grows : Nat → Bool) (s : List Char)
    (hs : s ≠ []) (h1 : '<' ∉ s) (h2 : '>' ∉ s) (h0 : NUL ∉ s) (hq : s.head? ≠ some '?') :
    parseLogQlExpr grows s =
      Except.ok [⟨[], s, ParserType.Literal, CombType.Null, NUL⟩] := by
  rw [parseLogQlExpr, runLogQlExpr, driverLoop_last_literal grows s.length s [] hs h1 h2 h0 hq]
  rfl

/-- The example of C6 as amended: `a?b c` is one literal. -/
theorem C6_plain_input_single_literal_witness :
    parseLogQlExpr vectorGrows "a?b c".toList =
      Except.ok [⟨[], "a?b c".toList, ParserType.Literal, CombType.Null, NUL⟩] :=
  C6_plain_input_single_literal vectorGrows "a?b c".toList (by decide) (by decide) (by decide)
    (by decide) (by decide)

/-- C7: field-name type resolution.  For a non-empty capture text `t` without `<`, `>` and
NUL that starts with neither `_` nor `?`, the expression `<t>` yields exactly one directive,
whose type is the table value stored under the entire text `t` when `t` is a key of the
table, and `Any` otherwise. -/
theorem C7_field_name_type (grows : Nat → Bool) (t : List Char)
    (ht : t ≠ []) (ht1 : '<' ∉ t) (ht2 : '>' ∉ t) (ht0 : NUL ∉ t)
    (htu : t.head? ≠ some '_') (htq : t.head? ≠ some '?') :
    ∃ d, parseLogQlExpr grows ('<' :: (t ++ ['>'])) = Except.ok [d] ∧
      d.parserType = (mapperFind t).getD ParserType.Any ∧
      (∀ v, (t, v) ∈ ECSParserMapper → d.parserType = v) ∧
      ((∀ v, (t, v) ∉ ECSParserMapper) → d.parserType = ParserType.Any) := by
  obtain ⟨d, hd⟩ := parseCaptureString_ok ⟨t, TokenType.Literal⟩ ht
  have hty : d.parserType = (mapperFind t).getD ParserType.Any := by
    have hu : (headByte t != '_') = true := by
      simpa using headByte_ne_of_head t _ ht htu
    rw [parseCaptureString_eq] at hd
    split at hd
    · cases hd
    · cases hd
      simp only [hu, if_true]
  have hend := (parseCaptureString_fields _ d hd).2
  obtain ⟨b, ct, rfl⟩ := List.exists_cons_of_ne_nil ht
  simp only [List.mem_cons, not_or] at ht1 ht2 ht0
  have hcap := parseCapture_single grows b ct [NUL] []
    (fun e => ht1.1 e.symm) (fun e => ht2.1 e.symm) (by simpa using htq)
    (fun e => ht0.1 e.symm) ht1.2 ht2.2 ht0.2 (by decide)
  rw [hd] at hcap
  simp only at hcap
  refine ⟨d, ?_, hty, ?_, ?_⟩
  · have hlen : ('<' :: (b :: ct ++ ['>'])).length + 2 = (ct.length + 3) + 1 + 1 := by
      simp only [List.length_append, List.length_cons, List.length_nil]
    have hbuf : ('<' :: (b :: ct ++ ['>'])) ++ [NUL] = '<' :: b :: (ct ++ '>' :: [NUL]) := by
      simp
    rw [parseLogQlExpr, runLogQlExpr, hlen, hbuf]
    rw [driverLoop_capture grows _ _ _ _ _ hcap (by simp), if_neg (by decide),
      driverLoop_end grows _ _ _ (by rw [getToken_nul])]
    have : ({ d with endToken := headByte [NUL] } : Parser) = d := by
      obtain ⟨o, n, p, c, e⟩ := d
      simp only at hend
      subst hend
      rfl
    rw [this]
    rfl
  · intro v hv
    rw [hty, mapperFind_of_mem _ v hv]
    rfl
  · intro hno
    rw [hty]
    cases hf : mapperFind (b :: ct) with
    | none => rfl
    | some v => exact absurd (mapperFind_some_mem _ v hf) (hno v)

/-- The example of C7: `<source.ip>` yields one directive, of type `IP`. -/
theorem C7_field_name_type_witness :
    (parseLogQlExpr vectorGrows "<source.ip>".toList).map (List.map Parser.parserType)
      = Except.ok [ParserType.IP] := by
  obtain ⟨d, hd, -, hhit, -⟩ := C7_field_name_type vectorGrows "source.ip".toList
    (by decide) (by decide) (by decide) (by decide) (by decide) (by decide)
  have he : "<source.ip>".toList = '<' :: ("source.ip".toList ++ ['>']) := rfl
  rw [he, hd]
  exact congrArg (fun x => Except.ok [x]) (hhit ParserType.IP (by decide))

/-! ## Back-to-back captures -/

theorem literalRun_le (m : Char) (hm : m = '<' ∨ m = '>') (r : List Char) :
    ∀ (q : List Char) (b : Bool), (b = false ∨ q ≠ []) →
      literalRun b (q ++ m :: r) ≤ q.length := by
  intro q
  induction q with
  | nil =>
    intro b hb
    have hb0 : b = false := by simpa using hb
    subst hb0
    rcases hm with rfl | rfl <;> simp [literalRun]
  | cons c t ih =>
    intro b _
    rw [List.cons_append, literalRun]
    split_ifs
    · have hb2 : (headByte (t ++ m :: r) == backslash) = false ∨ t ≠ [] := by
        by_cases ht : t = []
        · left
          subst ht
          rw [List.nil_append, headByte]
          rcases hm with rfl | rfl <;> decide
        · exact Or.inr ht
      have := ih _ hb2
      simp only [List.length_cons]
      omega
    · simp

/-- A token read from NUL-free text `q` that stands before a `<` or `>` does not cross it:
the cursor stays within `q`. -/
theorem getToken_before (m : Char) (hm : m = '<' ∨ m = '>') (q r : List Char)
    (hq : q ≠ []) (h0 : NUL ∉ q) :
    ∃ tok q2, getToken ⟨q ++ m :: r⟩ = (tok, ⟨q2 ++ m :: r⟩) ∧
      q2.length < q.length ∧ (∀ x ∈ q2, x ∈ q) ∧ tok.text ≠ [] ∧
      ((tok.type = TokenType.OpenAngle ∧ q = '<' :: q2) ∨
       (tok.type = TokenType.CloseAngle ∧ q = '>' :: q2) ∨
       (tok.type = TokenType.QuestionMark ∧ q = '?' :: q2) ∨
       (tok.type = TokenType.Literal ∧ headByte q ≠ '<' ∧ headByte q ≠ '>' ∧
         headByte q ≠ '?')) := by
  obtain ⟨c, t, rfl⟩ := List.exists_cons_of_ne_nil hq
  simp only [List.mem_cons, not_or] at h0
  have hc0 : c ≠ NUL := fun e => h0.1 e.symm
  by_cases h1 : c = '<'
  · subst h1
    exact ⟨_, t, getToken_open _, by simp, fun x hx => List.mem_cons_of_mem _ hx, by simp,
      Or.inl ⟨rfl, rfl⟩⟩
  by_cases h2 : c = '>'
  · subst h2
    exact ⟨_, t, getToken_close _, by simp, fun x hx => List.mem_cons_of_mem _ hx, by simp,
      Or.inr (Or.inl ⟨rfl, rfl⟩)⟩
  by_cases h3 : c = '?'
  · subst h3
    exact ⟨_, t, getToken_question _, by simp, fun x hx => List.mem_cons_of_mem _ hx, by simp,
      Or.inr (Or.inr (Or.inl ⟨rfl, rfl⟩))⟩
  have hle := literalRun_le m hm r t false (Or.inl rfl)
  refine ⟨⟨c :: (t ++ m :: r).take (literalRun false (t ++ m :: r)), TokenType.Literal⟩,
    t.drop (literalRun false (t ++ m :: r)), ?_, ?_, ?_, by simp, ?_⟩
  · simp only [getToken, List.cons_append, headByte, List.tail_cons, if_neg h1, if_neg h2,
      if_neg h3, if_neg hc0, List.drop_append_of_le_length hle]
  · simp only [List.length_drop, List.length_cons]
    omega
  · intro x hx
    exact List.mem_cons_of_mem _ (List.mem_of_mem_drop hx)
  · exact Or.inr (Or.inr (Or.inr ⟨rfl, h1, h2, h3⟩))

theorem StopsBeforeOpen.toMarker {s : List Char}
    {res : Except Fault (Bool × Tokenizer × ParserList)} (M : List Char) (bound : Nat)
    (h : StopsBeforeOpen s res) : StopsAtMarker M s bound res := by
  obtain ⟨b, tk, ps, hres, hb⟩ := h
  exact ⟨b, tk, ps, hres, fun e => Or.inr (hb e)⟩

theorem StopsAtMarker.mono {M s : List Char} {n m : Nat}
    {res : Except Fault (Bool × Tokenizer × ParserList)}
    (h : StopsAtMarker M s n res) (hnm : n ≤ m) : StopsAtMarker M s m res := by
  obtain ⟨b, tk, ps, hres, hb⟩ := h
  refine ⟨b, tk, ps, hres, fun e => ?_⟩
  rcases hb e with ⟨q, hq, hlen, hnul⟩ | h2
  · exact Or.inl ⟨q, hq, by omega, hnul⟩
  · exact Or.inr h2

theorem stopsAtMarker_false (M s : List Char) (bound : Nat) (tk : Tokenizer)
    (ps : ParserList) : StopsAtMarker M s bound (Except.ok (false, tk, ps)) :=
  ⟨false, tk, ps, rfl, fun e => by cases e⟩

theorem stopsBeforeOpen_false (s : List Char) (tk : Tokenizer) (ps : ParserList) :
    StopsBeforeOpen s (Except.ok (false, tk, ps)) :=
  ⟨false, tk, ps, rfl, fun e => by cases e⟩

theorem getToken_type_close (st : List Char) :
    (getToken ⟨st⟩).1.type = TokenType.CloseAngle ↔ headByte st = '>' := by
  rw [getToken_type]
  constructor
  · intro h
    split_ifs at h with h1 h2
    exact h2
  · intro h
    rw [h]
    rfl

theorem getToken_type_question (st : List Char) :
    (getToken ⟨st⟩).1.type = TokenType.QuestionMark ↔ headByte st = '?' := by
  rw [getToken_type]
  constructor
  · intro h
    split_ifs at h with h1 h2 h3
    exact h3
  · intro h
    rw [h]
    rfl

theorem getToken_type_literal (st : List Char)
    (h : (getToken ⟨st⟩).1.type = TokenType.Literal) :
    headByte st ≠ '<' ∧ headByte st ≠ '>' ∧ headByte st ≠ '?' ∧ headByte st ≠ NUL := by
  rw [getToken_type] at h
  split_ifs at h with h1 h2 h3 h4
  exact ⟨h1, h2, h3, h4⟩

/-- A step of the lexer on `q ++ m :: r` that yields a `?` or a literal: the token was read
from `q`, and the cursor is still before the marker `m`. -/
theorem getToken_step (m : Char) (hm : m = '<' ∨ m = '>') (q r : List Char) (h0 : NUL ∉ q)
    (ht : (getToken ⟨q ++ m :: r⟩).1.type = TokenType.QuestionMark ∨
      (getToken ⟨q ++ m :: r⟩).1.type = TokenType.Literal) :
    ∃ q2, (getToken ⟨q ++ m :: r⟩).2 = ⟨q2 ++ m :: r⟩ ∧ q2.length < q.length ∧
      (∀ x ∈ q2, x ∈ q) ∧ (getToken ⟨q ++ m :: r⟩).1.text ≠ [] := by
  cases q with
  | nil =>
    exfalso
    rcases hm with rfl | rfl
    · rw [List.nil_append, getToken_open] at ht
      rcases ht with h | h <;> cases h
    · rw [List.nil_append, getToken_close] at ht
      rcases ht with h | h <;> cases h
  | cons c t =>
    obtain ⟨tok, q2, hget, hlen, hsub, htext, -⟩ :=
      getToken_before m hm (c :: t) r (by simp) h0
    exact ⟨q2, by rw [hget], hlen, hsub, by rw [hget]; exact htext⟩

/-- The first stage of `parseCapture`: it returns false without touching the list, or it
enters `captureBody` with a literal token, read first or right after a `?`. -/
theorem parseCapture_cases (grows : Nat → Bool) (tk : Tokenizer) (ps : ParserList) :
    (∃ tk2, parseCapture grows tk ps = Except.ok (false, tk2, ps)) ∨
    (∃ opt tk1, (tk1 = tk ∨
        ((getToken tk).1.type = TokenType.QuestionMark ∧ tk1 = (getToken tk).2)) ∧
      (getToken tk1).1.type = TokenType.Literal ∧
      parseCapture grows tk ps = captureBody grows opt (getToken tk1).1 (getToken tk1).2 ps) := by
  rw [parseCapture_eq]
  by_cases hq : ((getToken tk).1.type == TokenType.QuestionMark) = true
  · rw [if_pos hq]
    by_cases hl : ((getToken (getToken tk).2).1.type == TokenType.Literal) = true
    · rw [if_pos hl]
      exact Or.inr ⟨true, (getToken tk).2, Or.inr ⟨by simpa using hq, rfl⟩, by simpa using hl,
        rfl⟩
    · rw [if_neg hl]
      exact Or.inl ⟨_, rfl⟩
  · rw [if_neg hq]
    by_cases hl : ((getToken tk).1.type == TokenType.Literal) = true
    · rw [if_pos hl]
      exact Or.inr ⟨false, tk, Or.inl rfl, by simpa using hl, rfl⟩
    · rw [if_neg hl]
      exact Or.inl ⟨_, rfl⟩

theorem captureOrClose_inner (s : List Char) (pd : Bool) (pi : Nat) (ps : ParserList)
    (a2 : List Char) (h2 : '>' ∉ a2) :
    StopsBeforeOpen s (captureOrClose pd pi ⟨a2 ++ '>' :: '<' :: s⟩ ps) := by
  cases a2 with
  | nil =>
    simp only [captureOrClose, List.nil_append, getToken_close]
    exact ⟨true, _, _, rfl, fun _ => rfl⟩
  | cons c t =>
    have hne : (getToken ⟨c :: t ++ '>' :: '<' :: s⟩).1.type ≠ TokenType.CloseAngle := by
      rw [Ne, getToken_type_close]
      simp only [List.mem_cons, not_or] at h2
      exact fun e => h2.1 e.symm
    rw [captureOrClose]
    simp only [bne_iff_ne, ne_eq, hne, not_false_eq_true, if_true]
    exact stopsBeforeOpen_false _ _ _

theorem captureOrClose_marker (M s : List Char) (pd : Bool) (pi : Nat) (ps : ParserList)
    (q : List Char) (h0 : NUL ∉ q) :
    StopsAtMarker ('<' :: M) s q.length (captureOrClose pd pi ⟨q ++ '<' :: M⟩ ps) := by
  cases q with
  | nil =>
    simp only [captureOrClose, List.nil_append, getToken_open]
    exact stopsAtMarker_false _ _ _ _ _
  | cons c t =>
    obtain ⟨tok, q2, hget, hlen, hsub, -, -⟩ :=
      getToken_before '<' (Or.inl rfl) (c :: t) M (by simp) h0
    rw [captureOrClose]
    simp only [hget]
    by_cases hc : tok.type = TokenType.CloseAngle
    · simp only [hc, bne_self_eq_false, Bool.false_eq_true, if_false]
      exact ⟨true, _, _, rfl, fun _ => Or.inl ⟨q2, rfl, by omega, fun hn => h0 (hsub _ hn)⟩⟩
    · simp only [bne_iff_ne, ne_eq, hc, not_false_eq_true, if_true]
      exact stopsAtMarker_false _ _ _ _ _

theorem captureOr_marker (grows : Nat → Bool) (a s : List Char)
    (ha : a ≠ []) (ha2 : '>' ∉ a) (ha0 : NUL ∉ a) (ps : ParserList)
    (q : List Char) (h0 : NUL ∉ q)
    (hpeek : headByte (q ++ '<' :: (a ++ '>' :: '<' :: s)) = '?') :
    StopsAtMarker ('<' :: (a ++ '>' :: '<' :: s)) s q.length
      (captureOr grows ⟨q ++ '<' :: (a ++ '>' :: '<' :: s)⟩ ps) := by
  cases q with
  | nil =>
    have hne : ('<' : Char) ≠ '?' := by decide
    exact absurd hpeek hne
  | cons c q0 =>
    have hc : c = '?' := hpeek
    subst hc
    simp only [List.mem_cons, not_or] at h0
    rw [captureOr]
    simp only [List.cons_append, getToken_question]
    cases q0 with
    | nil =>
      obtain ⟨tok, a2, hget, -, hsub, htext, -⟩ :=
        getToken_before '>' (Or.inr rfl) a ('<' :: s) ha ha0
      obtain ⟨d, hd⟩ := parseCaptureString_ok tok htext
      simp only [List.nil_append, getToken_open, bne_self_eq_false, Bool.false_eq_true,
        if_false, hget, hd]
      exact (captureOrClose_inner s _ _ _ a2 (fun h => ha2 (hsub _ h))).toMarker _ _
    | cons c1 q1 =>
      obtain ⟨tok, q2, hget, hlen, hsub, -, -⟩ :=
        getToken_before '<' (Or.inl rfl) (c1 :: q1) (a ++ '>' :: '<' :: s) (by simp) h0.2
      simp only [List.cons_append] at hget
      simp only [List.cons_append, hget]
      by_cases ho : tok.type = TokenType.OpenAngle
      · simp only [ho, bne_self_eq_false, Bool.false_eq_true, if_false]
        cases q2 with
        | nil =>
          obtain ⟨d, hd⟩ := parseCaptureString_ok ⟨['<'], TokenType.OpenAngle⟩ (by simp)
          simp only [List.nil_append, getToken_open, hd]
          exact (captureOrClose_inner s _ _ _ a ha2).toMarker _ _
        | cons c2 q3 =>
          have hq2 : NUL ∉ c2 :: q3 := fun hn => h0.2 (hsub _ hn)
          obtain ⟨tok2, q4, hget2, hlen2, hsub2, htext2, -⟩ :=
            getToken_before '<' (Or.inl rfl) (c2 :: q3) (a ++ '>' :: '<' :: s) (by simp) hq2
          obtain ⟨d, hd⟩ := parseCaptureString_ok tok2 htext2
          simp only [List.cons_append] at hget2
          simp only [List.cons_append, hget2, hd]
          refine (captureOrClose_marker _ s _ _ _ q4 (fun hn => hq2 (hsub2 _ hn))).mono ?_
          simp only [List.length_cons] at hlen hlen2 ⊢
          omega
      · simp only [bne_iff_ne, ne_eq, ho, not_false_eq_true, if_true]
        exact stopsAtMarker_false _ _ _ _ _

theorem captureBody_inner (grows : Nat → Bool) (s : List Char) (opt : Bool) (token : Token)
    (ps : ParserList) (htext : token.text ≠ []) (a2 : List Char) (h2 : '>' ∉ a2) :
    StopsBeforeOpen s (captureBody grows opt token ⟨a2 ++ '>' :: '<' :: s⟩ ps) := by
  obtain ⟨d, hd⟩ := parseCaptureString_ok token htext
  rw [captureBody]
  simp only [hd]
  cases a2 with
  | nil =>
    have hp : ((peekToken ⟨'<' :: s⟩).type == TokenType.QuestionMark) = false := by
      rw [peekToken_question]
      have hne : ('<' : Char) ≠ '?' := by decide
      exact decide_eq_false hne
    simp only [List.nil_append, getToken_close, bne_self_eq_false, Bool.false_eq_true,
      if_false, hp]
    exact ⟨true, _, _, rfl, fun _ => rfl⟩
  | cons c t =>
    have hne : (getToken ⟨c :: t ++ '>' :: '<' :: s⟩).1.type ≠ TokenType.CloseAngle := by
      rw [Ne, getToken_type_close]
      simp only [List.mem_cons, not_or] at h2
      exact fun e => h2.1 e.symm
    simp only [bne_iff_ne, ne_eq, hne, not_false_eq_true, if_true]
    exact stopsBeforeOpen_false _ _ _

theorem captureBody_marker (grows : Nat → Bool) (a s : List Char)
    (ha : a ≠ []) (ha2 : '>' ∉ a) (ha0 : NUL ∉ a) (opt : Bool) (token : Token)
    (ps : ParserList) (htext : token.text ≠ []) (q : List Char) (h0 : NUL ∉ q) :
    StopsAtMarker ('<' :: (a ++ '>' :: '<' :: s)) s q.length
      (captureBody grows opt token ⟨q ++ '<' :: (a ++ '>' :: '<' :: s)⟩ ps) := by
  obtain ⟨d, hd⟩ := parseCaptureString_ok token htext
  rw [captureBody]
  simp only [hd]
  cases q with
  | nil =>
    simp only [List.nil_append, getToken_open]
    exact stopsAtMarker_false _ _ _ _ _
  | cons c t =>
    obtain ⟨tok, q2, hget, hlen, hsub, -, -⟩ :=
      getToken_before '<' (Or.inl rfl) (c :: t) (a ++ '>' :: '<' :: s) (by simp) h0
    have hq2 : NUL ∉ q2 := fun hn => h0 (hsub _ hn)
    simp only [hget]
    by_cases hc : tok.type = TokenType.CloseAngle
    · simp only [hc, bne_self_eq_false, Bool.false_eq_true, if_false, peekToken_question]
      by_cases hp : headByte (q2 ++ '<' :: (a ++ '>' :: '<' :: s)) = '?'
      · simp only [hp, decide_True, if_true]
        exact (captureOr_marker grows a s ha ha2 ha0 _ q2 hq2 hp).mono (by omega)
      · simp only [hp, decide_False, Bool.false_eq_true, if_false]
        exact ⟨true, _, _, rfl, fun _ => Or.inl ⟨q2, rfl, by omega, hq2⟩⟩
    · simp only [bne_iff_ne, ne_eq, hc, not_false_eq_true, if_true]
      exact stopsAtMarker_false _ _ _ _ _

/-- The capture parser entered right after the `<` of `<a><`: when it succeeds, the cursor
is on the second `<`. -/
theorem parseCapture_inner (grows : Nat → Bool) (s : List Char) (ps : ParserList)
    (a : List Char) (ha2 : '>' ∉ a) (ha0 : NUL ∉ a) :
    StopsBeforeOpen s (parseCapture grows ⟨a ++ '>' :: '<' :: s⟩ ps) := by
  rcases parseCapture_cases grows ⟨a ++ '>' :: '<' :: s⟩ ps with
    ⟨tk2, h⟩ | ⟨opt, tk1, htk1, hlit, h⟩
  · rw [h]
    exact stopsBeforeOpen_false _ _ _
  · rw [h]
    rcases htk1 with rfl | ⟨hq, rfl⟩
    · obtain ⟨q2, hst, -, hsub, htext⟩ :=
        getToken_step '>' (Or.inr rfl) a ('<' :: s) ha0 (Or.inr hlit)
      rw [hst]
      exact captureBody_inner grows s opt _ ps htext q2 (fun hm => ha2 (hsub _ hm))
    · obtain ⟨q2, hst, -, hsub, -⟩ :=
        getToken_step '>' (Or.inr rfl) a ('<' :: s) ha0 (Or.inl hq)
      rw [hst] at hlit ⊢
      obtain ⟨q3, hst3, -, hsub3, htext3⟩ :=
        getToken_step '>' (Or.inr rfl) q2 ('<' :: s) (fun hm => ha0 (hsub _ hm)) (Or.inr hlit)
      rw [hst3]
      exact captureBody_inner grows s opt _ ps htext3 q3
        (fun hm => ha2 (hsub _ (hsub3 _ hm)))

/-- The capture parser entered on NUL-free text `q` that stands before `<a><`: when it
succeeds, the cursor is still before `<a><`, or on the second `<`. -/
theorem parseCapture_marker (grows : Nat → Bool) (a s : List Char)
    (ha : a ≠ []) (ha2 : '>' ∉ a) (ha0 : NUL ∉ a) (ps : ParserList)
    (q : List Char) (h0 : NUL ∉ q) :
    StopsAtMarker ('<' :: (a ++ '>' :: '<' :: s)) s q.length
      (parseCapture grows ⟨q ++ '<' :: (a ++ '>' :: '<' :: s)⟩ ps) := by
  rcases parseCapture_cases grows ⟨q ++ '<' :: (a ++ '>' :: '<' :: s)⟩ ps with
    ⟨tk2, h⟩ | ⟨opt, tk1, htk1, hlit, h⟩
  · rw [h]
    exact stopsAtMarker_false _ _ _ _ _
  · rw [h]
    rcases htk1 with rfl | ⟨hq, rfl⟩
    · obtain ⟨q2, hst, hlen, hsub, htext⟩ :=
        getToken_step '<' (Or.inl rfl) q _ h0 (Or.inr hlit)
      rw [hst]
      exact (captureBody_marker grows a s ha ha2 ha0 opt _ ps htext q2
        (fun hm => h0 (hsub _ hm))).mono (by omega)
    · obtain ⟨q2, hst, hlen, hsub, -⟩ :=
        getToken_step '<' (Or.inl rfl) q _ h0 (Or.inl hq)
      rw [hst] at hlit ⊢
      obtain ⟨q3, hst3, hlen3, hsub3, htext3⟩ :=
        getToken_step '<' (Or.inl rfl) q2 _ (fun hm => h0 (hsub _ hm)) (Or.inr hlit)
      rw [hst3]
      exact (captureBody_marker grows a s ha ha2 ha0 opt _ ps htext3 q3
        (fun hm => h0 (hsub _ (hsub3 _ hm)))).mono (by omega)

/-! ## Alternation -/

theorem setAt_append (f : Parser → Parser) (ps : ParserList) (d : Parser) (r : ParserList) :
    setAt f ps.length (ps ++ d :: r) = ps ++ f d :: r := by
  induction ps with
  | nil => rfl
  | cons p ps ih =>
    rw [List.length_cons, List.cons_append, setAt, ih, List.cons_append]

theorem setBack_length (f : Parser → Parser) (ps : ParserList) :
    (setBack f ps).length = ps.length := by
  induction ps with
  | nil => rfl
  | cons p ps ih =>
    cases ps with
    | nil => rfl
    | cons q qs =>
      rw [setBack, List.length_cons, ih]
      rfl

/-- The end of an alternation on a closing `>`: the terminator is stored in the last
directive, and in the one at `prevIndex` unless the reference to it dangles. -/
theorem captureOrClose_close (pd : Bool) (pi : Nat) (rest : List Char) (ps : ParserList) :
    captureOrClose pd pi ⟨'>' :: rest⟩ ps =
      Except.ok (true, ⟨rest⟩,
        if pd then setBack (fun p => { p with endToken := headByte rest }) ps
        else setAt (fun p => { p with endToken := headByte rest }) pi
          (setBack (fun p => { p with endToken := headByte rest }) ps)) := by
  simp only [captureOrClose, getToken_close, bne_self_eq_false, Bool.false_eq_true, if_false,
    peekChar]

/-- The alternation branch on `?<b>` with a literal name `b`. -/
theorem captureOr_literal (grows : Nat → Bool) (b0 : Char) (b rest : List Char)
    (ps : ParserList) (d db : Parser)
    (hb01 : b0 ≠ '<') (hb02 : b0 ≠ '>') (hb03 : b0 ≠ '?') (hb00 : b0 ≠ NUL)
    (hb1 : '<' ∉ b) (hb2 : '>' ∉ b) (hb0 : NUL ∉ b)
    (hdb : parseCaptureString ⟨b0 :: b, TokenType.Literal⟩ = Except.ok db) :
    captureOr grows ⟨'?' :: '<' :: b0 :: (b ++ '>' :: rest)⟩ (ps ++ [d]) =
      Except.ok (true, ⟨rest⟩,
        ps ++ [{ d with combType := CombType.Or,
                        endToken := if grows (ps.length + 1) then d.endToken
                                    else headByte rest },
               { db with combType := CombType.OrEnd, endToken := headByte rest }]) := by
  have hlb := getToken_literal b0 b ('>' :: rest) hb01 hb02 hb03 hb00 hb1 hb2 hb0
    (Or.inr (Or.inl rfl))
  have hsplit : ps ++ [({ d with combType := CombType.Or } : Parser)] ++ [db]
      = ps ++ ({ d with combType := CombType.Or } : Parser) :: [db] := by simp
  rw [captureOr]
  simp only [getToken_question, getToken_open, bne_self_eq_false, Bool.false_eq_true, if_false,
    hlb, hdb, captureOrClose_close, setBack_append, List.length_append, List.length_singleton,
    Nat.add_sub_cancel]
  by_cases hg : grows (ps.length + 1) = true
  · simp only [hg, if_true, setBack_append]
    simp
  · simp only [hg, Bool.false_eq_true, if_false, setBack_append]
    rw [List.append_assoc, List.singleton_append, setAt_append]

/-- An alternation `a>?<b>` with literal names: two directives are appended, `Or` and
`OrEnd`.  The second has the byte after the final `>` as its terminator; the first has it
only when the second `emplace_back` did not reallocate, and keeps the terminator 0 that
`parseCaptureString` gave it otherwise. -/
theorem parseCapture_alternation (grows : Nat → Bool) (a0 b0 : Char) (a b rest : List Char)
    (ps : ParserList)
    (ha01 : a0 ≠ '<') (ha02 : a0 ≠ '>') (ha03 : a0 ≠ '?') (ha00 : a0 ≠ NUL)
    (ha1 : '<' ∉ a) (ha2 : '>' ∉ a) (ha0 : NUL ∉ a)
    (hb01 : b0 ≠ '<') (hb02 : b0 ≠ '>') (hb03 : b0 ≠ '?') (hb00 : b0 ≠ NUL)
    (hb1 : '<' ∉ b) (hb2 : '>' ∉ b) (hb0 : NUL ∉ b) :
    ∃ da db, parseCaptureString ⟨a0 :: a, TokenType.Literal⟩ = Except.ok da ∧
      parseCaptureString ⟨b0 :: b, TokenType.Literal⟩ = Except.ok db ∧
      parseCapture grows ⟨a0 :: (a ++ '>' :: '?' :: '<' :: b0 :: (b ++ '>' :: rest))⟩ ps =
        Except.ok (true, ⟨rest⟩,
          ps ++ [{ da with combType := CombType.Or,
                           endToken := if grows (ps.length + 1) then NUL else headByte rest },
                 { db with combType := CombType.OrEnd, endToken := headByte rest }]) := by
  obtain ⟨da, hda⟩ := parseCaptureString_ok ⟨a0 :: a, TokenType.Literal⟩ (by simp)
  obtain ⟨db, hdb⟩ := parseCaptureString_ok ⟨b0 :: b, TokenType.Literal⟩ (by simp)
  refine ⟨da, db, hda, hdb, ?_⟩
  have hla := getToken_literal a0 a ('>' :: '?' :: '<' :: b0 :: (b ++ '>' :: rest))
    ha01 ha02 ha03 ha00 ha1 ha2 ha0 (Or.inr (Or.inl rfl))
  have hpeek : ((peekToken ⟨'?' :: '<' :: b0 :: (b ++ '>' :: rest)⟩).type
      == TokenType.QuestionMark) = true := by
    rw [peekToken_question]
    exact decide_eq_true rfl
  have hend := (parseCaptureString_fields _ da hda).2
  have hq : (TokenType.Literal == TokenType.QuestionMark) = false := rfl
  have hl : (TokenType.Literal == TokenType.Literal) = true := rfl
  rw [parseCapture_eq]
  simp only [hla, hq, hl, Bool.false_eq_true, if_false, if_true]
  rw [captureBody]
  simp only [hda, getToken_close, bne_self_eq_false, Bool.false_eq_true, if_false, hpeek,
    if_true]
  rw [captureOr_literal grows b0 b rest ps da db hb01 hb02 hb03 hb00 hb1 hb2 hb0 hdb, hend]

/-- The expression `<a>?<b>L` for literal names `a`, `b` and a plain suffix `L` (no `<`, `>`,
NUL, not starting with `?`): the list starts with the two directives of the alternation, `Or`
resolved from `a` and `OrEnd` resolved from `b`, followed by the literal `L` when `L` is not
empty.  The terminator of the second is the byte after the final `>`; the terminator of the
first is that byte only when the second `emplace_back`, on a vector of one element, does not
reallocate, and 0 otherwise. -/
theorem parseLogQlExpr_alternation (grows : Nat → Bool) (a b L : List Char)
    (ha : a ≠ []) (ha1 : '<' ∉ a) (ha2 : '>' ∉ a) (haq : a.head? ≠ some '?') (ha0 : NUL ∉ a)
    (hb : b ≠ []) (hb1 : '<' ∉ b) (hb2 : '>' ∉ b) (hbq : b.head? ≠ some '?') (hb0 : NUL ∉ b)
    (hL1 : '<' ∉ L) (hL2 : '>' ∉ L) (hLq : L.head? ≠ some '?') (hL0 : NUL ∉ L) :
    ∃ da db, parseCaptureString ⟨a, TokenType.Literal⟩ = Except.ok da ∧
      parseCaptureString ⟨b, TokenType.Literal⟩ = Except.ok db ∧
      parseLogQlExpr grows ('<' :: (a ++ '>' :: '?' :: '<' :: (b ++ '>' :: L))) =
        Except.ok
          ([{ da with combType := CombType.Or,
                      endToken := if grows 1 then NUL else headByte L },
            { db with combType := CombType.OrEnd, endToken := headByte L }] ++
           (if L = [] then [] else [⟨[], L, ParserType.Literal, CombType.Null, NUL⟩])) := by
  obtain ⟨a0, at', rfl⟩ := List.exists_cons_of_ne_nil ha
  obtain ⟨b0, bt, rfl⟩ := List.exists_cons_of_ne_nil hb
  simp only [List.mem_cons, not_or] at ha1 ha2 ha0 hb1 hb2 hb0
  obtain ⟨da, db, hda, hdb, hpc⟩ := parseCapture_alternation grows a0 b0 at' bt (L ++ [NUL]) []
    (fun e => ha1.1 e.symm) (fun e => ha2.1 e.symm) (by simpa using haq)
    (fun e => ha0.1 e.symm) ha1.2 ha2.2 ha0.2
    (fun e => hb1.1 e.symm) (fun e => hb2.1 e.symm) (by simpa using hbq)
    (fun e => hb0.1 e.symm) hb1.2 hb2.2 hb0.2
  refine ⟨da, db, hda, hdb, ?_⟩
  have hLo : headByte L ≠ '<' := by
    cases L with
    | nil => decide
    | cons c r =>
      simp only [List.mem_cons, not_or] at hL1
      exact fun e => hL1.1 e.symm
  have hbuf : ('<' :: (a0 :: at' ++ '>' :: '?' :: '<' :: (b0 :: bt ++ '>' :: L))) ++ [NUL] =
      '<' :: a0 :: (at' ++ '>' :: '?' :: '<' :: b0 :: (bt ++ '>' :: (L ++ [NUL]))) := by
    simp
  rw [parseLogQlExpr, runLogQlExpr, hbuf]
  simp only [List.nil_append, List.length_nil, Nat.zero_add, headByte_append_nul] at hpc
  by_cases hL : L = []
  · subst hL
    rw [driverLoop_capture grows _ _ _ _ _ hpc (by simp), if_neg (by decide),
      driverLoop_end grows _ _ _ (by rw [List.nil_append, getToken_nul])]
    rfl
  · rw [List.length_cons, driverLoop_capture grows _ _ _ _ _ hpc (by simp),
      if_neg (by rw [headByte_append_nul]; exact hLo),
      driverLoop_last_literal grows _ L _ hL hL1 hL2 hL0 hLq, if_neg hL]
    rfl

/-- C4, the run at the failing input `<a>?<b>c` with the vector growth of libstdc++: the
second directive has the terminator `c`, the first one the terminator 0.  The store of the
terminator in the first directive goes through the reference `prevCapture`, taken before the
`emplace_back` that reallocates the one-element vector. -/
theorem C4_alternation_terminator_lost :
    parseLogQlExpr vectorGrows "<a>?<b>c".toList =
      Except.ok [⟨[], "a".toList, ParserType.Any, CombType.Or, NUL⟩,
        ⟨[], "b".toList, ParserType.Any, CombType.OrEnd, 'c'⟩,
        ⟨[], "c".toList, ParserType.Literal, CombType.Null, NUL⟩] := rfl

/-! ## The fuel of the driver loop -/

theorem getToken_length_le (tk : Tokenizer) :
    (getToken tk).2.stream.length ≤ tk.stream.length := by
  simp only [getToken]
  split_ifs <;> simp only [List.length_tail, List.length_drop] <;> omega

theorem getToken_length_lt (tk : Tokenizer) (h : tk.stream ≠ []) :
    (getToken tk).2.stream.length < tk.stream.length := by
  have hpos : 0 < tk.stream.length := List.length_pos.mpr h
  simp only [getToken]
  split_ifs <;> simp only [List.length_tail, List.length_drop] <;> omega

theorem getToken_stream_ne_nil (tk : Tokenizer)
    (h : (getToken tk).1.type ≠ TokenType.EndOfExpr) : tk.stream ≠ [] := by
  intro he
  apply h
  cases tk
  simp only at he
  subst he
  rfl

theorem parseCaptureString_error (token : Token) (e : Fault)
    (h : parseCaptureString token = Except.error e) : e = Fault.emptyCapture := by
  rw [parseCaptureString_eq] at h
  split at h
  · cases h
    rfl
  · cases h

/-- The blocks of the capture parser never move the cursor backwards, and the only fault they
end in is the empty capture text. -/
theorem captureOrClose_cursor (pd : Bool) (pi : Nat) (tk : Tokenizer) (ps : ParserList) :
    ∃ b tk2 ps2, captureOrClose pd pi tk ps = Except.ok (b, tk2, ps2) ∧
      tk2.stream.length ≤ tk.stream.length := by
  rw [captureOrClose]
  by_cases h : ((getToken tk).1.type != TokenType.CloseAngle) = true
  · simp only [h, if_true]
    exact ⟨_, _, _, rfl, getToken_length_le tk⟩
  · simp only [h, if_false]
    exact ⟨_, _, _, rfl, getToken_length_le tk⟩

theorem captureOr_cursor (grows : Nat → Bool) (tk : Tokenizer) (ps : ParserList) :
    captureOr grows tk ps = Except.error Fault.emptyCapture ∨
    ∃ b tk2 ps2, captureOr grows tk ps = Except.ok (b, tk2, ps2) ∧
      tk2.stream.length ≤ tk.stream.length := by
  have h1 := getToken_length_le tk
  have h2 := getToken_length_le (getToken tk).2
  have h3 := getToken_length_le (getToken (getToken tk).2).2
  rw [captureOr]
  by_cases h : ((getToken (getToken tk).2).1.type != TokenType.OpenAngle) = true
  · simp only [h, if_true]
    exact Or.inr ⟨_, _, _, rfl, by omega⟩
  · simp only [h, if_false]
    cases hp : parseCaptureString (getToken (getToken (getToken tk).2).2).1 with
    | error e =>
      rw [parseCaptureString_error _ e hp]
      exact Or.inl rfl
    | ok d =>
      simp only
      obtain ⟨b, tk2, ps2, hres, hlen⟩ := captureOrClose_cursor
        (grows (setBack (fun p => { p with combType := CombType.Or }) ps).length)
        (ps.length - 1) (getToken (getToken (getToken tk).2).2).2
        (setBack (fun p => { p with combType := CombType.OrEnd })
          (setBack (fun p => { p with combType := CombType.Or }) ps ++ [d]))
      rw [hres]
      exact Or.inr ⟨b, tk2, ps2, rfl, by omega⟩

theorem captureBody_cursor (grows : Nat → Bool) (opt : Bool) (token : Token) (tk : Tokenizer)
    (ps : ParserList) :
    captureBody grows opt token tk ps = Except.error Fault.emptyCapture ∨
    ∃ b tk2 ps2, captureBody grows opt token tk ps = Except.ok (b, tk2, ps2) ∧
      tk2.stream.length ≤ tk.stream.length := by
  have h1 := getToken_length_le tk
  rw [captureBody]
  cases hp : parseCaptureString token with
  | error e =>
    rw [parseCaptureString_error _ e hp]
    exact Or.inl rfl
  | ok d =>
    simp only
    by_cases h : ((getToken tk).1.type != TokenType.CloseAngle) = true
    · simp only [h, if_true]
      exact Or.inr ⟨_, _, _, rfl, h1⟩
    · simp only [h, if_false]
      by_cases hq : ((peekToken (getToken tk).2).type == TokenType.QuestionMark) = true
      · simp only [hq, if_true]
        rcases captureOr_cursor grows (getToken tk).2
          (if opt = true then
            setBack (fun p => { p with combType := CombType.Optional }) (ps ++ [d])
          else ps ++ [d]) with he | ⟨b, tk2, ps2, hres, hlen⟩
        · exact Or.inl he
        · exact Or.inr ⟨b, tk2, ps2, hres, by omega⟩
      · simp only [hq, if_false]
        exact Or.inr ⟨_, _, _, rfl, h1⟩

theorem parseCapture_cursor (grows : Nat → Bool) (tk : Tokenizer) (ps : ParserList) :
    parseCapture grows tk ps = Except.error Fault.emptyCapture ∨
    ∃ b tk2 ps2, parseCapture grows tk ps = Except.ok (b, tk2, ps2) ∧
      tk2.stream.length ≤ tk.stream.length := by
  have h1 := getToken_length_le tk
  have h2 := getToken_length_le (getToken tk).2
  rw [parseCapture_eq]
  by_cases hq : ((getToken tk).1.type == TokenType.QuestionMark) = true
  · rw [if_pos hq]
    by_cases hl : ((getToken (getToken tk).2).1.type == TokenType.Literal) = true
    · rw [if_pos hl]
      rcases captureBody_cursor grows true (getToken (getToken tk).2).1
        (getToken (getToken tk).2).2 ps with he | ⟨b, tk2, ps2, hres, hlen⟩
      · exact Or.inl he
      · exact Or.inr ⟨b, tk2, ps2, hres, by omega⟩
    · rw [if_neg hl]
      exact Or.inr ⟨_, _, _, rfl, by omega⟩
  · rw [if_neg hq]
    by_cases hl : ((getToken tk).1.type == TokenType.Literal) = true
    · rw [if_pos hl]
      rcases captureBody_cursor grows false (getToken tk).1 (getToken tk).2 ps with
        he | ⟨b, tk2, ps2, hres, hlen⟩
      · exact Or.inl he
      · exact Or.inr ⟨b, tk2, ps2, hres, by omega⟩
    · rw [if_neg hl]
      exact Or.inr ⟨_, _, _, rfl, h1⟩

/-- The back-to-back branch ends in the message or in the overrun of the scan. -/
theorem backToBackDiagnostic_cases (prev cur : List Char) :
    backToBackDiagnostic prev cur = Except.error Fault.scanOverrun ∨
    ∃ d, backToBackDiagnostic prev cur = Except.ok d := by
  rw [backToBackDiagnostic]
  cases scanClose cur with
  | none => exact Or.inl rfl
  | some k => exact Or.inr ⟨_, rfl⟩

/-- A run that returns a result after a turn at a `<` either returns the empty list, or the
capture was parsed, the cursor is inside the buffer, and the result is that of the rest of
the loop. -/
theorem driverLoop_capture_result (grows : Nat → Bool) (k : Nat) (tk : Tokenizer)
    (ps : ParserList) (r : DriverResult) (b : Bool) (tk2 : Tokenizer) (ps2 : ParserList)
    (hty : (getToken tk).1.type = TokenType.OpenAngle)
    (hpc : parseCapture grows (getToken tk).2 ps = Except.ok (b, tk2, ps2))
    (h : driverLoop grows (k + 1) tk ps = Except.ok r) :
    r.parsers = [] ∨ (b = true ∧ tk2.stream ≠ [] ∧ driverLoop grows k tk2 ps2 = Except.ok r) := by
  rw [driverLoop_after_capture grows k tk ps b tk2 ps2 hty hpc] at h
  split_ifs at h with h1 h2 h3
  · rcases backToBackDiagnostic_cases tk.stream tk2.stream with hb | ⟨d, hb⟩
    · rw [hb] at h
      cases h
    · rw [hb] at h
      cases h
      exact Or.inl rfl
  · exact Or.inr ⟨h3, h1, h⟩
  · cases h
    exact Or.inl rfl

/-- The driver loop does not run out of fuel when it is given more fuel than the buffer has
bytes: every turn but the last moves the cursor forward. -/
theorem driverLoop_fuel (grows : Nat → Bool) :
    ∀ (n : Nat) (tk : Tokenizer) (ps : ParserList), tk.stream.length < n →
      driverLoop grows n tk ps ≠ Except.error Fault.outOfFuel := by
  intro n
  induction n with
  | zero => intro tk ps h; omega
  | succ k ih =>
    intro tk ps hlen
    have hstep : (getToken tk).1.type ≠ TokenType.EndOfExpr →
        (getToken tk).2.stream.length < k := by
      intro hne
      have := getToken_length_lt tk (getToken_stream_ne_nil tk hne)
      omega
    rw [driverLoop]
    split
    · rename_i hty
      have hk := hstep (by rw [hty]; decide)
      rcases parseCapture_cursor grows (getToken tk).2 ps with he | ⟨b, tk2, ps2, hres, hl2⟩
      · rw [he]
        simp
      · rw [hres]
        simp only
        split_ifs
        · simp
        · rcases backToBackDiagnostic_cases tk.stream tk2.stream with hb | ⟨d, hb⟩ <;>
            rw [hb] <;> simp
        · exact ih _ _ (by omega)
        · simp
    · rename_i hty
      exact ih _ _ (hstep (by rw [hty]; decide))
    · simp
    · rename_i h1 h2 h3
      exact ih _ _ (hstep h3)

/-- A run of the driver ends: in `Done`, in `Failed`, or in one of the three faults of the
code (the empty capture text, the read behind the terminator, the overrun of the scan), never
for lack of fuel. -/
theorem runLogQlExpr_ends (grows : Nat → Bool) (expr : List Char) :
    runLogQlExpr grows expr = Except.error Fault.emptyCapture ∨
    runLogQlExpr grows expr = Except.error Fault.readPastEnd ∨
    runLogQlExpr grows expr = Except.error Fault.scanOverrun ∨
    ∃ r, runLogQlExpr grows expr = Except.ok r := by
  have h := driverLoop_fuel grows (expr.length + 2) ⟨expr ++ [NUL]⟩ []
    (by simp only [List.length_append, List.length_singleton]; omega)
  rw [runLogQlExpr]
  cases hr : driverLoop grows (expr.length + 2) ⟨expr ++ [NUL]⟩ [] with
  | error e =>
    cases e with
    | emptyCapture => exact Or.inl rfl
    | outOfFuel => exact absurd hr h
    | readPastEnd => exact Or.inr (Or.inl rfl)
    | scanOverrun => exact Or.inr (Or.inr (Or.inl rfl))
  | ok r => exact Or.inr (Or.inr (Or.inr ⟨r, rfl⟩))

/-! ## The anonymous capture, stray tokens and optional captures -/

/-- The counterexample of C12: `<_>` does not yield a directive whose name is the empty
string; the name of its one directive is the text `_`. -/
theorem C12_anonymous_capture_counterexample :
    parseLogQlExpr vectorGrows "<_>".toList =
      Except.ok [⟨[], "_".toList, ParserType.Any, CombType.Null, NUL⟩] ∧
    ¬ ∃ d, parseLogQlExpr vectorGrows "<_>".toList = Except.ok [d] ∧ d.name = [] := by
  refine ⟨rfl, ?_⟩
  rintro ⟨d, hd, hname⟩
  have h : parseLogQlExpr vectorGrows "<_>".toList =
      Except.ok [⟨[], "_".toList, ParserType.Any, CombType.Null, NUL⟩] := rfl
  rw [h] at hd
  have hl := Except.ok.inj hd
  simp only [List.cons.injEq, and_true] at hl
  rw [← hl] at hname
  exact absurd hname (by decide)

/-- C12, amended: `<_>` yields exactly one directive, with the name `_`, no options, the type
`Any`, the combinator `Null` and the terminator 0. -/
theorem C12_anonymous_capture (grows : Nat → Bool) :
    parseLogQlExpr grows "<_>".toList =
      Except.ok [⟨[], "_".toList, ParserType.Any, CombType.Null, NUL⟩] := rfl

/-- C20: a `>` or `?` token read by the driver is skipped, the list and the state of the
loop unchanged; for non-empty `L1`, `L2` without `<`, `>` and NUL that do not start with
`?`, the expression `L1>L2` yields the two literals, and `>` alone yields the empty list in
the state `Done`. -/
theorem C20_stray_tokens_skipped (grows : Nat → Bool) (L1 L2 : List Char)
    (hL1 : L1 ≠ []) (hL1o : '<' ∉ L1) (hL1c : '>' ∉ L1) (hL1q : L1.head? ≠ some '?')
    (hL1z : NUL ∉ L1)
    (hL2 : L2 ≠ []) (hL2o : '<' ∉ L2) (hL2c : '>' ∉ L2) (hL2q : L2.head? ≠ some '?')
    (hL2z : NUL ∉ L2) :
    (∀ (n : Nat) (r : List Char) (ps : ParserList),
      driverLoop grows (n + 1) ⟨'>' :: r⟩ ps = driverLoop grows n ⟨r⟩ ps) ∧
    (∀ (n : Nat) (r : List Char) (ps : ParserList),
      driverLoop grows (n + 1) ⟨'?' :: r⟩ ps = driverLoop grows n ⟨r⟩ ps) ∧
    parseLogQlExpr grows (L1 ++ ['>'] ++ L2) =
      Except.ok [⟨[], L1, ParserType.Literal, CombType.Null, NUL⟩,
        ⟨[], L2, ParserType.Literal, CombType.Null, NUL⟩] ∧
    runLogQlExpr grows ['>'] = Except.ok ⟨[], DriverState.Done, Diagnostic.silent⟩ := by
  have hclose : ∀ (n : Nat) (r : List Char) (ps : ParserList),
      driverLoop grows (n + 1) ⟨'>' :: r⟩ ps = driverLoop grows n ⟨r⟩ ps := by
    intro n r ps
    rw [driverLoop_close grows n _ ps (by rw [getToken_close]), getToken_close]
  have hquestion : ∀ (n : Nat) (r : List Char) (ps : ParserList),
      driverLoop grows (n + 1) ⟨'?' :: r⟩ ps = driverLoop grows n ⟨r⟩ ps := by
    intro n r ps
    rw [driverLoop_question grows n _ ps (by rw [getToken_question]), getToken_question]
  refine ⟨hclose, hquestion, ?_, ?_⟩
  · obtain ⟨a, t, rfl⟩ := List.exists_cons_of_ne_nil hL1
    simp only [List.mem_cons, not_or] at hL1o hL1c hL1z
    have hlit := getToken_literal a t ('>' :: (L2 ++ [NUL])) (fun e => hL1o.1 e.symm)
      (fun e => hL1c.1 e.symm) (by simpa using hL1q) (fun e => hL1z.1 e.symm)
      hL1o.2 hL1c.2 hL1z.2 (Or.inr (Or.inl rfl))
    obtain ⟨n, hn⟩ : ∃ n, (a :: t ++ ['>'] ++ L2).length + 2 = n + 2 + 1 + 1 := by
      obtain ⟨e, r, rfl⟩ := List.exists_cons_of_ne_nil hL2
      refine ⟨t.length + r.length + 1, ?_⟩
      simp only [List.length_append, List.length_cons, List.length_nil]
      omega
    have hbuf : (a :: t ++ ['>'] ++ L2) ++ [NUL] = a :: (t ++ '>' :: (L2 ++ [NUL])) := by
      simp
    rw [parseLogQlExpr, runLogQlExpr, hn, hbuf]
    rw [driverLoop_literal grows _ _ _ _ [] hlit, hclose,
      driverLoop_last_literal grows n L2 _ hL2 hL2o hL2c hL2z hL2q]
    rfl
  · rfl

/-- The example of C20: `a>b` yields the literals `a` and `b`. -/
theorem C20_stray_tokens_skipped_witness :
    parseLogQlExpr vectorGrows "a>b".toList =
      Except.ok [⟨[], "a".toList, ParserType.Literal, CombType.Null, NUL⟩,
        ⟨[], "b".toList, ParserType.Literal, CombType.Null, NUL⟩] := by
  have hq : ∀ c : Char, c ≠ '?' → [c].head? ≠ some '?' := fun c hc => by simpa using hc
  have hn : ∀ c x : Char, x ≠ c → x ∉ [c] := fun c x hx => by simpa using hx
  exact (C20_stray_tokens_skipped vectorGrows "a".toList "b".toList
    (List.cons_ne_nil _ _) (hn _ _ (by decide)) (hn _ _ (by decide)) (hq _ (by decide))
    (hn _ _ (by decide))
    (List.cons_ne_nil _ _) (hn _ _ (by decide)) (hn _ _ (by decide)) (hq _ (by decide))
    (hn _ _ (by decide))).2.2.1

/-- An optional capture `?name>` not followed by `?`: one directive is appended, with the
combinator `Optional` and the byte after the `>` as its terminator. -/
theorem parseCapture_optional (grows : Nat → Bool) (c : Char) (t rest : List Char)
    (ps : ParserList)
    (hc1 : c ≠ '<') (hc2 : c ≠ '>') (hc3 : c ≠ '?') (hc0 : c ≠ NUL)
    (h1 : '<' ∉ t) (h2 : '>' ∉ t) (h0 : NUL ∉ t)
    (hrest : headByte rest ≠ '?') :
    parseCapture grows ⟨'?' :: c :: (t ++ '>' :: rest)⟩ ps =
      match parseCaptureString ⟨c :: t, TokenType.Literal⟩ with
      | Except.error e => Except.error e
      | Except.ok d =>
        Except.ok (true, ⟨rest⟩,
          ps ++ [{ d with combType := CombType.Optional, endToken := headByte rest }]) := by
  have hlit := getToken_literal c t ('>' :: rest) hc1 hc2 hc3 hc0 h1 h2 h0 (Or.inr (Or.inl rfl))
  have hpeek : ((peekToken ⟨rest⟩).type == TokenType.QuestionMark) = false := by
    rw [peekToken_question]
    simpa using hrest
  rw [parseCapture_eq]
  simp only [getToken_question, hlit, captureBody, getToken_close, hpeek]
  cases parseCaptureString ⟨c :: t, TokenType.Literal⟩ with
  | error e => rfl
  | ok d => simp [setBack_append, peekChar]

/-- C14: for a non-empty capture text `c` without `<`, `>` and NUL that does not start with
`?`, the expression `<?c>` yields exactly one directive, which has the combinator `Optional`
and otherwise the members of the one directive of `<c>`, whose combinator is `Null`. -/
theorem C14_optional_capture (grows : Nat → Bool) (c : List Char)
    (hc : c ≠ []) (hc1 : '<' ∉ c) (hc2 : '>' ∉ c) (hcq : c.head? ≠ some '?') (hc0 : NUL ∉ c) :
    ∃ d, d.combType = CombType.Null ∧
      parseLogQlExpr grows (['<'] ++ c ++ ['>']) = Except.ok [d] ∧
      parseLogQlExpr grows (['<', '?'] ++ c ++ ['>']) =
        Except.ok [{ d with combType := CombType.Optional }] := by
  obtain ⟨d, hd⟩ := parseCaptureString_ok ⟨c, TokenType.Literal⟩ hc
  obtain ⟨hcomb, hend⟩ := parseCaptureString_fields _ d hd
  obtain ⟨b, t, rfl⟩ := List.exists_cons_of_ne_nil hc
  simp only [List.mem_cons, not_or] at hc1 hc2 hc0
  have hb1 : b ≠ '<' := fun e => hc1.1 e.symm
  have hb2 : b ≠ '>' := fun e => hc2.1 e.symm
  have hb3 : b ≠ '?' := by simpa using hcq
  have hb0 : b ≠ NUL := fun e => hc0.1 e.symm
  have hnil : headByte [NUL] ≠ '?' := by decide
  have hnil2 : headByte [NUL] ≠ '<' := by decide
  have hsingle := parseCapture_single grows b t [NUL] [] hb1 hb2 hb3 hb0 hc1.2 hc2.2 hc0.2 hnil
  have hopt := parseCapture_optional grows b t [NUL] [] hb1 hb2 hb3 hb0 hc1.2 hc2.2 hc0.2 hnil
  rw [hd] at hsingle hopt
  simp only at hsingle hopt
  have hd2 : ({ d with endToken := headByte [NUL] } : Parser) = d := by
    obtain ⟨o, n, p, k, e⟩ := d
    simp only at hend
    subst hend
    rfl
  have hd3 : ({ d with combType := CombType.Optional, endToken := headByte [NUL] } : Parser)
      = { d with combType := CombType.Optional } := by
    obtain ⟨o, n, p, k, e⟩ := d
    simp only at hend
    subst hend
    rfl
  rw [hd2] at hsingle
  rw [hd3] at hopt
  refine ⟨d, hcomb, ?_, ?_⟩
  · have hlen : (['<'] ++ (b :: t) ++ ['>']).length + 2 = (t.length + 3) + 1 + 1 := by
      simp only [List.length_append, List.length_cons, List.length_nil]
      omega
    have hbuf : (['<'] ++ (b :: t) ++ ['>']) ++ [NUL] = '<' :: b :: (t ++ '>' :: [NUL]) := by
      simp
    rw [parseLogQlExpr, runLogQlExpr, hlen, hbuf]
    rw [driverLoop_capture grows _ _ _ _ _ hsingle (by simp), if_neg hnil2,
      driverLoop_end grows _ _ _ (by rw [getToken_nul])]
    rfl
  · have hlen : (['<', '?'] ++ (b :: t) ++ ['>']).length + 2 = (t.length + 4) + 1 + 1 := by
      simp only [List.length_append, List.length_cons, List.length_nil]
      omega
    have hbuf : (['<', '?'] ++ (b :: t) ++ ['>']) ++ [NUL] =
        '<' :: '?' :: b :: (t ++ '>' :: [NUL]) := by
      simp
    rw [parseLogQlExpr, runLogQlExpr, hlen, hbuf]
    rw [driverLoop_capture grows _ _ _ _ _ hopt (by simp), if_neg hnil2,
      driverLoop_end grows _ _ _ (by rw [getToken_nul])]
    rfl

/-- The example of C14: `<?source.ip>` yields one optional directive of type `IP`, and
`<source.ip>` the same directive with the combinator `Null`. -/
theorem C14_optional_capture_witness :
    parseLogQlExpr vectorGrows "<source.ip>".toList =
      Except.ok [⟨[], "source.ip".toList, ParserType.IP, CombType.Null, NUL⟩] ∧
    parseLogQlExpr vectorGrows "<?source.ip>".toList =
      Except.ok [⟨[], "source.ip".toList, ParserType.IP, CombType.Optional, NUL⟩] := by
  obtain ⟨d, -, h1, h2⟩ := C14_optional_capture vectorGrows "source.ip".toList
    (by decide) (by decide) (by decide) (by decide) (by decide)
  have e1 : parseLogQlExpr vectorGrows (['<'] ++ "source.ip".toList ++ ['>']) =
      Except.ok [⟨[], "source.ip".toList, ParserType.IP, CombType.Null, NUL⟩] := rfl
  rw [e1] at h1
  have hd := Except.ok.inj h1
  simp only [List.cons.injEq, and_true] at hd
  subst hd
  exact ⟨rfl, h2⟩

/-! ## Escaping, the second name of an alternation, termination -/

/-- The scan of a literal run takes no `<`, `>` or NUL, whatever the flag `escaped`: the flag
is only ever set when the byte under the cursor is itself a backslash. -/
theorem literalRun_no_angle :
    ∀ (s : List Char) (b : Bool), (b = true → headByte s = backslash) →
      ∀ x ∈ s.take (literalRun b s), x ≠ '<' ∧ x ≠ '>' ∧ x ≠ NUL := by
  intro s
  induction s with
  | nil => intro b _ x hx; simp [literalRun] at hx
  | cons c cs ih =>
    intro b hb x hx
    rw [literalRun] at hx
    split_ifs at hx with hcond
    · rw [List.take_succ_cons, List.mem_cons] at hx
      rcases hx with rfl | hx
      · simp only [Bool.and_eq_true, bne_iff_ne, ne_eq, Bool.or_eq_true] at hcond
        obtain ⟨h0, hrest⟩ := hcond
        rcases hrest with hbt | ⟨h1, h2⟩
        · have hx := hb hbt
          rw [headByte] at hx
          rw [hx]
          exact ⟨by decide, by decide, by decide⟩
        · exact ⟨h1, h2, h0⟩
      · exact ih (headByte cs == backslash) (fun h => by simpa using h) x hx
    · simp at hx

/-- The text of a literal token holds neither `<` nor `>`, also after a backslash. -/
theorem getToken_literal_no_angle (tk : Tokenizer)
    (h : (getToken tk).1.type = TokenType.Literal) :
    '<' ∉ (getToken tk).1.text ∧ '>' ∉ (getToken tk).1.text := by
  obtain ⟨h1, h2, h3, h4⟩ := getToken_type_literal tk.stream h
  have hrun := literalRun_no_angle tk.stream.tail false (fun e => by cases e)
  have htext : (getToken tk).1.text =
      headByte tk.stream :: tk.stream.tail.take (literalRun false tk.stream.tail) := by
    simp only [getToken, if_neg h1, if_neg h2, if_neg h3, if_neg h4]
  rw [htext]
  constructor
  · intro hm
    rcases List.mem_cons.mp hm with e | e
    · exact h1 e.symm
    · exact (hrun _ e).1 rfl
  · intro hm
    rcases List.mem_cons.mp hm with e | e
    · exact h2 e.symm
    · exact (hrun _ e).2.1 rfl

/-- C16, the lexer at the failing input, the four bytes `a`, backslash, `<`, `b`: the
literal token holds the two bytes `a` and backslash, and the cursor is left on the `<`, which
the next call returns as an `OpenAngle` token. -/
theorem C16_escape_has_no_effect :
    getToken ⟨['a', backslash, '<', 'b']⟩ =
      (⟨['a', backslash], TokenType.Literal⟩, ⟨['<', 'b']⟩) ∧
    getToken ⟨['<', 'b']⟩ = (⟨['<'], TokenType.OpenAngle⟩, ⟨['b']⟩) := by
  constructor <;> rfl

/-- C15, the runs at the failing inputs with the vector growth of libstdc++: on `<a>?<>>` the
`>` after `?<` is resolved as the name of the second capture and two directives are returned;
on `<a>?<` the token after `?<` is the end of the expression, and the capture resolver reads
the first element of an empty vector. -/
theorem C15_second_name_not_checked :
    parseLogQlExpr vectorGrows "<a>?<>>".toList =
      Except.ok [⟨[], "a".toList, ParserType.Any, CombType.Or, NUL⟩,
        ⟨[], ">".toList, ParserType.Any, CombType.OrEnd, NUL⟩] ∧
    parseLogQlExpr vectorGrows "<a>?<".toList = Except.error Fault.emptyCapture := by
  constructor <;> rfl

theorem literalRun_le_length : ∀ (s : List Char) (b : Bool), literalRun b s ≤ s.length := by
  intro s
  induction s with
  | nil => intro b; simp [literalRun]
  | cons c cs ih =>
    intro b
    rw [literalRun]
    split_ifs
    · have := ih (headByte cs == backslash)
      simp only [List.length_cons]
      omega
    · simp

/-- More fuel than the loop needs changes nothing. -/
theorem driverLoop_fuel_succ (grows : Nat → Bool) :
    ∀ (n : Nat) (tk : Tokenizer) (ps : ParserList),
      driverLoop grows n tk ps ≠ Except.error Fault.outOfFuel →
      driverLoop grows (n + 1) tk ps = driverLoop grows n tk ps := by
  intro n
  induction n with
  | zero => intro tk ps h; exact absurd rfl h
  | succ k ih =>
    intro tk ps h
    cases hty : (getToken tk).1.type
    case OpenAngle =>
      cases hpc : parseCapture grows (getToken tk).2 ps with
      | error e =>
        conv_lhs => rw [driverLoop]
        conv_rhs => rw [driverLoop]
        simp only [hty, hpc]
      | ok res =>
        obtain ⟨captured, tk2, ps2⟩ := res
        rw [driverLoop_after_capture grows k tk ps captured tk2 ps2 hty hpc] at h
        rw [driverLoop_after_capture grows (k + 1) tk ps captured tk2 ps2 hty hpc,
          driverLoop_after_capture grows k tk ps captured tk2 ps2 hty hpc]
        split_ifs with h1 h2 h3
        · rfl
        · rfl
        · rw [if_neg h1, if_neg h2, if_pos h3] at h
          exact ih tk2 _ h
        · rfl
    all_goals
      rw [driverLoop] at h
      conv_lhs => rw [driverLoop]
      conv_rhs => rw [driverLoop]
    case Literal =>
      simp only [hty] at h ⊢
      exact ih _ _ h
    case EndOfExpr => simp only [hty]
    all_goals
      simp only [hty] at h ⊢
      exact ih _ _ h

theorem driverLoop_fuel_ge (grows : Nat → Bool) (tk : Tokenizer) (ps : ParserList) :
    ∀ (m n : Nat), tk.stream.length < n →
      driverLoop grows (n + m) tk ps = driverLoop grows n tk ps := by
  intro m
  induction m with
  | zero => intro n _; rfl
  | succ k ih =>
    intro n hn
    have h := driverLoop_fuel grows (n + k) tk ps (by omega)
    rw [← Nat.add_assoc, driverLoop_fuel_succ grows (n + k) tk ps h, ih n hn]

/-- The two loops of the lexer and the driver are bounded by the buffer.  Every token read
before the end of the expression moves the cursor forward, the literal scan and the capture
parser do not move it backwards or past the bytes they were given, and the driver loop ends
within as many turns as the buffer has bytes: with that fuel it never runs out, and more fuel
gives the same outcome.  The third loop of the code, the scan of the diagnostic, has no such
bound (`scanClose`, `Fault.scanOverrun`). -/
theorem driverLoop_bounded (grows : Nat → Bool) (expr : List Char) :
    (∀ tk : Tokenizer, (getToken tk).1.type ≠ TokenType.EndOfExpr →
      (getToken tk).2.stream.length < tk.stream.length) ∧
    (∀ (escaped : Bool) (s : List Char), literalRun escaped s ≤ s.length) ∧
    (∀ (tk : Tokenizer) (ps : ParserList),
      parseCapture grows tk ps = Except.error Fault.emptyCapture ∨
      ∃ b tk2 ps2, parseCapture grows tk ps = Except.ok (b, tk2, ps2) ∧
        tk2.stream.length ≤ tk.stream.length) ∧
    runLogQlExpr grows expr ≠ Except.error Fault.outOfFuel ∧
    (∀ fuel, expr.length + 2 ≤ fuel →
      driverLoop grows fuel ⟨expr ++ [NUL]⟩ [] = runLogQlExpr grows expr) := by
  have hlen : (⟨expr ++ [NUL]⟩ : Tokenizer).stream.length < expr.length + 2 := by
    simp only [List.length_append, List.length_singleton]
    omega
  refine ⟨fun tk h => getToken_length_lt tk (getToken_stream_ne_nil tk h),
    fun b s => literalRun_le_length s b, parseCapture_cursor grows,
    driverLoop_fuel grows _ _ _ hlen, ?_⟩
  intro fuel hfuel
  obtain ⟨m, rfl⟩ : ∃ m, fuel = expr.length + 2 + m := ⟨fuel - (expr.length + 2), by omega⟩
  exact driverLoop_fuel_ge grows ⟨expr ++ [NUL]⟩ [] m (expr.length + 2) hlen

/-! ## What the capture parser leaves in the list -/

theorem captureOrClose_shape (pd : Bool) (tk : Tokenizer) (ps : ParserList) (d e : Parser)
    (hd : d.combType = CombType.Or) (he : e.combType = CombType.OrEnd) :
    ∃ b tk2 extra, captureOrClose pd ps.length tk (ps ++ [d, e]) = Except.ok (b, tk2, ps ++ extra) ∧
      CaptureShape (b && !pd) extra := by
  have hsplit : ps ++ [d, e] = (ps ++ [d]) ++ [e] := by simp
  rw [captureOrClose]
  by_cases h : ((getToken tk).1.type != TokenType.CloseAngle) = true
  · simp only [h, if_true]
    exact ⟨false, _, [d, e], rfl, Or.inr ⟨d, e, rfl, hd, he, fun hf => by simp at hf⟩⟩
  · simp only [h, Bool.false_eq_true, if_false]
    cases pd with
    | true =>
      simp only [if_true]
      rw [hsplit, setBack_append, List.append_assoc]
      exact ⟨true, _, _, rfl, Or.inr ⟨d, _, rfl, hd, he, fun hf => by simp at hf⟩⟩
    | false =>
      simp only [Bool.false_eq_true, if_false]
      rw [hsplit, setBack_append, List.append_assoc, List.singleton_append, setAt_append]
      exact ⟨true, _, _, rfl, Or.inr ⟨_, _, rfl, hd, he, fun _ => rfl⟩⟩

theorem captureOr_shape (grows : Nat → Bool) (tk : Tokenizer) (ps : ParserList) (d : Parser)
    (hd : d.combType = CombType.Null ∨ d.combType = CombType.Optional) :
    captureOr grows tk (ps ++ [d]) = Except.error Fault.emptyCapture ∨
    ∃ b tk2 extra, captureOr grows tk (ps ++ [d]) = Except.ok (b, tk2, ps ++ extra) ∧
      CaptureShape (b && !grows (ps.length + 1)) extra := by
  rw [captureOr]
  by_cases h : ((getToken (getToken tk).2).1.type != TokenType.OpenAngle) = true
  · simp only [h, if_true]
    exact Or.inr ⟨false, _, [d], rfl, Or.inl ⟨d, rfl, hd⟩⟩
  · simp only [h, Bool.false_eq_true, if_false]
    cases hp : parseCaptureString (getToken (getToken (getToken tk).2).2).1 with
    | error e =>
      rw [parseCaptureString_error _ e hp]
      exact Or.inl rfl
    | ok d2 =>
      simp only [setBack_append, List.length_append, List.length_singleton,
        Nat.add_sub_cancel]
      rw [List.append_assoc, List.singleton_append]
      obtain ⟨b, tk2, extra, hres, hshape⟩ := captureOrClose_shape (grows (ps.length + 1))
        (getToken (getToken (getToken tk).2).2).2 ps { d with combType := CombType.Or }
        { d2 with combType := CombType.OrEnd } rfl rfl
      rw [hres]
      exact Or.inr ⟨b, tk2, extra, rfl, hshape⟩

theorem captureBody_shape (grows : Nat → Bool) (opt : Bool) (token : Token) (tk : Tokenizer)
    (ps : ParserList) :
    captureBody grows opt token tk ps = Except.error Fault.emptyCapture ∨
    ∃ b tk2 extra, captureBody grows opt token tk ps = Except.ok (b, tk2, ps ++ extra) ∧
      CaptureShape (b && !grows (ps.length + 1)) extra := by
  rw [captureBody]
  cases hp : parseCaptureString token with
  | error e =>
    rw [parseCaptureString_error _ e hp]
    exact Or.inl rfl
  | ok d =>
    have hnull := (parseCaptureString_fields _ d hp).1
    simp only
    by_cases h : ((getToken tk).1.type != TokenType.CloseAngle) = true
    · simp only [h, if_true]
      exact Or.inr ⟨false, _, [d], rfl, Or.inl ⟨d, rfl, Or.inl hnull⟩⟩
    · simp only [h, Bool.false_eq_true, if_false, setBack_append]
      have hopt : (if opt = true then
            ps ++ [({ d with combType := CombType.Optional } : Parser)] else ps ++ [d])
          = ps ++ [if opt = true then { d with combType := CombType.Optional } else d] := by
        cases opt <;> rfl
      have hcomb : (if opt = true then ({ d with combType := CombType.Optional } : Parser)
          else d).combType = CombType.Null ∨
          (if opt = true then ({ d with combType := CombType.Optional } : Parser)
          else d).combType = CombType.Optional := by
        cases opt
        · exact Or.inl hnull
        · exact Or.inr rfl
      rw [hopt]
      by_cases hq : ((peekToken (getToken tk).2).type == TokenType.QuestionMark) = true
      · simp only [hq, if_true]
        exact captureOr_shape grows (getToken tk).2 ps _ hcomb
      · simp only [hq, Bool.false_eq_true, if_false, setBack_append]
        refine Or.inr ⟨true, _, _, rfl, Or.inl ⟨_, rfl, ?_⟩⟩
        exact hcomb

/-- The list after a call of `parseCapture` is the list before it followed by nothing (the
name token was missing), by one capture, or by the two halves of an alternation. -/
theorem parseCapture_shape (grows : Nat → Bool) (tk : Tokenizer) (ps : ParserList) :
    parseCapture grows tk ps = Except.error Fault.emptyCapture ∨
    (∃ tk2, parseCapture grows tk ps = Except.ok (false, tk2, ps)) ∨
    ∃ b tk2 extra, parseCapture grows tk ps = Except.ok (b, tk2, ps ++ extra) ∧
      CaptureShape (b && !grows (ps.length + 1)) extra := by
  rcases parseCapture_cases grows tk ps with ⟨tk2, h⟩ | ⟨opt, tk1, -, -, h⟩
  · exact Or.inr (Or.inl ⟨tk2, h⟩)
  · rw [h]
    rcases captureBody_shape grows opt (getToken tk1).1 (getToken tk1).2 ps with he | hs
    · exact Or.inl he
    · exact Or.inr (Or.inr hs)

theorem CaptureShape.length_le {b : Bool} {extra : ParserList} (h : CaptureShape b extra) :
    1 ≤ extra.length ∧ extra.length ≤ 2 := by
  rcases h with ⟨d, rfl, -⟩ | ⟨d, e, rfl, -⟩ <;> simp

/-- The counterexample of C19: on the buffer `a`, entered with the list holding the literal
`x`, the capture parser returns false and the list holds a second directive, the capture
`a`; on the buffer `a>?<b`, entered with the empty list, it returns false and the list holds
the two halves of the alternation. -/
theorem C19_failed_capture_counterexample :
    parseCapture vectorGrows ⟨"a".toList ++ [NUL]⟩
        [⟨[], "x".toList, ParserType.Literal, CombType.Null, NUL⟩] =
      Except.ok (false, ⟨[]⟩,
        [⟨[], "x".toList, ParserType.Literal, CombType.Null, NUL⟩,
         ⟨[], "a".toList, ParserType.Any, CombType.Null, NUL⟩]) ∧
    parseCapture vectorGrows ⟨"a>?<b".toList ++ [NUL]⟩ [] =
      Except.ok (false, ⟨[]⟩,
        [⟨[], "a".toList, ParserType.Any, CombType.Or, NUL⟩,
         ⟨[], "b".toList, ParserType.Any, CombType.OrEnd, NUL⟩]) := by
  constructor <;> rfl

/-- The end of the alternation branch returns false only at the `requireToken(CloseAngle)`
of line 167, and leaves the list as it found it. -/
theorem captureOrClose_false (pd : Bool) (pi : Nat) (tk : Tokenizer) (ps : ParserList)
    (tk2 : Tokenizer) (ps2 : ParserList)
    (h : captureOrClose pd pi tk ps = Except.ok (false, tk2, ps2)) :
    (getToken tk).1.type ≠ TokenType.CloseAngle ∧ ps2 = ps := by
  rw [captureOrClose] at h
  by_cases hc : ((getToken tk).1.type != TokenType.CloseAngle) = true
  · simp only [hc, if_true] at h
    have hinj := Prod.mk.inj (Except.ok.inj h)
    exact ⟨by simpa using hc, (Prod.mk.inj hinj.2).2.symm⟩
  · simp only [hc, Bool.false_eq_true, if_false] at h
    exact absurd (Prod.mk.inj (Except.ok.inj h)).1 (by decide)

/-- The alternation branch returns false at the `requireToken(OpenAngle)` of line 155, the
list unchanged, or at the `requireToken(CloseAngle)` of line 167, the previous capture made
`Or` and the second one appended as `OrEnd`. -/
theorem captureOr_false (grows : Nat → Bool) (tk : Tokenizer) (ps : ParserList) (d : Parser)
    (tk2 : Tokenizer) (ps2 : ParserList)
    (h : captureOr grows tk (ps ++ [d]) = Except.ok (false, tk2, ps2)) :
    ((getToken (getToken tk).2).1.type ≠ TokenType.OpenAngle ∧ ps2 = ps ++ [d]) ∨
    ((getToken (getToken tk).2).1.type = TokenType.OpenAngle ∧
      ∃ e, parseCaptureString (getToken (getToken (getToken tk).2).2).1 = Except.ok e ∧
        (getToken (getToken (getToken (getToken tk).2).2).2).1.type
          ≠ TokenType.CloseAngle ∧
        ps2 = ps ++ [{ d with combType := CombType.Or },
          { e with combType := CombType.OrEnd }]) := by
  rw [captureOr] at h
  by_cases ho : ((getToken (getToken tk).2).1.type != TokenType.OpenAngle) = true
  · simp only [ho, if_true] at h
    have hinj := Prod.mk.inj (Except.ok.inj h)
    exact Or.inl ⟨by simpa using ho, (Prod.mk.inj hinj.2).2.symm⟩
  · simp only [ho, Bool.false_eq_true, if_false] at h
    cases hp : parseCaptureString (getToken (getToken (getToken tk).2).2).1 with
    | error e =>
      rw [hp] at h
      cases h
    | ok e =>
      rw [hp] at h
      simp only at h
      obtain ⟨hc, hps⟩ := captureOrClose_false _ _ _ _ _ _ h
      refine Or.inr ⟨by simpa using ho, e, rfl, hc, ?_⟩
      rw [hps, setBack_append, setBack_append, List.append_assoc]
      rfl

/-- The body of `parseCapture` returns false at one of its three `requireToken` calls; the
capture resolved from the name has been appended before each of them. -/
theorem captureBody_false (grows : Nat → Bool) (opt : Bool) (token : Token) (tk : Tokenizer)
    (ps : ParserList) (tk2 : Tokenizer) (ps2 : ParserList)
    (h : captureBody grows opt token tk ps = Except.ok (false, tk2, ps2)) :
    ∃ d, parseCaptureString token = Except.ok d ∧
      (((getToken tk).1.type ≠ TokenType.CloseAngle ∧ ps2 = ps ++ [d]) ∨
       ((getToken tk).1.type = TokenType.CloseAngle ∧
        (peekToken (getToken tk).2).type = TokenType.QuestionMark ∧
        (((getToken (getToken (getToken tk).2).2).1.type ≠ TokenType.OpenAngle ∧
          ps2 = ps ++ [if opt = true then { d with combType := CombType.Optional } else d]) ∨
         ((getToken (getToken (getToken tk).2).2).1.type = TokenType.OpenAngle ∧
          ∃ e, parseCaptureString
              (getToken (getToken (getToken (getToken tk).2).2).2).1 = Except.ok e ∧
            (getToken (getToken (getToken (getToken (getToken tk).2).2).2).2).1.type
              ≠ TokenType.CloseAngle ∧
            ps2 = ps ++ [{ d with combType := CombType.Or },
              { e with combType := CombType.OrEnd }])))) := by
  rw [captureBody] at h
  cases hp : parseCaptureString token with
  | error e =>
    rw [hp] at h
    cases h
  | ok d =>
    rw [hp] at h
    simp only at h
    refine ⟨d, rfl, ?_⟩
    by_cases hc : ((getToken tk).1.type != TokenType.CloseAngle) = true
    · simp only [hc, if_true] at h
      have hinj := Prod.mk.inj (Except.ok.inj h)
      exact Or.inl ⟨by simpa using hc, (Prod.mk.inj hinj.2).2.symm⟩
    · simp only [hc, Bool.false_eq_true, if_false] at h
      have hopt : (if opt = true then
            setBack (fun p => { p with combType := CombType.Optional }) (ps ++ [d])
          else ps ++ [d])
          = ps ++ [if opt = true then { d with combType := CombType.Optional } else d] := by
        cases opt
        · rfl
        · simp only [if_true, setBack_append]
      rw [hopt] at h
      by_cases hq : ((peekToken (getToken tk).2).type == TokenType.QuestionMark) = true
      · simp only [hq, if_true] at h
        refine Or.inr ⟨by simpa using hc, by simpa using hq, ?_⟩
        rcases captureOr_false grows _ ps _ tk2 ps2 h with h1 | ⟨ho, e, he, hc2, hps⟩
        · exact Or.inl h1
        · refine Or.inr ⟨ho, e, he, hc2, ?_⟩
          rw [hps]
          cases opt <;> rfl
      · simp only [hq, Bool.false_eq_true, if_false] at h
        exact absurd (Prod.mk.inj (Except.ok.inj h)).1 (by decide)

/-- C19, amended: when `parseCapture` returns false, the list is the list it held on entry
followed by the directives made for the offending capture before the error was met.
`opt` tells whether the capture began with `?`, `name` is the token that should name it,
with the cursor behind it.  Nothing has been appended when `name` is not a literal.
Otherwise the capture `d` resolved from `name` has been appended, and the list is
`ps ++ [d]` when the closing `>` is missing (line 140); `ps ++ [d]`, `d` made `Optional`
when `opt` is set, when a `?` follows the `>` and no `<` follows that `?` (line 155); and
`ps ++ [d, e]`, `d` made `Or` and `e`, resolved from the token behind the `<`, made `OrEnd`,
when the second closing `>` is missing (line 167).  The terminators are still those the
resolver gave, 0. -/
theorem C19_failed_capture_keeps_entries (grows : Nat → Bool) (tk : Tokenizer)
    (ps ps2 : ParserList) (tk2 : Tokenizer) (opt : Bool) (name : Token × Tokenizer)
    (hopt : opt = ((getToken tk).1.type == TokenType.QuestionMark))
    (hname : name = if opt = true then getToken (getToken tk).2 else getToken tk)
    (h : parseCapture grows tk ps = Except.ok (false, tk2, ps2)) :
    (name.1.type ≠ TokenType.Literal ∧ ps2 = ps) ∨
    (name.1.type = TokenType.Literal ∧
      ∃ d, parseCaptureString name.1 = Except.ok d ∧ d.endToken = NUL ∧
      (((getToken name.2).1.type ≠ TokenType.CloseAngle ∧ ps2 = ps ++ [d]) ∨
       ((getToken name.2).1.type = TokenType.CloseAngle ∧
        (peekToken (getToken name.2).2).type = TokenType.QuestionMark ∧
        (((getToken (getToken (getToken name.2).2).2).1.type ≠ TokenType.OpenAngle ∧
          ps2 = ps ++ [if opt = true then { d with combType := CombType.Optional } else d]) ∨
         ((getToken (getToken (getToken name.2).2).2).1.type = TokenType.OpenAngle ∧
          ∃ e, parseCaptureString
              (getToken (getToken (getToken (getToken name.2).2).2).2).1 = Except.ok e ∧
            e.endToken = NUL ∧
            (getToken (getToken (getToken (getToken (getToken name.2).2).2).2).2).1.type
              ≠ TokenType.CloseAngle ∧
            ps2 = ps ++ [{ d with combType := CombType.Or },
              { e with combType := CombType.OrEnd }]))))) := by
  have body : ∀ o : Bool, ∀ nm : Token × Tokenizer,
      captureBody grows o nm.1 nm.2 ps = Except.ok (false, tk2, ps2) →
      ∃ d, parseCaptureString nm.1 = Except.ok d ∧ d.endToken = NUL ∧
      (((getToken nm.2).1.type ≠ TokenType.CloseAngle ∧ ps2 = ps ++ [d]) ∨
       ((getToken nm.2).1.type = TokenType.CloseAngle ∧
        (peekToken (getToken nm.2).2).type = TokenType.QuestionMark ∧
        (((getToken (getToken (getToken nm.2).2).2).1.type ≠ TokenType.OpenAngle ∧
          ps2 = ps ++ [if o = true then { d with combType := CombType.Optional } else d]) ∨
         ((getToken (getToken (getToken nm.2).2).2).1.type = TokenType.OpenAngle ∧
          ∃ e, parseCaptureString
              (getToken (getToken (getToken (getToken nm.2).2).2).2).1 = Except.ok e ∧
            e.endToken = NUL ∧
            (getToken (getToken (getToken (getToken (getToken nm.2).2).2).2).2).1.type
              ≠ TokenType.CloseAngle ∧
            ps2 = ps ++ [{ d with combType := CombType.Or },
              { e with combType := CombType.OrEnd }])))) := by
    intro o nm hb
    obtain ⟨d, hd, hcases⟩ := captureBody_false grows o nm.1 nm.2 ps tk2 ps2 hb
    refine ⟨d, hd, (parseCaptureString_fields _ d hd).2, ?_⟩
    rcases hcases with h1 | ⟨hc, hq, h2 | ⟨ho, e, he, hc2, hps⟩⟩
    · exact Or.inl h1
    · exact Or.inr ⟨hc, hq, Or.inl h2⟩
    · exact Or.inr ⟨hc, hq, Or.inr ⟨ho, e, he, (parseCaptureString_fields _ e he).2, hc2, hps⟩⟩
  rw [parseCapture_eq] at h
  by_cases hq : ((getToken tk).1.type == TokenType.QuestionMark) = true
  · rw [hq] at hopt
    subst hopt
    rw [if_pos rfl] at hname
    subst hname
    rw [if_pos hq] at h
    by_cases hl : ((getToken (getToken tk).2).1.type == TokenType.Literal) = true
    · rw [if_pos hl] at h
      exact Or.inr ⟨by simpa using hl, body true _ h⟩
    · rw [if_neg hl] at h
      have hinj := Prod.mk.inj (Except.ok.inj h)
      exact Or.inl ⟨by simpa using hl, (Prod.mk.inj hinj.2).2.symm⟩
  · have hq2 : ((getToken tk).1.type == TokenType.QuestionMark) = false := by
      simpa using hq
    rw [hq2] at hopt
    subst hopt
    rw [if_neg (by decide)] at hname
    subst hname
    rw [if_neg hq] at h
    by_cases hl : ((getToken tk).1.type == TokenType.Literal) = true
    · rw [if_pos hl] at h
      exact Or.inr ⟨by simpa using hl, body false _ h⟩
    · rw [if_neg hl] at h
      have hinj := Prod.mk.inj (Except.ok.inj h)
      exact Or.inl ⟨by simpa using hl, (Prod.mk.inj hinj.2).2.symm⟩

/-- An example of C19 as amended: on the buffer `a>?<b`, entered with the list holding the
literal `x`, the capture parser returns false at the second `requireToken(CloseAngle)` and
the list holds `x` followed by the two halves of the alternation. -/
theorem C19_failed_capture_keeps_entries_witness :
    parseCapture vectorGrows ⟨"a>?<b".toList ++ [NUL]⟩ [(⟨[], "x".toList, ParserType.Literal, CombType.Null, NUL⟩ : Parser)] =
      Except.ok (false, ⟨[]⟩, [(⟨[], "x".toList, ParserType.Literal, CombType.Null, NUL⟩ : Parser),
      ⟨[], "a".toList, ParserType.Any, CombType.Or, NUL⟩,
      ⟨[], "b".toList, ParserType.Any, CombType.OrEnd, NUL⟩]) ∧
    (((getToken ⟨"a>?<b".toList ++ [NUL]⟩).1.type ≠ TokenType.Literal ∧ [(⟨[], "x".toList, ParserType.Literal, CombType.Null, NUL⟩ : Parser),
      ⟨[], "a".toList, ParserType.Any, CombType.Or, NUL⟩,
      ⟨[], "b".toList, ParserType.Any, CombType.OrEnd, NUL⟩] = [(⟨[], "x".toList, ParserType.Literal, CombType.Null, NUL⟩ : Parser)]) ∨
    ((getToken ⟨"a>?<b".toList ++ [NUL]⟩).1.type = TokenType.Literal ∧
      ∃ d, parseCaptureString (getToken ⟨"a>?<b".toList ++ [NUL]⟩).1 = Except.ok d ∧ d.endToken = NUL ∧
      (((getToken (getToken ⟨"a>?<b".toList ++ [NUL]⟩).2).1.type ≠ TokenType.CloseAngle ∧ [(⟨[], "x".toList, ParserType.Literal, CombType.Null, NUL⟩ : Parser),
      ⟨[], "a".toList, ParserType.Any, CombType.Or, NUL⟩,
      ⟨[], "b".toList, ParserType.Any, CombType.OrEnd, NUL⟩] = [(⟨[], "x".toList, ParserType.Literal, CombType.Null, NUL⟩ : Parser)] ++ [d]) ∨
       ((getToken (getToken ⟨"a>?<b".toList ++ [NUL]⟩).2).1.type = TokenType.CloseAngle ∧
        (peekToken (getToken (getToken ⟨"a>?<b".toList ++ [NUL]⟩).2).2).type = TokenType.QuestionMark ∧
        (((getToken (getToken (getToken (getToken ⟨"a>?<b".toList ++ [NUL]⟩).2).2).2).1.type ≠ TokenType.OpenAngle ∧
          [(⟨[], "x".toList, ParserType.Literal, CombType.Null, NUL⟩ : Parser),
      ⟨[], "a".toList, ParserType.Any, CombType.Or, NUL⟩,
      ⟨[], "b".toList, ParserType.Any, CombType.OrEnd, NUL⟩] = [(⟨[], "x".toList, ParserType.Literal, CombType.Null, NUL⟩ : Parser)] ++ [if false = true then { d with combType := CombType.Optional } else d]) ∨
         ((getToken (getToken (getToken (getToken ⟨"a>?<b".toList ++ [NUL]⟩).2).2).2).1.type = TokenType.OpenAngle ∧
          ∃ e, parseCaptureString
              (getToken (getToken (getToken (getToken (getToken ⟨"a>?<b".toList ++ [NUL]⟩).2).2).2).2).1 = Except.ok e ∧
            e.endToken = NUL ∧
            (getToken (getToken (getToken (getToken (getToken (getToken ⟨"a>?<b".toList ++ [NUL]⟩).2).2).2).2).2).1.type
              ≠ TokenType.CloseAngle ∧
            [(⟨[], "x".toList, ParserType.Literal, CombType.Null, NUL⟩ : Parser),
      ⟨[], "a".toList, ParserType.Any, CombType.Or, NUL⟩,
      ⟨[], "b".toList, ParserType.Any, CombType.OrEnd, NUL⟩] = [(⟨[], "x".toList, ParserType.Literal, CombType.Null, NUL⟩ : Parser)] ++ [{ d with combType := CombType.Or },
              { e with combType := CombType.OrEnd }])))))) :=
  ⟨rfl, C19_failed_capture_keeps_entries vectorGrows ⟨"a>?<b".toList ++ [NUL]⟩ _ _ ⟨[]⟩ false
    (getToken ⟨"a>?<b".toList ++ [NUL]⟩) rfl rfl rfl⟩

/-! ## The split of a capture text -/

theorem findSlash_none (s : List Char) (h : findSlash s = none) : '/' ∉ s := by
  induction s with
  | nil => simp
  | cons c cs ih =>
    rw [findSlash] at h
    split_ifs at h with hc
    simp only [Option.map_eq_none'] at h
    simp only [List.mem_cons, not_or]
    exact ⟨fun e => hc e.symm, ih h⟩

theorem findSlash_some (s : List Char) (pos : Nat) (h : findSlash s = some pos) :
    '/' ∉ s.take pos ∧ s = s.take pos ++ '/' :: s.drop (pos + 1) := by
  induction s generalizing pos with
  | nil => simp [findSlash] at h
  | cons c cs ih =>
    rw [findSlash] at h
    split_ifs at h with hc
    · cases h
      subst hc
      simp
    · simp only [Option.map_eq_some'] at h
      obtain ⟨k, hk, rfl⟩ := h
      obtain ⟨h1, h2⟩ := ih k hk
      refine ⟨?_, ?_⟩
      · simp only [List.take_succ_cons, List.mem_cons, not_or]
        exact ⟨fun e => hc e.symm, h1⟩
      · simp only [List.take_succ_cons, List.drop_succ_cons, List.cons_append]
        rw [← h2]

theorem splitOn_no_slash (u : List Char) (h : '/' ∉ u) : u.splitOn '/' = [u] := by
  rw [List.splitOn]
  apply List.splitOnP_eq_single
  intro x hx hp
  simp only [beq_iff_eq] at hp
  exact h (hp ▸ hx)

theorem splitOn_first_slash (u v : List Char) (h : '/' ∉ u) :
    (u ++ '/' :: v).splitOn '/' = u :: v.splitOn '/' := by
  rw [List.splitOn, List.splitOn]
  apply List.splitOnP_first
  · intro x hx hp
    simp only [beq_iff_eq] at hp
    exact h (hp ▸ hx)
  · simp

theorem referenceSplit_no_slash (u : List Char) (h : '/' ∉ u) :
    referenceSplit u = if u.isEmpty then [] else [u] := by
  rw [referenceSplit, splitOn_no_slash u h]
  cases u <;> simp

theorem referenceSplit_first_slash (u v : List Char) (h : '/' ∉ u) :
    referenceSplit (u ++ '/' :: v) = u :: referenceSplit v := by
  have hne : v.splitOn '/' ≠ [] := List.splitOnP_ne_nil _ _
  rw [referenceSplit, referenceSplit, splitOn_first_slash u v h]
  obtain ⟨x, xs, hx⟩ := List.exists_cons_of_ne_nil hne
  rw [hx, List.getLast?_cons_cons, List.dropLast_cons₂]
  split_ifs <;> rfl

theorem splitLoop_eq_reference (n : Nat) :
    ∀ (str : List Char) (ret : List (List Char)), str.length ≤ n →
      splitLoop n str ret = ret ++ referenceSplit str := by
  induction n with
  | zero =>
    intro str ret hlen
    have : str = [] := List.length_eq_zero.mp (Nat.le_zero.mp hlen)
    subst this
    rw [referenceSplit_no_slash [] (List.not_mem_nil _)]
    simp [splitLoop]
  | succ k ih =>
    intro str ret hlen
    rw [splitLoop]
    split
    · rename_i hnone
      rw [referenceSplit_no_slash str (findSlash_none str hnone)]
      split_ifs <;> simp
    · rename_i pos hsome
      obtain ⟨h1, h2⟩ := findSlash_some str pos hsome
      have hlen2 : (str.drop (pos + 1)).length ≤ k := by
        have := congrArg List.length h2
        simp only [List.length_append, List.length_cons] at this
        omega
      rw [ih _ _ hlen2]
      conv_rhs => rw [h2, referenceSplit_first_slash _ _ h1]
      simp

theorem splitOn_segments_no_slash (s : List Char) :
    ∀ seg ∈ s.splitOn '/', '/' ∉ seg := by
  rw [List.splitOn]
  induction s with
  | nil => simp
  | cons c cs ih =>
    intro seg hseg
    rw [List.splitOnP_cons] at hseg
    split_ifs at hseg with hc
    · rcases List.mem_cons.mp hseg with rfl | hm
      · simp
      · exact ih seg hm
    · obtain ⟨x, xs, hx⟩ := List.exists_cons_of_ne_nil
        (List.splitOnP_ne_nil (fun y => y == '/') cs)
      rw [hx] at hseg ih
      simp only [List.modifyHead_cons, List.mem_cons] at hseg
      rcases hseg with rfl | hm
      · simp only [List.mem_cons, not_or]
        refine ⟨fun e => hc (by simp [← e]), ih x (List.mem_cons_self _ _)⟩
      · exact ih seg (List.mem_cons_of_mem _ hm)

/-- C11: `splitSlashSeparatedField` equals the reference split.  For every text the result is
the list of its `/`-free segments (joined by `/` they give the text back), in order, empty
interior and leading segments kept, the final segment dropped exactly when it is empty; so
`a//b` gives `a`, the empty text and `b`, `a/b/` gives `a` and `b`, and the empty text gives
the empty list. -/
theorem C11_split_equals_reference :
    (∀ s : List Char, splitSlashSeparatedField s = referenceSplit s) ∧
    (∀ s : List Char, ['/'].intercalate (s.splitOn '/') = s ∧
      ∀ seg ∈ s.splitOn '/', '/' ∉ seg) ∧
    splitSlashSeparatedField "a//b".toList = ["a".toList, [], "b".toList] ∧
    splitSlashSeparatedField "a/b/".toList = ["a".toList, "b".toList] ∧
    splitSlashSeparatedField [] = [] := by
  refine ⟨fun s => ?_, fun s => ⟨List.intercalate_splitOn s '/', splitOn_segments_no_slash s⟩, by decide, by decide, rfl⟩
  rw [splitSlashSeparatedField, splitLoop_eq_reference s.length s [] (Nat.le_refl _)]
  rfl

/-! ## The token stream -/

/-- A token other than `EndOfExpr` has as many bytes as the cursor moves. -/
theorem getToken_consumed (tk : Tokenizer)
    (h : (getToken tk).1.type ≠ TokenType.EndOfExpr) :
    (getToken tk).2.stream = tk.stream.drop (getToken tk).1.text.length ∧
    1 ≤ (getToken tk).1.text.length ∧
    (getToken tk).1.text.length ≤ tk.stream.length := by
  obtain ⟨s⟩ := tk
  cases s with
  | nil => exact absurd rfl h
  | cons c r =>
    by_cases h1 : c = '<'
    · subst h1
      rw [getToken_open]
      simp
    by_cases h2 : c = '>'
    · subst h2
      rw [getToken_close]
      simp
    by_cases h3 : c = '?'
    · subst h3
      rw [getToken_question]
      simp
    by_cases h4 : c = NUL
    · subst h4
      exact absurd rfl h
    have hrun := literalRun_le_length r false
    have hget : getToken ⟨c :: r⟩ =
        (⟨c :: r.take (literalRun false r), TokenType.Literal⟩,
          ⟨r.drop (literalRun false r)⟩) := by
      simp only [getToken, headByte, List.tail_cons, if_neg h1, if_neg h2, if_neg h3,
        if_neg h4]
    rw [hget]
    simp only [List.length_cons, List.length_take, Nat.min_eq_left hrun, List.drop_succ_cons,
      true_and]
    omega

theorem tokenStream_question (fuel pos : Nat) (r : List Char) :
    (pos, (⟨['?'], TokenType.QuestionMark⟩ : Token)) ∈
      tokenStream (fuel + 1) pos ⟨'?' :: r⟩ := by
  rw [tokenStream, getToken_question]
  simp

/-- Every `<` or `>` behind NUL-free text is a token of its own in the token stream, at its
offset, and so is a `?` that directly follows it. -/
theorem tokenStream_marker (m : Char) (hm : m = '<' ∨ m = '>') (r : List Char) :
    ∀ (fuel : Nat) (q : List Char) (pos : Nat), NUL ∉ q → (q ++ m :: r).length < fuel →
      (pos + q.length, (getToken ⟨m :: r⟩).1) ∈ tokenStream fuel pos ⟨q ++ m :: r⟩ ∧
      (∀ r2, r = '?' :: r2 →
        (pos + q.length + 1, (⟨['?'], TokenType.QuestionMark⟩ : Token)) ∈
          tokenStream fuel pos ⟨q ++ m :: r⟩) := by
  intro fuel
  induction fuel with
  | zero => intro q pos _ hlen; omega
  | succ k ih =>
    intro q pos h0 hlen
    cases q with
    | nil =>
      have hne : (getToken ⟨m :: r⟩).1.type ≠ TokenType.EndOfExpr := by
        rcases hm with rfl | rfl
        · rw [getToken_open]; simp
        · rw [getToken_close]; simp
      have hst : (getToken ⟨m :: r⟩).2 = ⟨r⟩ ∧ (getToken ⟨m :: r⟩).1.text.length = 1 := by
        rcases hm with rfl | rfl
        · rw [getToken_open]; exact ⟨rfl, rfl⟩
        · rw [getToken_close]; exact ⟨rfl, rfl⟩
      rw [List.nil_append, tokenStream, if_neg hne, hst.1, hst.2]
      refine ⟨by simp, ?_⟩
      intro r2 hr
      subst hr
      obtain ⟨k2, rfl⟩ : ∃ k2, k = k2 + 1 := by
        simp only [List.nil_append, List.length_cons] at hlen
        exact ⟨k - 1, by omega⟩
      exact List.mem_cons_of_mem _ (by simpa using tokenStream_question k2 (pos + 1) r2)
    | cons c t =>
      obtain ⟨tok, q2, hget, hlen2, hsub, htext, hcases⟩ :=
        getToken_before m hm (c :: t) r (List.cons_ne_nil _ _) h0
      have hne : (getToken ⟨c :: t ++ m :: r⟩).1.type ≠ TokenType.EndOfExpr := by
        rw [hget]
        rcases hcases with ⟨h, -⟩ | ⟨h, -⟩ | ⟨h, -⟩ | ⟨h, -⟩ <;> rw [h] <;> decide
      obtain ⟨hdrop, -, -⟩ := getToken_consumed _ hne
      rw [hget] at hdrop
      simp only at hdrop
      have hcount : tok.text.length + q2.length = (c :: t).length := by
        have := congrArg List.length hdrop
        simp only [List.length_append, List.length_cons, List.length_drop] at this hlen2 ⊢
        have hle := (getToken_consumed _ hne).2.2
        rw [hget] at hle
        simp only [List.length_append, List.length_cons] at hle
        omega
      have hrec := ih q2 (pos + tok.text.length) (fun hn => h0 (hsub _ hn))
        (by simp only [List.length_append, List.length_cons] at hlen hlen2 ⊢; omega)
      have hpos : pos + tok.text.length + q2.length = pos + (c :: t).length := by omega
      rw [hpos] at hrec
      rw [tokenStream, if_neg hne, hget]
      exact ⟨List.mem_cons_of_mem _ hrec.1, fun r2 hr => List.mem_cons_of_mem _ (hrec.2 r2 hr)⟩

theorem literalRun_stop :
    ∀ (s : List Char) (b : Bool), (b = true → headByte s = backslash) →
      headByte (s.drop (literalRun b s)) = '<' ∨ headByte (s.drop (literalRun b s)) = '>' ∨
        headByte (s.drop (literalRun b s)) = NUL := by
  intro s
  induction s with
  | nil => intro b _; exact Or.inr (Or.inr rfl)
  | cons c cs ih =>
    intro b hb
    rw [literalRun]
    split_ifs with hcond
    · rw [List.drop_succ_cons]
      exact ih _ (fun h => by simpa using h)
    · rw [List.drop_zero, headByte]
      simp only [Bool.and_eq_true, bne_iff_ne, ne_eq, Bool.or_eq_true, not_and, not_or,
        not_not] at hcond
      by_cases h0 : c = NUL
      · exact Or.inr (Or.inr h0)
      · obtain ⟨hbf, himp⟩ := hcond h0
        by_cases h1 : c = '<'
        · exact Or.inl h1
        · exact Or.inr (Or.inl (himp h1))

theorem headByte_getElem (t : List Char) (c : Char) (h : headByte t = c) (hc : c ≠ NUL) :
    t[0]? = some c := by
  cases t with
  | nil => exact absurd h.symm hc
  | cons a r =>
    rw [headByte] at h
    rw [h]
    exact List.getElem?_cons_zero

/-- Where the token after a token starts: behind a one-byte `<`, `>` or `?`, or, behind a
literal, on a `<`, a `>` or the end of the expression. -/
theorem getToken_next_start (t : List Char)
    (hne : (getToken ⟨t⟩).1.type ≠ TokenType.EndOfExpr) :
    ((getToken ⟨t⟩).1.text.length = 1 ∧
      (t[0]? = some '<' ∨ t[0]? = some '>' ∨ t[0]? = some '?')) ∨
    (headByte (getToken ⟨t⟩).2.stream = '<' ∨ headByte (getToken ⟨t⟩).2.stream = '>' ∨
      headByte (getToken ⟨t⟩).2.stream = NUL) := by
  cases t with
  | nil => exact absurd rfl hne
  | cons c r =>
    by_cases h1 : c = '<'
    · subst h1
      exact Or.inl ⟨rfl, Or.inl List.getElem?_cons_zero⟩
    by_cases h2 : c = '>'
    · subst h2
      exact Or.inl ⟨rfl, Or.inr (Or.inl List.getElem?_cons_zero)⟩
    by_cases h3 : c = '?'
    · subst h3
      exact Or.inl ⟨rfl, Or.inr (Or.inr List.getElem?_cons_zero)⟩
    by_cases h4 : c = NUL
    · subst h4
      exact absurd rfl hne
    have hget : getToken ⟨c :: r⟩ =
        (⟨c :: r.take (literalRun false r), TokenType.Literal⟩,
          ⟨r.drop (literalRun false r)⟩) := by
      simp only [getToken, headByte, List.tail_cons, if_neg h1, if_neg h2, if_neg h3,
        if_neg h4]
    rw [hget]
    exact Or.inr (literalRun_stop r false (fun e => by cases e))

/-- A token of the token stream starts at the cursor, or behind a `<`, `>` or `?`, or on a
`<` or `>`. -/
theorem tokenStream_starts :
    ∀ (fuel pos : Nat) (t : List Char) (p : Nat) (tok : Token),
      (p, tok) ∈ tokenStream fuel pos ⟨t⟩ →
      p = pos ∨ ∃ j, p = pos + j + 1 ∧
        (t[j]? = some '<' ∨ t[j]? = some '>' ∨ t[j]? = some '?' ∨
          t[j + 1]? = some '<' ∨ t[j + 1]? = some '>') := by
  intro fuel
  induction fuel with
  | zero => intro pos t p tok h; simp [tokenStream] at h
  | succ k ih =>
    intro pos t p tok h
    rw [tokenStream] at h
    split_ifs at h with hne
    · simp at h
    · rcases List.mem_cons.mp h with heq | hmem
      · left
        exact (Prod.mk.inj heq).1
      · right
        obtain ⟨hdrop, hge, hle⟩ := getToken_consumed ⟨t⟩ hne
        simp only at hdrop
        have htk : (getToken ⟨t⟩).2 = ⟨t.drop (getToken ⟨t⟩).1.text.length⟩ := by
          cases hg : (getToken ⟨t⟩).2
          rw [hg] at hdrop
          simp only at hdrop
          rw [hdrop]
        rw [htk] at hmem
        rcases ih _ _ _ _ hmem with hp | ⟨j, hp, hj⟩
        · obtain ⟨n, hn⟩ : ∃ n, (getToken ⟨t⟩).1.text.length = n + 1 :=
            ⟨(getToken ⟨t⟩).1.text.length - 1, by omega⟩
          refine ⟨n, by omega, ?_⟩
          rcases getToken_next_start t hne with ⟨hone, hstruct⟩ | hstop
          · have hn0 : n = 0 := by omega
            subst hn0
            rcases hstruct with e | e | e
            · exact Or.inl e
            · exact Or.inr (Or.inl e)
            · exact Or.inr (Or.inr (Or.inl e))
          · rw [htk] at hstop
            simp only at hstop
            have hnext : (getToken ⟨t.drop (getToken ⟨t⟩).1.text.length⟩).1.type
                ≠ TokenType.EndOfExpr := by
              intro hend
              cases k with
              | zero => simp [tokenStream] at hmem
              | succ k2 =>
                rw [tokenStream, if_pos hend] at hmem
                simp at hmem
            have hnul : headByte (t.drop (getToken ⟨t⟩).1.text.length) ≠ NUL := by
              intro e
              apply hnext
              rw [getToken_type, e]
              rfl
            rcases hstop with e | e | e
            · have := headByte_getElem _ _ e (by decide)
              rw [List.getElem?_drop, hn] at this
              exact Or.inr (Or.inr (Or.inr (Or.inl this)))
            · have := headByte_getElem _ _ e (by decide)
              rw [List.getElem?_drop, hn] at this
              exact Or.inr (Or.inr (Or.inr (Or.inr this)))
            · exact absurd e hnul
        · refine ⟨(getToken ⟨t⟩).1.text.length + j, by omega, ?_⟩
          simp only [List.getElem?_drop] at hj
          rw [Nat.add_assoc]
          exact hj

theorem getElem?_split (s : List Char) (i : Nat) (m : Char) (h : s[i]? = some m) :
    ∃ q r, s = q ++ m :: r ∧ q.length = i := by
  obtain ⟨hi, hm⟩ := List.getElem?_eq_some.mp h
  refine ⟨s.take i, s.drop (i + 1), ?_, ?_⟩
  · rw [← hm, ← List.drop_eq_getElem_cons hi, List.take_append_drop]
  · rw [List.length_take]
    omega

theorem lexAll_marker (m : Char) (hm : m = '<' ∨ m = '>') (q r : List Char) (h0 : NUL ∉ q) :
    (q.length, (getToken ⟨m :: r⟩).1) ∈ lexAll (q ++ m :: r) ∧
    (∀ r2, r = '?' :: r2 →
      (q.length + 1, (⟨['?'], TokenType.QuestionMark⟩ : Token)) ∈ lexAll (q ++ m :: r)) := by
  have h := tokenStream_marker m hm (r ++ [NUL]) ((q ++ m :: r).length + 2) q 0 h0
    (by simp only [List.length_append, List.length_cons, List.length_nil]; omega)
  simp only [Nat.zero_add] at h
  have hbuf : (q ++ m :: r) ++ [NUL] = q ++ m :: (r ++ [NUL]) := by simp
  have htok : (getToken ⟨m :: (r ++ [NUL])⟩).1 = (getToken ⟨m :: r⟩).1 := by
    rcases hm with rfl | rfl <;> rfl
  rw [lexAll, hbuf, ← htok]
  exact ⟨h.1, fun r2 hr => h.2 (r2 ++ [NUL]) (by rw [hr]; rfl)⟩

/-- The counterexample of C17: in `a?b` the byte at offset 1 is a `?`, and the token stream
is the one literal token `a?b`; there is no `QuestionMark` token. -/
theorem C17_question_mark_counterexample :
    "a?b".toList[1]? = some '?' ∧
    lexAll "a?b".toList = [(0, ⟨"a?b".toList, TokenType.Literal⟩)] := by
  constructor <;> rfl

/-- C17, amended: in a NUL-free buffer every `<` and every `>` is a one-byte token of the
token stream at its offset, and so is a `?` at offset 0 or directly behind a `<` or `>`; a
`?` that is a token start stands at offset 0 or directly behind a `<`, `>` or `?`, so a `?`
behind any other byte is part of a literal. -/
theorem C17_structural_tokens (s : List Char) (h0 : NUL ∉ s) :
    (∀ i, s[i]? = some '<' → (i, (⟨['<'], TokenType.OpenAngle⟩ : Token)) ∈ lexAll s) ∧
    (∀ i, s[i]? = some '>' → (i, (⟨['>'], TokenType.CloseAngle⟩ : Token)) ∈ lexAll s) ∧
    (s[0]? = some '?' → (0, (⟨['?'], TokenType.QuestionMark⟩ : Token)) ∈ lexAll s) ∧
    (∀ i, s[i]? = some '<' ∨ s[i]? = some '>' → s[i + 1]? = some '?' →
      (i + 1, (⟨['?'], TokenType.QuestionMark⟩ : Token)) ∈ lexAll s) ∧
    (∀ i tok, (i + 1, tok) ∈ lexAll s → s[i + 1]? = some '?' →
      s[i]? = some '<' ∨ s[i]? = some '>' ∨ s[i]? = some '?') := by
  have hmark : ∀ (m : Char), m = '<' ∨ m = '>' → ∀ i, s[i]? = some m →
      (i, (getToken ⟨m :: s.drop (i + 1)⟩).1) ∈ lexAll s ∧
      (s[i + 1]? = some '?' →
        (i + 1, (⟨['?'], TokenType.QuestionMark⟩ : Token)) ∈ lexAll s) := by
    intro m hm i hi
    obtain ⟨q, r, hs, hq⟩ := getElem?_split s i m hi
    have hnul : NUL ∉ q := fun hn => h0 (by rw [hs]; exact List.mem_append_left _ hn)
    have hdrop : s.drop (i + 1) = r := by
      rw [hs, ← hq]
      simp
    obtain ⟨h1, h2⟩ := lexAll_marker m hm q r hnul
    rw [← hs, hq] at h1 h2
    rw [hdrop]
    refine ⟨h1, fun hnext => ?_⟩
    have hr : r[0]? = some '?' := by
      rw [← hdrop, List.getElem?_drop]
      exact hnext
    cases r with
    | nil => simp at hr
    | cons c r2 =>
      simp only [List.getElem?_cons_zero, Option.some.injEq] at hr
      subst hr
      exact h2 r2 rfl
  refine ⟨fun i hi => ?_, fun i hi => ?_, fun h => ?_, fun i hi hnext => ?_,
    fun i tok hmem hq => ?_⟩
  · have := (hmark '<' (Or.inl rfl) i hi).1
    rwa [getToken_open] at this
  · have := (hmark '>' (Or.inr rfl) i hi).1
    rwa [getToken_close] at this
  · cases s with
    | nil => simp at h
    | cons c r =>
      simp only [List.getElem?_cons_zero, Option.some.injEq] at h
      subst h
      exact tokenStream_question _ 0 (r ++ [NUL])
  · rcases hi with hi | hi
    · exact (hmark '<' (Or.inl rfl) i hi).2 hnext
    · exact (hmark '>' (Or.inr rfl) i hi).2 hnext
  · have hback : ∀ (j : Nat) (c : Char), c ≠ NUL → (s ++ [NUL])[j]? = some c →
        s[j]? = some c := by
      intro j c hc hj
      by_cases hlt : j < s.length
      · rwa [List.getElem?_append_left hlt] at hj
      · rw [List.getElem?_append_right (by omega)] at hj
        cases hk : j - s.length with
        | zero =>
          rw [hk] at hj
          exact absurd (Option.some.inj hj).symm hc
        | succ n =>
          rw [hk] at hj
          simp at hj
    have hq2 : (s ++ [NUL])[i + 1]? = some '?' := by
      have hlt : i + 1 < s.length := (List.getElem?_eq_some.mp hq).1
      rw [List.getElem?_append_left hlt]
      exact hq
    rcases tokenStream_starts _ 0 (s ++ [NUL]) (i + 1) tok hmem with h | ⟨j, hj, hcases⟩
    · omega
    · have hji : j = i := by omega
      subst hji
      rcases hcases with e | e | e | e | e
      · exact Or.inl (hback _ _ (by decide) e)
      · exact Or.inr (Or.inl (hback _ _ (by decide) e))
      · exact Or.inr (Or.inr (hback _ _ (by decide) e))
      · rw [hq2] at e
        exact absurd (Option.some.inj e) (by decide)
      · rw [hq2] at e
        exact absurd (Option.some.inj e) (by decide)

/-- The example of C17 as amended: in `a<?b>` the `<` at offset 1, the `?` at offset 2 and
the `>` at offset 4 are tokens of their own. -/
theorem C17_structural_tokens_witness :
    (1, (⟨['<'], TokenType.OpenAngle⟩ : Token)) ∈ lexAll "a<?b>".toList ∧
    (2, (⟨['?'], TokenType.QuestionMark⟩ : Token)) ∈ lexAll "a<?b>".toList ∧
    (4, (⟨['>'], TokenType.CloseAngle⟩ : Token)) ∈ lexAll "a<?b>".toList := by
  obtain ⟨h1, h2, -, h4, -⟩ := C17_structural_tokens "a<?b>".toList (by decide)
  exact ⟨h1 1 rfl, h4 1 (Or.inl rfl) rfl, h2 4 rfl⟩

/-! ## The pairs of an alternation in the returned list -/

theorem pairInvariant_nil (same : Bool) : PairInvariant same [] :=
  ⟨List.chain'_nil, fun x hx => by simp at hx⟩

theorem PairInvariant.append_single {same : Bool} {ps : ParserList} (h : PairInvariant same ps)
    (d : Parser) (hd1 : d.combType ≠ CombType.Or) (hd2 : d.combType ≠ CombType.OrEnd) :
    PairInvariant same (ps ++ [d]) := by
  refine ⟨List.Chain'.append h.1 (List.chain'_singleton d) ?_, ?_⟩
  · intro x hx y hy
    simp only [List.head?_cons, Option.mem_def, Option.some.injEq] at hy
    subst hy
    exact ⟨⟨fun e => absurd e (h.2 x hx), fun e => absurd e hd2⟩,
      fun _ e => absurd e (h.2 x hx)⟩
  · intro x hx
    have hl : (ps ++ [d]).getLast? = some d := by
      rw [List.getLast?_append]
      rfl
    rw [hl] at hx
    simp only [Option.mem_def, Option.some.injEq] at hx
    subst hx
    exact hd1

theorem PairInvariant.append_pair {same : Bool} {ps : ParserList} (h : PairInvariant same ps)
    (d e : Parser) (hd : d.combType = CombType.Or) (he : e.combType = CombType.OrEnd)
    (hend : same = true → d.endToken = e.endToken) :
    PairInvariant same (ps ++ [d, e]) := by
  have hpair : List.Chain' (PairRel same) [d, e] :=
    List.chain'_pair.mpr ⟨⟨fun _ => he, fun _ => hd⟩, fun hs _ => hend hs⟩
  refine ⟨List.Chain'.append h.1 hpair ?_, ?_⟩
  · intro x hx y hy
    simp only [List.head?_cons, Option.mem_def, Option.some.injEq] at hy
    subst hy
    refine ⟨⟨fun e => absurd e (h.2 x hx), fun e2 => ?_⟩, fun _ e => absurd e (h.2 x hx)⟩
    rw [hd] at e2
    cases e2
  · intro x hx
    have hl : (ps ++ [d, e]).getLast? = some e := by
      rw [List.getLast?_append]
      rfl
    rw [hl] at hx
    simp only [Option.mem_def, Option.some.injEq] at hx
    subst hx
    rw [he]
    decide

theorem PairInvariant.append_shape {same flag : Bool} {ps extra : ParserList}
    (h : PairInvariant same ps) (hs : CaptureShape flag extra)
    (hflag : same = true → flag = true) : PairInvariant same (ps ++ extra) := by
  rcases hs with ⟨d, rfl, hd⟩ | ⟨d, e, rfl, hd, he, hend⟩
  · refine h.append_single d ?_ ?_
    · rcases hd with e | e <;> rw [e] <;> decide
    · rcases hd with e | e <;> rw [e] <;> decide
  · exact h.append_pair d e hd he (fun hsame => hend (hflag hsame))

/-- The driver loop keeps the invariant of C13; the terminators of a pair agree when no
`emplace_back` reallocates. -/
theorem driverLoop_pairInvariant (grows : Nat → Bool) (same : Bool)
    (hg : same = true → ∀ n, grows n = false) :
    ∀ (n : Nat) (tk : Tokenizer) (ps : ParserList) (r : DriverResult),
      PairInvariant same ps → driverLoop grows n tk ps = Except.ok r →
      PairInvariant same r.parsers := by
  intro n
  induction n with
  | zero => intro tk ps r _ h; simp [driverLoop] at h
  | succ k ih =>
    intro tk ps r hinv h
    cases hty : (getToken tk).1.type
    case OpenAngle =>
      rcases parseCapture_shape grows (getToken tk).2 ps with
        he | ⟨tk2, hres⟩ | ⟨b, tk2, extra, hres, hshape⟩
      · rw [driverLoop] at h
        simp only [hty, he] at h
        cases h
      · rcases driverLoop_capture_result grows k tk ps r false tk2 ps hty hres h with
          hnil | ⟨hb, -, -⟩
        · rw [hnil]
          exact pairInvariant_nil same
        · cases hb
      · rcases driverLoop_capture_result grows k tk ps r b tk2 _ hty hres h with
          hnil | ⟨hb, -, hrun⟩
        · rw [hnil]
          exact pairInvariant_nil same
        · refine ih _ _ _ (hinv.append_shape hshape (fun hs => ?_)) hrun
          rw [hb, hg hs]
          rfl
    all_goals rw [driverLoop] at h
    case Literal =>
      simp only [hty] at h
      exact ih _ _ _ (hinv.append_single _ (fun e => by cases e) (fun e => by cases e)) h
    case EndOfExpr =>
      simp only [hty] at h
      cases h
      exact hinv
    all_goals
      simp only [hty] at h
      exact ih _ _ _ hinv h

theorem chain'_getElem? {R : Parser → Parser → Prop} :
    ∀ (l : ParserList), List.Chain' R l → ∀ (i : Nat) (d e : Parser),
      l[i]? = some d → l[i + 1]? = some e → R d e := by
  intro l
  induction l with
  | nil => intro _ i d e h; simp at h
  | cons a t ih =>
    intro hc i d e hd he
    cases t with
    | nil => simp at he
    | cons b t2 =>
      rw [List.chain'_cons] at hc
      cases i with
      | zero =>
        simp only [List.getElem?_cons_zero, Option.some.injEq, Nat.zero_add,
          List.getElem?_cons_succ] at hd he
        subst hd he
        exact hc.1
      | succ j =>
        simp only [List.getElem?_cons_succ] at hd he
        exact ih hc.2 j d e hd (by simpa using he)

theorem getLast?_of_getElem? :
    ∀ (l : ParserList) (i : Nat) (d : Parser), l[i]? = some d → l[i + 1]? = none →
      l.getLast? = some d := by
  intro l
  induction l with
  | nil => intro i d h; simp at h
  | cons a t ih =>
    intro i d hd hn
    cases i with
    | zero =>
      simp only [List.getElem?_cons_zero, Option.some.injEq] at hd
      subst hd
      cases t with
      | nil => rfl
      | cons b t2 => simp at hn
    | succ j =>
      simp only [List.getElem?_cons_succ] at hd hn
      cases t with
      | nil => simp at hd
      | cons b t2 =>
        rw [List.getLast?_cons_cons]
        exact ih j d hd hn

/-- The part of C13 that holds on every returned list: a directive is `Or` exactly when the
next one exists and is `OrEnd`; and, when no `emplace_back` reallocates, the two have the
same terminator. -/
theorem parseLogQlExpr_pairs (grows : Nat → Bool) (expr : List Char) (ps : ParserList)
    (h : parseLogQlExpr grows expr = Except.ok ps) (i : Nat) (d : Parser)
    (hd : ps[i]? = some d) :
    (d.combType = CombType.Or ↔ ∃ e, ps[i + 1]? = some e ∧ e.combType = CombType.OrEnd) ∧
    ((∀ n, grows n = false) → d.combType = CombType.Or →
      ∀ e, ps[i + 1]? = some e → d.endToken = e.endToken) := by
  rw [parseLogQlExpr, runLogQlExpr] at h
  cases hr : driverLoop grows (expr.length + 2) ⟨expr ++ [NUL]⟩ [] with
  | error e =>
    rw [hr] at h
    cases h
  | ok r =>
    rw [hr] at h
    have hps : r.parsers = ps := Except.ok.inj h
    have hinv := driverLoop_pairInvariant grows false (fun e => by cases e) _ _ _ r
      (pairInvariant_nil false) hr
    rw [hps] at hinv
    refine ⟨⟨fun hor => ?_, fun ⟨e, he, hend⟩ => ?_⟩, fun hgrow hor e he => ?_⟩
    · cases hnext : ps[i + 1]? with
      | none =>
        exact absurd hor (hinv.2 d (getLast?_of_getElem? ps i d hd hnext))
      | some e => exact ⟨e, rfl, (chain'_getElem? ps hinv.1 i d e hd hnext).1.mp hor⟩
    · exact (chain'_getElem? ps hinv.1 i d e hd he).1.mpr hend
    · have hinv2 := driverLoop_pairInvariant grows true (fun _ => hgrow) _ _ _ r
        (pairInvariant_nil true) hr
      rw [hps] at hinv2
      exact (chain'_getElem? ps hinv2.1 i d e hd he).2 rfl hor

/-- C13, the run at the failing input `x<a>?<b>y` with the vector growth of libstdc++: the
directive at index 1 is `Or` with the terminator 0, the directive at index 2 is `OrEnd` with
the terminator `y`. -/
theorem C13_pair_terminators_differ :
    parseLogQlExpr vectorGrows "x<a>?<b>y".toList =
      Except.ok [⟨[], "x".toList, ParserType.Literal, CombType.Null, NUL⟩,
        ⟨[], "a".toList, ParserType.Any, CombType.Or, NUL⟩,
        ⟨[], "b".toList, ParserType.Any, CombType.OrEnd, 'y'⟩,
        ⟨[], "y".toList, ParserType.Literal, CombType.Null, NUL⟩] := rfl

/-! ## Literal directives and the cursor inside the expression -/

/-- The cursor after a token is a tail of the buffer before it. -/
theorem getToken_suffix (tk : Tokenizer) : (getToken tk).2.stream <:+ tk.stream := by
  rw [getToken]
  simp only
  split_ifs
  all_goals first
    | exact List.tail_suffix _
    | exact (List.drop_suffix _ _).trans (List.tail_suffix _)

/-- The text of a literal token is not empty and is the start of the buffer. -/
theorem getToken_literal_start (tk : Tokenizer)
    (h : (getToken tk).1.type = TokenType.Literal) :
    (getToken tk).1.text ≠ [] ∧ (getToken tk).1.text <+: tk.stream := by
  obtain ⟨h1, h2, h3, h4⟩ := getToken_type_literal tk.stream h
  have htext : (getToken tk).1.text =
      headByte tk.stream :: tk.stream.tail.take (literalRun false tk.stream.tail) := by
    simp only [getToken, if_neg h1, if_neg h2, if_neg h3, if_neg h4]
  rw [htext]
  refine ⟨List.cons_ne_nil _ _, ?_⟩
  cases hs : tk.stream with
  | nil =>
    rw [hs] at h4
    exact absurd rfl h4
  | cons c r =>
    exact (List.prefix_cons_inj c).mpr ( List.take_prefix _ r)

theorem forall_mem_setBack (Q : Parser → Prop) (f : Parser → Parser)
    (hf : ∀ p, Q p → Q (f p)) :
    ∀ ps : ParserList, (∀ d ∈ ps, Q d) → ∀ d ∈ setBack f ps, Q d := by
  intro ps
  induction ps with
  | nil => intro _ d hd; simp [setBack] at hd
  | cons p t ih =>
    intro h d hd
    cases t with
    | nil =>
      simp only [setBack, List.mem_singleton] at hd
      rw [hd]
      exact hf p (h p (List.mem_cons_self _ _))
    | cons q t2 =>
      simp only [setBack, List.mem_cons] at hd
      rcases hd with hd | hd
      · rw [hd]
        exact h p (List.mem_cons_self _ _)
      · exact ih (fun x hx => h x (List.mem_cons_of_mem _ hx)) d (by simpa using hd)

theorem forall_mem_setAt (Q : Parser → Prop) (f : Parser → Parser)
    (hf : ∀ p, Q p → Q (f p)) :
    ∀ (ps : ParserList) (i : Nat), (∀ d ∈ ps, Q d) → ∀ d ∈ setAt f i ps, Q d := by
  intro ps
  induction ps with
  | nil => intro i _ d hd; cases i <;> simp [setAt] at hd
  | cons p t ih =>
    intro i h d hd
    cases i with
    | zero =>
      simp only [setAt, List.mem_cons] at hd
      rcases hd with hd | hd
      · rw [hd]
        exact hf p (h p (List.mem_cons_self _ _))
      · exact h d (List.mem_cons_of_mem _ hd)
    | succ j =>
      simp only [setAt, List.mem_cons] at hd
      rcases hd with hd | hd
      · rw [hd]
        exact h p (List.mem_cons_self _ _)
      · exact ih j (fun x hx => h x (List.mem_cons_of_mem _ hx)) d hd

theorem forall_mem_append_single (Q : Parser → Prop) (ps : ParserList) (d : Parser)
    (h : ∀ x ∈ ps, Q x) (hd : Q d) : ∀ x ∈ ps ++ [d], Q x := by
  intro x hx
  rcases List.mem_append.mp hx with hx | hx
  · exact h x hx
  · rw [List.mem_singleton.mp hx]
    exact hd

/-- No key of the table maps to `Literal`. -/
theorem mapperFind_ne_literal (key : List Char) :
    mapperFind key ≠ some ParserType.Literal := by
  intro h
  have hall : ∀ p ∈ ECSParserMapper, p.2 ≠ ParserType.Literal := by decide
  exact hall _ (mapperFind_some_mem key _ h) rfl

/-- The capture resolver never gives the type `Literal`. -/
theorem parseCaptureString_not_literal (token : Token) (d : Parser)
    (h : parseCaptureString token = Except.ok d) : d.parserType ≠ ParserType.Literal := by
  rw [parseCaptureString_eq] at h
  cases hs : splitSlashSeparatedField token.text with
  | nil =>
    rw [hs] at h
    cases h
  | cons name opts =>
    rw [hs] at h
    have hd := Except.ok.inj h
    rw [← hd]
    simp only
    intro hl
    by_cases hu : (headByte token.text != '_') = true
    · rw [if_pos hu] at hl
      cases hm : mapperFind token.text with
      | none => rw [hm] at hl; cases hl
      | some v =>
        rw [hm] at hl
        simp only [Option.getD_some] at hl
        rw [hl] at hm
        exact mapperFind_ne_literal _ hm
    · rw [if_neg hu] at hl
      cases opts with
      | nil => cases hl
      | cons o t =>
        simp only [List.head?_cons, Option.some_bind] at hl
        cases hm : mapperFind o with
        | none => rw [hm] at hl; cases hl
        | some v =>
          rw [hm] at hl
          simp only [Option.getD_some] at hl
          rw [hl] at hm
          exact mapperFind_ne_literal _ hm

/-- The end of the alternation branch leaves the cursor inside the buffer and keeps every
property of the directives that depends on their text and type only. -/
theorem captureOrClose_frame (Q : Parser → Prop)
    (hst : ∀ p q : Parser, q.name = p.name → q.parserType = p.parserType → Q p → Q q)
    (pd : Bool) (pi : Nat) (tk : Tokenizer) (ps : ParserList) (h : ∀ d ∈ ps, Q d) :
    ∃ b tk2 ps2, captureOrClose pd pi tk ps = Except.ok (b, tk2, ps2) ∧
      tk2.stream <:+ tk.stream ∧ ∀ d ∈ ps2, Q d := by
  rw [captureOrClose]
  by_cases hc : ((getToken tk).1.type != TokenType.CloseAngle) = true
  · simp only [hc, if_true]
    exact ⟨_, _, _, rfl, getToken_suffix tk, h⟩
  · simp only [hc, if_false]
    refine ⟨_, _, _, rfl, getToken_suffix tk, ?_⟩
    have hback := forall_mem_setBack Q
      (fun p => { p with endToken := peekChar (getToken tk).2 })
      (fun p hp => hst p _ rfl rfl hp) ps h
    cases pd with
    | true =>
      simp only [if_true]
      exact hback
    | false =>
      simp only [Bool.false_eq_true, if_false]
      exact forall_mem_setAt Q (fun p => { p with endToken := peekChar (getToken tk).2 })
        (fun p hp => hst p _ rfl rfl hp) _ pi hback

theorem captureOr_frame (Q : Parser → Prop)
    (hst : ∀ p q : Parser, q.name = p.name → q.parserType = p.parserType → Q p → Q q)
    (hnew : ∀ tok d, parseCaptureString tok = Except.ok d → Q d)
    (grows : Nat → Bool) (tk : Tokenizer) (ps : ParserList) (h : ∀ d ∈ ps, Q d) :
    captureOr grows tk ps = Except.error Fault.emptyCapture ∨
    ∃ b tk2 ps2, captureOr grows tk ps = Except.ok (b, tk2, ps2) ∧
      tk2.stream <:+ tk.stream ∧ ∀ d ∈ ps2, Q d := by
  have h1 := getToken_suffix tk
  have h2 := getToken_suffix (getToken tk).2
  have h3 := getToken_suffix (getToken (getToken tk).2).2
  rw [captureOr]
  by_cases ho : ((getToken (getToken tk).2).1.type != TokenType.OpenAngle) = true
  · simp only [ho, if_true]
    exact Or.inr ⟨_, _, _, rfl, h2.trans h1, h⟩
  · simp only [ho, if_false]
    cases hp : parseCaptureString (getToken (getToken (getToken tk).2).2).1 with
    | error e =>
      rw [parseCaptureString_error _ e hp]
      exact Or.inl rfl
    | ok d =>
      simp only
      have hor := forall_mem_setBack Q (fun p => { p with combType := CombType.Or })
        (fun p hp => hst p _ rfl rfl hp) ps h
      have hend := forall_mem_setBack Q (fun p => { p with combType := CombType.OrEnd })
        (fun p hp => hst p _ rfl rfl hp) _
        (forall_mem_append_single Q _ d hor (hnew _ d hp))
      obtain ⟨b, tk2, ps2, hres, hsuf, hq⟩ := captureOrClose_frame Q hst
        (grows (setBack (fun p => { p with combType := CombType.Or }) ps).length)
        (ps.length - 1) (getToken (getToken (getToken tk).2).2).2 _ hend
      rw [hres]
      exact Or.inr ⟨b, tk2, ps2, rfl, hsuf.trans (h3.trans (h2.trans h1)), hq⟩

theorem captureBody_frame (Q : Parser → Prop)
    (hst : ∀ p q : Parser, q.name = p.name → q.parserType = p.parserType → Q p → Q q)
    (hnew : ∀ tok d, parseCaptureString tok = Except.ok d → Q d)
    (grows : Nat → Bool) (opt : Bool) (token : Token) (tk : Tokenizer) (ps : ParserList)
    (h : ∀ d ∈ ps, Q d) :
    captureBody grows opt token tk ps = Except.error Fault.emptyCapture ∨
    ∃ b tk2 ps2, captureBody grows opt token tk ps = Except.ok (b, tk2, ps2) ∧
      tk2.stream <:+ tk.stream ∧ ∀ d ∈ ps2, Q d := by
  have h1 := getToken_suffix tk
  rw [captureBody]
  cases hp : parseCaptureString token with
  | error e =>
    rw [parseCaptureString_error _ e hp]
    exact Or.inl rfl
  | ok d =>
    simp only
    have happ := forall_mem_append_single Q ps d h (hnew _ d hp)
    have hopt : ∀ x ∈ (if opt = true then
          setBack (fun p => { p with combType := CombType.Optional }) (ps ++ [d])
        else ps ++ [d]), Q x := by
      cases opt with
      | true =>
        simp only [if_true]
        exact forall_mem_setBack Q (fun p => { p with combType := CombType.Optional })
          (fun p hp => hst p _ rfl rfl hp) _ happ
      | false =>
        simp only [Bool.false_eq_true, if_false]
        exact happ
    by_cases hc : ((getToken tk).1.type != TokenType.CloseAngle) = true
    · simp only [hc, if_true]
      exact Or.inr ⟨_, _, _, rfl, h1, happ⟩
    · simp only [hc, if_false]
      by_cases hq : ((peekToken (getToken tk).2).type == TokenType.QuestionMark) = true
      · simp only [hq, if_true]
        rcases captureOr_frame Q hst hnew grows (getToken tk).2 _ hopt with
          he | ⟨b, tk2, ps2, hres, hsuf, hq2⟩
        · exact Or.inl he
        · exact Or.inr ⟨b, tk2, ps2, hres, hsuf.trans h1, hq2⟩
      · simp only [hq, if_false]
        exact Or.inr ⟨_, _, _, rfl, h1,
          forall_mem_setBack Q (fun p => { p with endToken := peekChar (getToken tk).2 })
            (fun p hp => hst p _ rfl rfl hp) _ hopt⟩

/-- A call of `parseCapture` leaves the cursor inside the buffer it was given, and a
property of directives that depends on their text and type only, and that holds of what the
capture resolver returns, holds of the whole list afterwards when it held before. -/
theorem parseCapture_frame (Q : Parser → Prop)
    (hst : ∀ p q : Parser, q.name = p.name → q.parserType = p.parserType → Q p → Q q)
    (hnew : ∀ tok d, parseCaptureString tok = Except.ok d → Q d)
    (grows : Nat → Bool) (tk : Tokenizer) (ps : ParserList) (h : ∀ d ∈ ps, Q d) :
    parseCapture grows tk ps = Except.error Fault.emptyCapture ∨
    ∃ b tk2 ps2, parseCapture grows tk ps = Except.ok (b, tk2, ps2) ∧
      tk2.stream <:+ tk.stream ∧ ∀ d ∈ ps2, Q d := by
  have h1 := getToken_suffix tk
  have h2 := getToken_suffix (getToken tk).2
  rw [parseCapture_eq]
  by_cases hq : ((getToken tk).1.type == TokenType.QuestionMark) = true
  · rw [if_pos hq]
    by_cases hl : ((getToken (getToken tk).2).1.type == TokenType.Literal) = true
    · rw [if_pos hl]
      rcases captureBody_frame Q hst hnew grows true (getToken (getToken tk).2).1
        (getToken (getToken tk).2).2 ps h with he | ⟨b, tk2, ps2, hres, hsuf, hq2⟩
      · exact Or.inl he
      · exact Or.inr ⟨b, tk2, ps2, hres, hsuf.trans (h2.trans h1), hq2⟩
    · rw [if_neg hl]
      exact Or.inr ⟨_, _, _, rfl, h2.trans h1, h⟩
  · rw [if_neg hq]
    by_cases hl : ((getToken tk).1.type == TokenType.Literal) = true
    · rw [if_pos hl]
      rcases captureBody_frame Q hst hnew grows false (getToken tk).1 (getToken tk).2 ps h
        with he | ⟨b, tk2, ps2, hres, hsuf, hq2⟩
      · exact Or.inl he
      · exact Or.inr ⟨b, tk2, ps2, hres, hsuf.trans h1, hq2⟩
    · rw [if_neg hl]
      exact Or.inr ⟨_, _, _, rfl, h1, h⟩

/-- The text of a literal token holds no NUL. -/
theorem getToken_literal_no_nul (tk : Tokenizer)
    (h : (getToken tk).1.type = TokenType.Literal) : NUL ∉ (getToken tk).1.text := by
  obtain ⟨h1, h2, h3, h4⟩ := getToken_type_literal tk.stream h
  have hrun := literalRun_no_angle tk.stream.tail false (fun e => by cases e)
  have htext : (getToken tk).1.text =
      headByte tk.stream :: tk.stream.tail.take (literalRun false tk.stream.tail) := by
    simp only [getToken, if_neg h1, if_neg h2, if_neg h3, if_neg h4]
  rw [htext]
  intro hm
  rcases List.mem_cons.mp hm with e | e
  · exact h4 e.symm
  · exact (hrun _ e).2.2 rfl

/-- A NUL-free, non-empty run of bytes of the buffer `expr ++ [NUL]` is a run of bytes of
`expr`. -/
theorem infix_of_infix_buffer (text expr : List Char) (h : text <:+: expr ++ [NUL])
    (hne : text ≠ []) (h0 : NUL ∉ text) : text <:+: expr := by
  obtain ⟨s, t, hst⟩ := h
  rcases List.eq_nil_or_concat t with rfl | ⟨t2, c, rfl⟩
  · exfalso
    rw [List.append_nil] at hst
    have hlast : (s ++ text).getLast? = some NUL := by
      rw [hst]
      simp
    rw [List.getLast?_append_of_ne_nil _ hne] at hlast
    exact h0 (List.mem_of_getLast?_eq_some hlast)
  · have hst2 : (s ++ text ++ t2) ++ [c] = expr ++ [NUL] := by
      rw [← hst]
      simp
    exact ⟨s, t2, (List.append_inj' hst2 rfl).1⟩

/-- The driver loop keeps the invariant of C25, the cursor being inside the buffer. -/
theorem driverLoop_literals (grows : Nat → Bool) (expr : List Char) :
    ∀ (n : Nat) (tk : Tokenizer) (ps : ParserList) (r : DriverResult),
      tk.stream <:+ expr → LiteralsWithin expr ps →
      driverLoop grows n tk ps = Except.ok r → LiteralsWithin expr r.parsers := by
  have hnil : LiteralsWithin expr [] := fun d hd => absurd hd (List.not_mem_nil d)
  intro n
  induction n with
  | zero => intro tk ps r _ _ h; simp [driverLoop] at h
  | succ k ih =>
    intro tk ps r hsuf hinv h
    have hnext := (getToken_suffix tk).trans hsuf
    cases hty : (getToken tk).1.type
    case OpenAngle =>
      rcases parseCapture_frame
        (fun d => d.parserType = ParserType.Literal →
          d.name ≠ [] ∧ '<' ∉ d.name ∧ '>' ∉ d.name ∧ NUL ∉ d.name ∧ d.name <:+: expr)
        (fun p q hn ht hp hl => by
          rw [hn]
          exact hp (ht ▸ hl))
        (fun tok d hd hl => absurd hl (parseCaptureString_not_literal tok d hd))
        grows (getToken tk).2 ps hinv with he | ⟨b, tk2, ps2, hres, hsuf2, hq⟩
      · rw [driverLoop] at h
        simp only [hty, he] at h
        cases h
      · rcases driverLoop_capture_result grows k tk ps r b tk2 ps2 hty hres h with
          hn | ⟨-, -, hrun⟩
        · rw [hn]
          exact hnil
        · exact ih _ _ _ (hsuf2.trans hnext) hq hrun
    all_goals rw [driverLoop] at h
    case Literal =>
      simp only [hty] at h
      refine ih _ _ _ hnext ?_ h
      intro d hd _
      rcases List.mem_append.mp hd with hd | hd
      · exact hinv d hd (by assumption)
      · rw [List.mem_singleton.mp hd]
        obtain ⟨hne, hpre⟩ := getToken_literal_start tk hty
        obtain ⟨ho, hc⟩ := getToken_literal_no_angle tk hty
        exact ⟨hne, ho, hc, getToken_literal_no_nul tk hty,
          hpre.isInfix.trans hsuf.isInfix⟩
    case EndOfExpr =>
      simp only [hty] at h
      cases h
      exact hinv
    all_goals
      simp only [hty] at h
      exact ih _ _ _ hnext hinv h

/-- C25: every directive of type `Literal` in the list that `parseLogQlExpr` returns has a
text that is not empty, holds neither `<` nor `>` (a backslash before it makes no
difference), and is a run of consecutive bytes of the expression. -/
theorem C25_literal_directives (grows : Nat → Bool) (expr : List Char) (ps : ParserList)
    (h : parseLogQlExpr grows expr = Except.ok ps) :
    ∀ d ∈ ps, d.parserType = ParserType.Literal →
      d.name ≠ [] ∧ '<' ∉ d.name ∧ '>' ∉ d.name ∧ d.name <:+: expr := by
  rw [parseLogQlExpr, runLogQlExpr] at h
  cases hr : driverLoop grows (expr.length + 2) ⟨expr ++ [NUL]⟩ [] with
  | error e =>
    rw [hr] at h
    cases h
  | ok r =>
    rw [hr] at h
    have hps : r.parsers = ps := Except.ok.inj h
    rw [← hps]
    intro d hd hl
    obtain ⟨hne, ho, hc, h0, hin⟩ := driverLoop_literals grows (expr ++ [NUL]) _ _ _ r
      (List.suffix_refl _) (fun d hd => absurd hd (List.not_mem_nil d)) hr d hd hl
    exact ⟨hne, ho, hc, infix_of_infix_buffer d.name expr hin hne h0⟩

theorem C25_literal_directives_witness :
    parseLogQlExpr vectorGrows ['a', backslash, '<', 'b', '>', 'c'] =
      Except.ok [⟨[], ['a', backslash], ParserType.Literal, CombType.Null, NUL⟩,
        ⟨[], ['b'], ParserType.Any, CombType.Null, 'c'⟩,
        ⟨[], ['c'], ParserType.Literal, CombType.Null, NUL⟩] ∧
    ∀ d ∈ [(⟨[], ['a', backslash], ParserType.Literal, CombType.Null, NUL⟩ : Parser),
        ⟨[], ['b'], ParserType.Any, CombType.Null, 'c'⟩,
        ⟨[], ['c'], ParserType.Literal, CombType.Null, NUL⟩],
      d.parserType = ParserType.Literal →
        d.name ≠ [] ∧ '<' ∉ d.name ∧ '>' ∉ d.name ∧
          d.name <:+: ['a', backslash, '<', 'b', '>', 'c'] :=
  ⟨rfl, C25_literal_directives vectorGrows _ _ rfl⟩

/-! ## A question mark behind a capture -/

/-- When the scan of a literal run over `a ++ '>' :: r`, `a` without `>`, stops at a `>`, it
has stopped at the one behind `a`. -/
theorem literalRun_to_close (r : List Char) :
    ∀ (a : List Char) (b : Bool), '>' ∉ a →
      (b = true → headByte (a ++ '>' :: r) = backslash) →
      headByte ((a ++ '>' :: r).drop (literalRun b (a ++ '>' :: r))) = '>' →
      (a ++ '>' :: r).drop (literalRun b (a ++ '>' :: r)) = '>' :: r := by
  intro a
  induction a with
  | nil =>
    intro b _ hb _
    cases b with
    | true => exact absurd (show ('>' : Char) = backslash from hb rfl) (by decide)
    | false => simp [literalRun]
  | cons c t ih =>
    intro b hc hb h
    rw [List.cons_append] at h ⊢
    rw [literalRun] at h ⊢
    by_cases hcond : (c != NUL && (b || (c != '<' && c != '>'))) = true
    · simp only [hcond, if_true, List.drop_succ_cons] at h ⊢
      exact ih _ (fun hm => hc (List.mem_cons_of_mem _ hm)) (fun hb2 => by simpa using hb2) h
    · simp only [hcond, if_false, List.drop_zero, headByte] at h
      exact absurd (h ▸ List.mem_cons_self c t) hc

/-- The token and the cursor when the byte under the cursor starts a literal run. -/
theorem getToken_literal_run (c : Char) (rest : List Char)
    (h : (getToken ⟨c :: rest⟩).1.type = TokenType.Literal) :
    getToken ⟨c :: rest⟩ =
      (⟨c :: rest.take (literalRun false rest), TokenType.Literal⟩,
        ⟨rest.drop (literalRun false rest)⟩) := by
  obtain ⟨h1, h2, h3, h4⟩ := getToken_type_literal (c :: rest) h
  simp only [headByte] at h1 h2 h3 h4
  simp only [getToken, headByte, List.tail_cons, if_neg h1, if_neg h2, if_neg h3, if_neg h4]

/-- The body of `parseCapture` fails when the capture is closed by `>?` and what follows
does not start with `<`: the `requireToken(OpenAngle)` of line 155 fails (or, when a NUL
stopped the literal run, the `requireToken(CloseAngle)` of line 140). -/
theorem captureBody_question_fails (grows : Nat → Bool) (opt : Bool) (token : Token)
    (x s : List Char) (ps : ParserList) (ht : token.text ≠ []) (hx : '>' ∉ x)
    (hs : headByte s ≠ '<') :
    ∃ tk2 ps2, captureBody grows opt token
      ⟨(x ++ '>' :: '?' :: s).drop (literalRun false (x ++ '>' :: '?' :: s))⟩ ps
        = Except.ok (false, tk2, ps2) := by
  obtain ⟨d, hd⟩ := parseCaptureString_ok token ht
  rw [captureBody, hd]
  simp only
  by_cases hc : ((getToken ⟨(x ++ '>' :: '?' :: s).drop
      (literalRun false (x ++ '>' :: '?' :: s))⟩).1.type != TokenType.CloseAngle) = true
  · simp only [hc, if_true]
    exact ⟨_, _, rfl⟩
  · have htype : (getToken ⟨(x ++ '>' :: '?' :: s).drop
        (literalRun false (x ++ '>' :: '?' :: s))⟩).1.type = TokenType.CloseAngle := by
      simpa using hc
    have hstream := literalRun_to_close ('?' :: s) x false hx (fun e => by cases e)
      ((getToken_type_close _).mp htype)
    rw [hstream]
    have hopen : ((getToken ⟨s⟩).1.type != TokenType.OpenAngle) = true := by
      rw [getToken_type, if_neg hs]
      split_ifs <;> decide
    have hpeek : ((peekToken ⟨'?' :: s⟩).type == TokenType.QuestionMark) = true := by
      rw [peekToken_question]
      exact decide_eq_true rfl
    have hclose : ¬ ((TokenType.CloseAngle != TokenType.CloseAngle) = true) := by decide
    simp only [getToken_close, hclose, if_false, hpeek, if_true]
    rw [captureOr]
    simp only [getToken_question, hopen, if_true]
    exact ⟨_, _, rfl⟩

/-- The capture parser returns false on `a>?s` when `a` holds no `>` and `s` does not start
with `<`. -/
theorem parseCapture_question_fails (grows : Nat → Bool) (a s : List Char) (ps : ParserList)
    (ha : '>' ∉ a) (hs : headByte s ≠ '<') :
    ∃ tk2 ps2, parseCapture grows ⟨a ++ '>' :: '?' :: s⟩ ps = Except.ok (false, tk2, ps2) := by
  rw [parseCapture_eq]
  cases a with
  | nil => exact ⟨_, _, rfl⟩
  | cons c a1 =>
    have ha1 : '>' ∉ a1 := fun hm => ha (List.mem_cons_of_mem _ hm)
    rw [List.cons_append]
    by_cases hq : ((getToken ⟨c :: (a1 ++ '>' :: '?' :: s)⟩).1.type
        == TokenType.QuestionMark) = true
    · rw [if_pos hq]
      have hc : c = '?' :=
        (getToken_type_question (c :: (a1 ++ '>' :: '?' :: s))).mp (by simpa using hq)
      subst hc
      simp only [getToken_question]
      by_cases hl : ((getToken ⟨a1 ++ '>' :: '?' :: s⟩).1.type == TokenType.Literal) = true
      · rw [if_pos hl]
        cases a1 with
        | nil =>
          rw [List.nil_append, getToken_close] at hl
          simp at hl
        | cons c2 a2 =>
          rw [List.cons_append] at hl ⊢
          rw [getToken_literal_run c2 _ (by simpa using hl)]
          exact captureBody_question_fails grows true _ a2 s ps (List.cons_ne_nil _ _)
            (fun hm => ha1 (List.mem_cons_of_mem _ hm)) hs
      · rw [if_neg hl]
        exact ⟨_, _, rfl⟩
    · rw [if_neg hq]
      by_cases hl : ((getToken ⟨c :: (a1 ++ '>' :: '?' :: s)⟩).1.type
          == TokenType.Literal) = true
      · rw [if_pos hl, getToken_literal_run c _ (by simpa using hl)]
        exact captureBody_question_fails grows false _ a1 s ps (List.cons_ne_nil _ _) ha1 hs
      · rw [if_neg hl]
        exact ⟨_, _, rfl⟩

/-- C22, the runs at the failing inputs `<a>?b<c` and `<a>?`.  On both the capture parser
returns false at the `requireToken(OpenAngle)` of line 155, as the claim expects.  On
`<a>?b<c` that call has read the literal `b` and left the cursor on `<c`: the peek of the
driver sees `<`, the back-to-back branch is taken and its scan finds no `>`.  On `<a>?` the
call has read the terminator and the peek reads behind it.  On `<a>?b` the cursor is left on
the terminator and the empty list is returned. -/
theorem C22_question_after_capture_faults :
    parseCapture vectorGrows ⟨"a>?b<c".toList ++ [NUL]⟩ [] =
      Except.ok (false, ⟨"<c".toList ++ [NUL]⟩,
        [⟨[], "a".toList, ParserType.Any, CombType.Null, NUL⟩]) ∧
    parseLogQlExpr vectorGrows "<a>?b<c".toList = Except.error Fault.scanOverrun ∧
    parseCapture vectorGrows ⟨"a>?".toList ++ [NUL]⟩ [] =
      Except.ok (false, ⟨[]⟩, [⟨[], "a".toList, ParserType.Any, CombType.Null, NUL⟩]) ∧
    parseLogQlExpr vectorGrows "<a>?".toList = Except.error Fault.readPastEnd ∧
    parseLogQlExpr vectorGrows "<a>?b".toList = Except.ok [] :=
  ⟨rfl, rfl, rfl, rfl, rfl⟩

/-! ## The token given to the capture resolver, and the scan of the diagnostic -/

/-- The capture resolver reads `captureParams[0]` of an empty vector exactly when the token
it is given has no text. -/
theorem parseCaptureString_fault_iff (token : Token) :
    parseCaptureString token = Except.error Fault.emptyCapture ↔ token.text = [] := by
  constructor
  · intro h
    by_contra hne
    obtain ⟨d, hd⟩ := parseCaptureString_ok token hne
    rw [hd] at h
    cases h
  · intro h
    cases token with
    | mk text type =>
      simp only at h
      subst h
      rfl

/-- The first call of the capture resolver (line 138) is guarded by the test for a literal
token: whenever `parseCapture` reaches `captureBody`, the token has text. -/
theorem parseCapture_first_call (grows : Nat → Bool) (tk : Tokenizer) (ps : ParserList) :
    (∃ tk2, parseCapture grows tk ps = Except.ok (false, tk2, ps)) ∨
    ∃ opt tk1, (getToken tk1).1.text ≠ [] ∧
      parseCapture grows tk ps = captureBody grows opt (getToken tk1).1 (getToken tk1).2 ps := by
  rcases parseCapture_cases grows tk ps with h | ⟨opt, tk1, -, hl, h⟩
  · exact Or.inl h
  · exact Or.inr ⟨opt, tk1, (getToken_literal_start tk1 hl).1, h⟩

/-- C23, the run at the failing input `<a>?<`: behind `<a>` the cursor is at `?<` and the
terminator, the token that line 163 hands to the capture resolver is the `EndOfExpr` token,
of length 0, the split of its text is the empty list, and the resolver reads the first
element of it. -/
theorem C23_resolver_given_empty_token :
    parseCapture vectorGrows ⟨"a>".toList ++ [NUL]⟩ [] =
      Except.ok (true, ⟨[NUL]⟩, [⟨[], "a".toList, ParserType.Any, CombType.Null, NUL⟩]) ∧
    (getToken (getToken (getToken ⟨"?<".toList ++ [NUL]⟩).2).2).1 = ⟨[], TokenType.EndOfExpr⟩ ∧
    (getToken (getToken (getToken ⟨"?<".toList ++ [NUL]⟩).2).2).1.text.length = 0 ∧
    splitSlashSeparatedField
      (getToken (getToken (getToken ⟨"?<".toList ++ [NUL]⟩).2).2).1.text = [] ∧
    parseCapture vectorGrows ⟨"a>?<".toList ++ [NUL]⟩ [] = Except.error Fault.emptyCapture ∧
    runLogQlExpr vectorGrows "<a>?<".toList = Except.error Fault.emptyCapture :=
  ⟨rfl, rfl, rfl, rfl, rfl, rfl⟩

theorem scanClose_eq_none_iff : ∀ s : List Char, scanClose s = none ↔ '>' ∉ s := by
  intro s
  induction s with
  | nil => simp [scanClose]
  | cons c t ih =>
    rw [scanClose]
    by_cases hc : c = '>'
    · simp [hc]
    · have hc2 : ¬ '>' = c := fun e => hc e.symm
      simp [hc, hc2, ih]

/-- The scan for `>` over `pre ++ '>' :: post`, `pre` without `>`, ends behind that `>`. -/
theorem scanClose_append (post : List Char) :
    ∀ pre : List Char, '>' ∉ pre → scanClose (pre ++ '>' :: post) = some (pre.length + 1) := by
  intro pre
  induction pre with
  | nil => intro _; simp [scanClose]
  | cons c t ih =>
    intro h
    have hc : c ≠ '>' := fun e => h (e ▸ List.mem_cons_self c t)
    rw [List.cons_append, scanClose, if_neg hc,
      ih (fun hm => h (List.mem_cons_of_mem _ hm))]
    rfl

/-- C24, the run at the failing input `<a><b`: the capture `<a>` is parsed, the peek sees
`<`, the bytes from the cursor to the end of the buffer hold no `>`, and the scan
`while (*end++ != '>')` leaves the buffer. -/
theorem C24_span_scan_overrun :
    parseCapture vectorGrows ⟨"a><b".toList ++ [NUL]⟩ [] =
      Except.ok (true, ⟨"<b".toList ++ [NUL]⟩,
        [⟨[], "a".toList, ParserType.Any, CombType.Null, '<'⟩]) ∧
    (peekToken ⟨"<b".toList ++ [NUL]⟩).type = TokenType.OpenAngle ∧
    '>' ∉ "<b".toList ++ [NUL] ∧
    scanClose ("<b".toList ++ [NUL]) = none ∧
    runLogQlExpr vectorGrows "<a><b".toList = Except.error Fault.scanOverrun := by
  refine ⟨rfl, rfl, by decide, rfl, rfl⟩

/-! ## When the diagnostic is written -/

/-- The text of the diagnostic: from the `<` that opened the capture to the first `>` at or
after the cursor. -/
theorem backToBackDiagnostic_span (mid pre post : List Char)
    (hmid : NUL ∉ mid) (hpre : NUL ∉ pre) (hclose : '>' ∉ pre) :
    backToBackDiagnostic ('<' :: (mid ++ (pre ++ '>' :: post))) (pre ++ '>' :: post) =
      Except.ok (Diagnostic.backToBack ('<' :: (mid ++ (pre ++ ['>'])))) := by
  have hsplit : '<' :: (mid ++ (pre ++ '>' :: post)) = ('<' :: (mid ++ (pre ++ ['>']))) ++ post := by
    simp
  have hwidth : ('<' :: (mid ++ (pre ++ '>' :: post))).length - (pre ++ '>' :: post).length
      + (pre.length + 1) = ('<' :: (mid ++ (pre ++ ['>']))).length := by
    simp only [List.length_cons, List.length_append, List.length_nil]
    omega
  rw [backToBackDiagnostic, scanClose_append post pre hclose]
  simp only
  rw [hwidth, printedSpan, hsplit, List.take_left' rfl, List.takeWhile_eq_self_iff.mpr]
  intro x hx
  have hne : x ≠ NUL := by
    intro e
    rw [e] at hx
    simp only [List.mem_cons, List.mem_append, List.mem_singleton, List.mem_nil_iff,
      or_false] at hx
    rcases hx with hx | hx | hx | hx
    · exact absurd hx (by decide)
    · exact hmid hx
    · exact hpre hx
    · exact absurd hx (by decide)
  simpa using hne

/-- The back-to-back branch overruns exactly when no `>` stands at or after the cursor. -/
theorem backToBackDiagnostic_overrun_iff (prev cur : List Char) :
    backToBackDiagnostic prev cur = Except.error Fault.scanOverrun ↔ '>' ∉ cur := by
  rw [backToBackDiagnostic, ← scanClose_eq_none_iff]
  cases scanClose cur <;> simp

/-- C21, the run at the failing input `<><b>`: the capture parser reports a grammar error
(the name literal is missing, no capture was parsed) and leaves the cursor before `<b>`; the
peek of line 207 is made all the same, sees `<`, and the driver writes the back-to-back
diagnostic, with the span `<><b>`. -/
theorem C21_diagnostic_after_failed_capture :
    parseCapture vectorGrows ⟨"><b>".toList ++ [NUL]⟩ [] =
      Except.ok (false, ⟨"<b>".toList ++ [NUL]⟩, []) ∧
    runLogQlExpr vectorGrows "<><b>".toList =
      Except.ok ⟨[], DriverState.Failed, Diagnostic.backToBack "<><b>".toList⟩ ∧
    runLogQlExpr vectorGrows "<a><b>".toList =
      Except.ok ⟨[], DriverState.Failed, Diagnostic.backToBack "<a><b>".toList⟩ :=
  ⟨rfl, rfl, rfl⟩

/-! ## The cursor stays inside the buffer -/

theorem Terminated.ne_nil {s : List Char} (h : Terminated s) : s ≠ [] := by
  intro e
  rw [e] at h
  exact absurd h (by simp [Terminated])

theorem Terminated.of_suffix {s t : List Char} (h : Terminated s) (hs : t <:+ s)
    (ht : t ≠ []) : Terminated t := by
  obtain ⟨p, rfl⟩ := hs
  rw [Terminated, List.getLast?_append_of_ne_nil _ ht] at h
  exact h

/-- The buffer `expr.c_str()` is terminated. -/
theorem terminated_buffer (expr : List Char) : Terminated (expr ++ [NUL]) := by
  simp [Terminated]

/-- The token at the end of the expression has no text. -/
theorem getToken_end_text (tk : Tokenizer)
    (h : (getToken tk).1.type = TokenType.EndOfExpr) : (getToken tk).1.text = [] := by
  rw [getToken] at h ⊢
  simp only at h ⊢
  split_ifs at h ⊢
  rfl

/-- Every token other than `EndOfExpr` leaves the cursor inside the buffer: only the read of
the terminator moves it behind the buffer. -/
theorem getToken_terminated (tk : Tokenizer) (ht : Terminated tk.stream)
    (hne : (getToken tk).1.type ≠ TokenType.EndOfExpr) :
    Terminated (getToken tk).2.stream := by
  refine ht.of_suffix (getToken_suffix tk) ?_
  obtain ⟨s⟩ := tk
  cases s with
  | nil => exact absurd rfl ht.ne_nil
  | cons c r =>
    have hlast : r = [] → c = NUL := by
      intro hr
      rw [hr] at ht
      simpa [Terminated] using ht
    have hr0 : r ≠ [] → NUL ∈ r := by
      intro hr
      have h2 : r.getLast? = some NUL := by
        have := ht
        rw [Terminated] at this
        obtain ⟨a, t, rfl⟩ := List.exists_cons_of_ne_nil hr
        rwa [List.getLast?_cons_cons] at this
      exact List.mem_of_getLast?_eq_some h2
    by_cases h1 : c = '<'
    · subst h1
      rw [getToken_open]
      exact fun hr => absurd (hlast hr) (by decide)
    by_cases h2 : c = '>'
    · subst h2
      rw [getToken_close]
      exact fun hr => absurd (hlast hr) (by decide)
    by_cases h3 : c = '?'
    · subst h3
      rw [getToken_question]
      exact fun hr => absurd (hlast hr) (by decide)
    by_cases h4 : c = NUL
    · subst h4
      exact absurd rfl hne
    have hget : getToken ⟨c :: r⟩ =
        (⟨c :: r.take (literalRun false r), TokenType.Literal⟩,
          ⟨r.drop (literalRun false r)⟩) := by
      simp only [getToken, headByte, List.tail_cons, if_neg h1, if_neg h2, if_neg h3,
        if_neg h4]
    rw [hget]
    intro hdrop
    simp only at hdrop
    have hr : r ≠ [] := fun e => h4 (hlast e)
    have htake : r.take (literalRun false r) = r := by
      have := List.take_append_drop (literalRun false r) r
      rw [hdrop, List.append_nil] at this
      exact this
    have hmem := hr0 hr
    rw [← htake] at hmem
    exact (literalRun_no_angle r false (fun e => by cases e) NUL hmem).2.2 rfl

theorem captureOrClose_terminated (pd : Bool) (pi : Nat) (tk : Tokenizer) (ps : ParserList)
    (tk2 : Tokenizer) (ps2 : ParserList) (ht : Terminated tk.stream)
    (h : captureOrClose pd pi tk ps = Except.ok (true, tk2, ps2)) :
    Terminated tk2.stream := by
  rw [captureOrClose] at h
  by_cases hc : ((getToken tk).1.type != TokenType.CloseAngle) = true
  · simp only [hc, if_true] at h
    exact absurd (Prod.mk.inj (Except.ok.inj h)).1 (by decide)
  · simp only [hc, Bool.false_eq_true, if_false] at h
    have hty : (getToken tk).1.type = TokenType.CloseAngle := by simpa using hc
    have htk := (Prod.mk.inj (Prod.mk.inj (Except.ok.inj h)).2).1
    rw [← htk]
    exact getToken_terminated tk ht (by rw [hty]; decide)

theorem captureOr_terminated (grows : Nat → Bool) (tk : Tokenizer) (ps : ParserList)
    (tk2 : Tokenizer) (ps2 : ParserList) (ht : Terminated tk.stream)
    (hq : (getToken tk).1.type = TokenType.QuestionMark)
    (h : captureOr grows tk ps = Except.ok (true, tk2, ps2)) :
    Terminated tk2.stream := by
  have ht1 := getToken_terminated tk ht (by rw [hq]; decide)
  rw [captureOr] at h
  by_cases ho : ((getToken (getToken tk).2).1.type != TokenType.OpenAngle) = true
  · simp only [ho, if_true] at h
    exact absurd (Prod.mk.inj (Except.ok.inj h)).1 (by decide)
  · simp only [ho, Bool.false_eq_true, if_false] at h
    have hty : (getToken (getToken tk).2).1.type = TokenType.OpenAngle := by simpa using ho
    have ht2 := getToken_terminated (getToken tk).2 ht1 (by rw [hty]; decide)
    cases hp : parseCaptureString (getToken (getToken (getToken tk).2).2).1 with
    | error e =>
      rw [hp] at h
      cases h
    | ok e =>
      rw [hp] at h
      simp only at h
      have hne : (getToken (getToken (getToken tk).2).2).1.type ≠ TokenType.EndOfExpr := by
        intro hend
        have htext := getToken_end_text _ hend
        rw [(parseCaptureString_fault_iff _).mpr htext] at hp
        cases hp
      exact captureOrClose_terminated _ _ _ _ tk2 ps2
        (getToken_terminated _ ht2 hne) h

theorem captureBody_terminated (grows : Nat → Bool) (opt : Bool) (token : Token)
    (tk : Tokenizer) (ps : ParserList) (tk2 : Tokenizer) (ps2 : ParserList)
    (ht : Terminated tk.stream)
    (h : captureBody grows opt token tk ps = Except.ok (true, tk2, ps2)) :
    Terminated tk2.stream := by
  rw [captureBody] at h
  cases hp : parseCaptureString token with
  | error e =>
    rw [hp] at h
    cases h
  | ok d =>
    rw [hp] at h
    simp only at h
    by_cases hc : ((getToken tk).1.type != TokenType.CloseAngle) = true
    · simp only [hc, if_true] at h
      exact absurd (Prod.mk.inj (Except.ok.inj h)).1 (by decide)
    · simp only [hc, Bool.false_eq_true, if_false] at h
      have hty : (getToken tk).1.type = TokenType.CloseAngle := by simpa using hc
      have ht1 := getToken_terminated tk ht (by rw [hty]; decide)
      by_cases hq : ((peekToken (getToken tk).2).type == TokenType.QuestionMark) = true
      · simp only [hq, if_true] at h
        exact captureOr_terminated grows (getToken tk).2 _ tk2 ps2 ht1 (by simpa using hq) h
      · simp only [hq, Bool.false_eq_true, if_false] at h
        have htk := (Prod.mk.inj (Prod.mk.inj (Except.ok.inj h)).2).1
        rw [← htk]
        exact ht1

/-- A successful call of `parseCapture` leaves the cursor inside the buffer: the read behind
the terminator that the driver guards against (`Fault.readPastEnd`) can only follow a call
that returned false. -/
theorem parseCapture_terminated (grows : Nat → Bool) (tk : Tokenizer) (ps : ParserList)
    (tk2 : Tokenizer) (ps2 : ParserList) (ht : Terminated tk.stream)
    (h : parseCapture grows tk ps = Except.ok (true, tk2, ps2)) :
    Terminated tk2.stream := by
  rw [parseCapture_eq] at h
  by_cases hq : ((getToken tk).1.type == TokenType.QuestionMark) = true
  · rw [if_pos hq] at h
    have hty : (getToken tk).1.type = TokenType.QuestionMark := by simpa using hq
    have ht1 := getToken_terminated tk ht (by rw [hty]; decide)
    by_cases hl : ((getToken (getToken tk).2).1.type == TokenType.Literal) = true
    · rw [if_pos hl] at h
      have hty2 : (getToken (getToken tk).2).1.type = TokenType.Literal := by simpa using hl
      exact captureBody_terminated grows true _ _ ps tk2 ps2
        (getToken_terminated _ ht1 (by rw [hty2]; decide)) h
    · rw [if_neg hl] at h
      exact absurd (Prod.mk.inj (Except.ok.inj h)).1 (by decide)
  · rw [if_neg hq] at h
    by_cases hl : ((getToken tk).1.type == TokenType.Literal) = true
    · rw [if_pos hl] at h
      have hty2 : (getToken tk).1.type = TokenType.Literal := by simpa using hl
      exact captureBody_terminated grows false _ _ ps tk2 ps2
        (getToken_terminated _ ht (by rw [hty2]; decide)) h
    · rw [if_neg hl] at h
      exact absurd (Prod.mk.inj (Except.ok.inj h)).1 (by decide)

/-- The reads of `parseCapture` stay inside the buffer.  Entered with the cursor inside the
buffer, each of its reads is made behind a token that was tested to be a `?`, a literal, a
`>` or a `<`, or that the capture resolver accepted, so never behind the terminator: the
cursors listed are those at which the name, the `>`, the `?` (peeked and read), the `<`, the
second name, the second `>` and the terminator byte are read. -/
theorem parseCapture_reads_inside (tk : Tokenizer) (ht : Terminated tk.stream)
    (name : Token × Tokenizer)
    (hname : name = if (getToken tk).1.type = TokenType.QuestionMark
      then getToken (getToken tk).2 else getToken tk)
    (hlit : name.1.type = TokenType.Literal) :
    ((getToken tk).1.type = TokenType.QuestionMark → Terminated (getToken tk).2.stream) ∧
    Terminated name.2.stream ∧
    ((getToken name.2).1.type = TokenType.CloseAngle →
      Terminated (getToken name.2).2.stream ∧
      ((peekToken (getToken name.2).2).type = TokenType.QuestionMark →
        Terminated (getToken (getToken name.2).2).2.stream ∧
        ((getToken (getToken (getToken name.2).2).2).1.type = TokenType.OpenAngle →
          Terminated (getToken (getToken (getToken name.2).2).2).2.stream ∧
          ∀ e, parseCaptureString
              (getToken (getToken (getToken (getToken name.2).2).2).2).1 = Except.ok e →
            Terminated (getToken (getToken (getToken (getToken name.2).2).2).2).2.stream ∧
            ((getToken (getToken (getToken (getToken (getToken name.2).2).2).2).2).1.type
                = TokenType.CloseAngle →
              Terminated
                (getToken (getToken (getToken (getToken (getToken
                  name.2).2).2).2).2).2.stream)))) := by
  have hq : (getToken tk).1.type = TokenType.QuestionMark → Terminated (getToken tk).2.stream :=
    fun h => getToken_terminated tk ht (by rw [h]; decide)
  have hn : Terminated name.2.stream := by
    by_cases h : (getToken tk).1.type = TokenType.QuestionMark
    · rw [if_pos h] at hname
      subst hname
      exact getToken_terminated _ (hq h) (by rw [hlit]; decide)
    · rw [if_neg h] at hname
      subst hname
      exact getToken_terminated _ ht (by rw [hlit]; decide)
  refine ⟨hq, hn, fun hc => ?_⟩
  have h1 := getToken_terminated name.2 hn (by rw [hc]; decide)
  refine ⟨h1, fun hp => ?_⟩
  have h2 := getToken_terminated (getToken name.2).2 h1 (by
    have : (getToken (getToken name.2).2).1.type = TokenType.QuestionMark := hp
    rw [this]
    decide)
  refine ⟨h2, fun ho => ?_⟩
  have h3 := getToken_terminated _ h2 (by rw [ho]; decide)
  refine ⟨h3, fun e he => ?_⟩
  have h4 := getToken_terminated _ h3 (by
    intro hend
    rw [(parseCaptureString_fault_iff _).mpr (getToken_end_text _ hend)] at he
    cases he)
  exact ⟨h4, fun hc2 => getToken_terminated _ h4 (by rw [hc2]; decide)⟩

/-! ## The runs that leave the buffer -/

/-- A capture with a literal name that the expression ends in: the name is resolved and
appended, the `requireToken(CloseAngle)` of line 140 reads the terminator, and the capture
parser returns false with the cursor behind the buffer. -/
theorem parseCapture_unterminated (grows : Nat → Bool) (c : Char) (t : List Char)
    (ps : ParserList)
    (hc1 : c ≠ '<') (hc2 : c ≠ '>') (hc3 : c ≠ '?') (hc0 : c ≠ NUL)
    (h1 : '<' ∉ t) (h2 : '>' ∉ t) (h0 : NUL ∉ t) :
    parseCapture grows ⟨c :: (t ++ [NUL])⟩ ps =
      match parseCaptureString ⟨c :: t, TokenType.Literal⟩ with
      | Except.error e => Except.error e
      | Except.ok d => Except.ok (false, ⟨[]⟩, ps ++ [d]) := by
  have hlit := getToken_literal c t [NUL] hc1 hc2 hc3 hc0 h1 h2 h0 (Or.inr (Or.inr rfl))
  have hq : (TokenType.Literal == TokenType.QuestionMark) = false := rfl
  have hl : (TokenType.Literal == TokenType.Literal) = true := rfl
  rw [parseCapture_eq]
  simp only [hlit, hq, hl, Bool.false_eq_true, if_false, if_true]
  rw [captureBody]
  cases parseCaptureString ⟨c :: t, TokenType.Literal⟩ with
  | error e => rfl
  | ok d => rfl

/-- Every unterminated capture with a literal name makes the driver read behind the
terminator: for plain text `p` (no `<`, `>`, NUL) and a non-empty name `t` without `<`, `>`
and NUL that does not start with `?`, the run on `p<t` ends in the fault of line 207. -/
theorem runLogQlExpr_unterminated (grows : Nat → Bool) (p t : List Char)
    (hp1 : '<' ∉ p) (hp2 : '>' ∉ p) (hp0 : NUL ∉ p)
    (ht : t ≠ []) (ht1 : '<' ∉ t) (ht2 : '>' ∉ t) (ht0 : NUL ∉ t)
    (htq : t.head? ≠ some '?') :
    runLogQlExpr grows (p ++ '<' :: t) = Except.error Fault.readPastEnd := by
  obtain ⟨c, t2, rfl⟩ := List.exists_cons_of_ne_nil ht
  simp only [List.mem_cons, not_or] at ht1 ht2 ht0
  have hbuf : (p ++ '<' :: c :: t2) ++ [NUL] = p ++ '<' :: c :: (t2 ++ [NUL]) := by simp
  obtain ⟨ps2, m, hm, heq⟩ := driverLoop_plain grows ('<' :: c :: (t2 ++ [NUL])) (Or.inl rfl) p
    ((p ++ '<' :: c :: t2).length + 2) [] hp1 hp2 hp0
  simp only [List.length_append, List.length_cons] at hm
  obtain ⟨k, rfl⟩ : ∃ k, m = k + 1 := ⟨m - 1, by omega⟩
  obtain ⟨d, hd⟩ := parseCaptureString_ok ⟨c :: t2, TokenType.Literal⟩ (List.cons_ne_nil _ _)
  have hpc := parseCapture_unterminated grows c t2 ps2 (fun e => ht1.1 e.symm)
    (fun e => ht2.1 e.symm) (by simpa using htq) (fun e => ht0.1 e.symm) ht1.2 ht2.2 ht0.2
  rw [hd] at hpc
  simp only at hpc
  rw [runLogQlExpr, hbuf, heq,
    driverLoop_after_capture grows k ⟨'<' :: c :: (t2 ++ [NUL])⟩ ps2 false ⟨[]⟩ _ rfl hpc,
    if_pos rfl]

/-- Back-to-back captures behind plain text: for plain text `p` (no `<`, `>`, NUL), a
non-empty name `a` without `<`, `>` and NUL that does not start with `?`, and any `s`, the
run on `p<a><s` takes the back-to-back branch; it returns the empty list when `s` holds a
`>`, and its scan leaves the buffer when `s` holds none. -/
theorem parseLogQlExpr_back_to_back (grows : Nat → Bool) (p a s : List Char)
    (hp1 : '<' ∉ p) (hp2 : '>' ∉ p) (hp0 : NUL ∉ p)
    (ha : a ≠ []) (ha1 : '<' ∉ a) (ha2 : '>' ∉ a) (ha0 : NUL ∉ a)
    (haq : a.head? ≠ some '?') :
    ('>' ∈ s → parseLogQlExpr grows (p ++ ['<'] ++ a ++ ['>', '<'] ++ s) = Except.ok []) ∧
    ('>' ∉ s → parseLogQlExpr grows (p ++ ['<'] ++ a ++ ['>', '<'] ++ s)
      = Except.error Fault.scanOverrun) := by
  obtain ⟨c, t, rfl⟩ := List.exists_cons_of_ne_nil ha
  simp only [List.mem_cons, not_or] at ha1 ha2 ha0
  have hbuf : (p ++ ['<'] ++ c :: t ++ ['>', '<'] ++ s) ++ [NUL] =
      p ++ '<' :: c :: (t ++ '>' :: '<' :: (s ++ [NUL])) := by simp
  obtain ⟨ps2, m, hm, heq⟩ := driverLoop_plain grows
    ('<' :: c :: (t ++ '>' :: '<' :: (s ++ [NUL]))) (Or.inl rfl) p
    ((p ++ ['<'] ++ c :: t ++ ['>', '<'] ++ s).length + 2) [] hp1 hp2 hp0
  simp only [List.length_append, List.length_cons, List.length_nil] at hm
  obtain ⟨k, rfl⟩ : ∃ k, m = k + 1 := ⟨m - 1, by omega⟩
  obtain ⟨d, hd⟩ := parseCaptureString_ok ⟨c :: t, TokenType.Literal⟩ (List.cons_ne_nil _ _)
  have hpc := parseCapture_single grows c t ('<' :: (s ++ [NUL])) ps2 (fun e => ha1.1 e.symm)
    (fun e => ha2.1 e.symm) (by simpa using haq) (fun e => ha0.1 e.symm) ha1.2 ha2.2 ha0.2
    (fun e => absurd (show ('<' : Char) = '?' from e) (by decide))
  rw [hd] at hpc
  simp only at hpc
  have hrun : runLogQlExpr grows (p ++ ['<'] ++ c :: t ++ ['>', '<'] ++ s) =
      match backToBackDiagnostic ('<' :: c :: (t ++ '>' :: '<' :: (s ++ [NUL])))
        ('<' :: (s ++ [NUL])) with
      | Except.error e => Except.error e
      | Except.ok diag => Except.ok ⟨[], DriverState.Failed, diag⟩ := by
    rw [runLogQlExpr, hbuf, heq, driverLoop_capture grows k _ ps2 _ _ hpc (by simp),
      if_pos (show headByte ('<' :: (s ++ [NUL])) = '<' from rfl)]
  have hmem : '>' ∈ '<' :: (s ++ [NUL]) ↔ '>' ∈ s := by
    have h1 : ('>' : Char) ≠ '<' := by decide
    have h2 : ('>' : Char) ≠ NUL := by decide
    simp [h1, h2]
  rw [parseLogQlExpr, hrun]
  constructor
  · intro hs
    rcases backToBackDiagnostic_cases ('<' :: c :: (t ++ '>' :: '<' :: (s ++ [NUL])))
      ('<' :: (s ++ [NUL])) with hb | ⟨diag, hb⟩
    · exact absurd (hmem.mpr hs) ((backToBackDiagnostic_overrun_iff _ _).mp hb)
    · rw [hb]
      rfl
  · intro hs
    rw [(backToBackDiagnostic_overrun_iff _ _).mpr (fun hm2 => hs (hmem.mp hm2))]
    rfl

/-- C2, the runs at the failing inputs `x<a><b` and `<a><`: the capture `<a>` is parsed, the
peek sees `<`, the back-to-back branch is taken and its scan for `>` leaves the buffer before
the list is cleared and returned.  On `<a><b>` the scan finds the `>` and the empty list is
returned. -/
theorem C2_back_to_back_scan_overrun :
    parseLogQlExpr vectorGrows "x<a><b".toList = Except.error Fault.scanOverrun ∧
    parseLogQlExpr vectorGrows "<a><".toList = Except.error Fault.scanOverrun ∧
    parseLogQlExpr vectorGrows "<a><b>".toList = Except.ok [] :=
  ⟨rfl, rfl, rfl⟩

/-- C18, the run at the failing input `<a>b<c><d`: every turn of the driver loop and of the
literal scan moves the cursor forward, inside the buffer; the third loop of the code, the
scan of the diagnostic for the next `>` (line 210), tests for no end: from the cursor on
`<d` it passes the terminator and goes on outside the buffer, bounded by nothing in the
input.  More fuel for the driver loop changes nothing. -/
theorem C18_scan_not_bounded :
    parseCapture vectorGrows ⟨"c><d".toList ++ [NUL]⟩ [] =
      Except.ok (true, ⟨"<d".toList ++ [NUL]⟩,
        [⟨[], "c".toList, ParserType.Any, CombType.Null, '<'⟩]) ∧
    scanClose ("<d".toList ++ [NUL]) = none ∧
    runLogQlExpr vectorGrows "<a>b<c><d".toList = Except.error Fault.scanOverrun ∧
    (∀ fuel, "<a>b<c><d".toList.length + 2 ≤ fuel →
      driverLoop vectorGrows fuel ⟨"<a>b<c><d".toList ++ [NUL]⟩ [] =
        Except.error Fault.scanOverrun) := by
  refine ⟨rfl, rfl, rfl, fun fuel hfuel => ?_⟩
  rw [(driverLoop_bounded vectorGrows "<a>b<c><d".toList).2.2.2.2 fuel hfuel]
  rfl

end LogQL
